import Mathlib

/-!
# Huffman compressor (`Src/hauffman.c`): shallow embedding and verified properties

Bytes, counters and machine integers are natural numbers, with an explicit
`% 2 ^ w` wherever the C code can wrap.  A `Node *` is a value of `Node`
(`Node.null` is the NULL pointer).  A `FILE *` opened for reading is the list
of bytes still to be read; a `FILE *` opened for writing is the list of bytes
written so far.  Loops whose trip count is not syntactically bounded take a
fuel argument; the callers pass a fuel that is shown to be sufficient.
-/

namespace Huffman

/-! ## Data model -/

/-- `#define SYMBOLS 256`. -/
def SYMBOLS : Nat := 256

/-- A `Node *`: NULL, or a pointer to a `struct Node` holding `symbol`, `freq`
and the two child pointers. -/
inductive Node where
  | null : Node
  | mk (symbol : Nat) (freq : Nat) (left right : Node) : Node
deriving DecidableEq

instance : Inhabited Node := ⟨Node.null⟩

/-- Field read `n->symbol` (never evaluated on NULL by the program). -/
def Node.symbol : Node → Nat
  | .null => 0
  | .mk s _ _ _ => s

/-- Field read `n->freq` (never evaluated on NULL by the program). -/
def Node.freq : Node → Nat
  | .null => 0
  | .mk _ f _ _ => f

/-- Field read `n->left`. -/
def Node.left : Node → Node
  | .null => .null
  | .mk _ _ l _ => l

/-- Field read `n->right`. -/
def Node.right : Node → Node
  | .null => .null
  | .mk _ _ _ r => r

/-- The `struct MinHeap`: `size` is the length of `array`, which holds the
live slots `array[0 .. size-1]`. -/
structure MinHeap where
  capacity : Nat
  array : List Node
deriving DecidableEq

/-- Field read `h->size`. -/
def MinHeap.size (h : MinHeap) : Nat := h.array.length

/-- The `struct BitWriter`; `f` is the sink, the bytes written so far. -/
structure BitWriter where
  f : List Nat
  buffer : Nat
  bit_count : Nat
deriving DecidableEq

/-- The `struct BitReader`; `f` is the source, the bytes not yet read. -/
structure BitReader where
  f : List Nat
  buffer : Nat
  bit_count : Nat
  eof_reached : Nat
deriving DecidableEq

/-! ## Nodes and the min-heap -/

/-- `create_node`: a fresh node without children. -/
def create_node (symbol freq : Nat) : Node := .mk symbol freq .null .null

/-- `create_minheap`. -/
def create_minheap (capacity : Nat) : MinHeap := { capacity := capacity, array := [] }

/-- `swap_nodes(&array[i], &array[j])`. -/
def swap_nodes (a : List Node) (i j : Nat) : List Node :=
  (a.set i (a.getD j .null)).set j (a.getD i .null)

/-- The sift-up `while` loop of `minheap_insert`, started at index `i`. -/
def sift_up : Nat → List Node → Nat → List Node
  | 0, a, _ => a
  | fuel + 1, a, i =>
    if i ≠ 0 ∧ (a.getD ((i - 1) / 2) .null).freq > (a.getD i .null).freq then
      sift_up fuel (swap_nodes a i ((i - 1) / 2)) ((i - 1) / 2)
    else a

/-- `minheap_insert`. -/
def minheap_insert (h : MinHeap) (node : Node) : MinHeap :=
  let capacity := if h.size = h.capacity then h.capacity * 2 else h.capacity
  let i := h.size
  { capacity := capacity, array := sift_up i (h.array ++ [node]) i }

/-- `minheapify` on the live slots `a`, from index `idx`. -/
def minheapify : Nat → List Node → Nat → List Node
  | 0, a, _ => a
  | fuel + 1, a, idx =>
    let l := 2 * idx + 1
    let r := 2 * idx + 2
    let smallest :=
      if l < a.length ∧ (a.getD l .null).freq < (a.getD idx .null).freq then l else idx
    let smallest :=
      if r < a.length ∧ (a.getD r .null).freq < (a.getD smallest .null).freq then r
      else smallest
    if smallest ≠ idx then minheapify fuel (swap_nodes a smallest idx) smallest else a

/-- `minheap_extract`: the node returned (NULL on an empty heap) and the heap
afterwards. -/
def minheap_extract (h : MinHeap) : Node × MinHeap :=
  if h.size = 0 then (.null, h)
  else
    let root := h.array.getD 0 .null
    let size := h.size - 1
    let a := (h.array.set 0 (h.array.getD size .null)).take size
    (root, { capacity := h.capacity, array := minheapify size a 0 })

/-! ## Tree construction and code generation -/

/-- The first `for` loop of `build_huffman_tree`: one leaf per non-zero entry. -/
def insert_leaves (freq_table : List Nat) (h : MinHeap) : MinHeap :=
  (List.range SYMBOLS).foldl
    (fun h i =>
      if freq_table.getD i 0 > 0 then
        minheap_insert h (create_node (i % 256) (freq_table.getD i 0))
      else h)
    h

/-- The `while (h->size > 1)` loop of `build_huffman_tree`. -/
def merge_loop : Nat → MinHeap → MinHeap
  | 0, h => h
  | fuel + 1, h =>
    if h.size > 1 then
      let left := (minheap_extract h).1
      let h1 := (minheap_extract h).2
      let right := (minheap_extract h1).1
      let h2 := (minheap_extract h1).2
      let parent := Node.mk 0 ((left.freq + right.freq) % 2 ^ 32) left right
      merge_loop fuel (minheap_insert h2 parent)
    else h

/-- `build_huffman_tree`. -/
def build_huffman_tree (freq_table : List Nat) : Node :=
  let h := insert_leaves freq_table (create_minheap 256)
  let h :=
    if h.size = 1 then
      let only := (minheap_extract h).1
      let h1 := (minheap_extract h).2
      let parent := Node.mk 0 only.freq only (create_node 0 0)
      minheap_insert h1 parent
    else h
  let h := merge_loop h.size h
  (minheap_extract h).1

/-- The terminating NUL character. -/
def NUL : Char := Char.ofNat 0

/-- `strdup`: the characters before the first NUL. -/
def strdup (s : List Char) : List Char := s.takeWhile (fun c => c ≠ NUL)

/-- `build_codes`: returns the buffer `code` and the table `codes` as the call
leaves them. -/
def build_codes : Node → List Char → Nat → List (Option (List Char)) →
    List Char × List (Option (List Char))
  | .null, code, _, codes => (code, codes)
  | .mk symbol _ left right, code, depth, codes =>
    if left = .null ∧ right = .null then
      let code := code.set depth NUL
      (code, codes.set symbol (some (strdup code)))
    else
      let s1 :=
        if left ≠ .null then build_codes left (code.set depth '0') (depth + 1) codes
        else (code, codes)
      if right ≠ .null then build_codes right (s1.1.set depth '1') (depth + 1) s1.2
      else s1

/-- The table `codes` of `huffman_encode` once `build_codes(root, codebuf, 0,
codes)` has returned.  `codes` starts all NULL.  The automatic array
`codebuf` is not initialised by the C code; it is taken to be all NUL here, and
`build_codes_buffer_irrelevant` shows that its initial content does not
matter. -/
def code_table (root : Node) : List (Option (List Char)) :=
  (build_codes root (List.replicate SYMBOLS NUL) 0 (List.replicate SYMBOLS none)).2

/-! ## Header -/

/-- The `n` bytes of the object representation of `x` (little-endian), as
`fwrite(&x, n, 1, out)` emits them. -/
def le_bytes : Nat → Nat → List Nat
  | 0, _ => []
  | n + 1, x => (x % 256) :: le_bytes n (x / 256)

/-- The value whose little-endian object representation is `bs`. -/
def le_value : List Nat → Nat
  | [] => 0
  | b :: bs => b + 256 * le_value bs

/-- `fread(&x, size, 1, in)`: the bytes of the item when all `size` are
there (`fread` returned 1), and the source afterwards. -/
def fread (size : Nat) (inp : List Nat) : Option (List Nat) × List Nat :=
  if size ≤ inp.length then (some (inp.take size), inp.drop size) else (none, [])

/-- `write_header` on a sink that accepts every write: the `int` returned and
the sink afterwards. -/
def write_header (out : List Nat) (freq_table : List Nat) : Nat × List Nat :=
  let unique :=
    (List.range SYMBOLS).foldl
      (fun u i => if freq_table.getD i 0 ≠ 0 then (u + 1) % 2 ^ 16 else u) 0
  let out := out ++ le_bytes 2 unique
  let out :=
    (List.range SYMBOLS).foldl
      (fun out i =>
        if freq_table.getD i 0 ≠ 0 then
          (out ++ le_bytes 1 (i % 256)) ++ le_bytes 4 (freq_table.getD i 0)
        else out)
      out
  (1, out)

/-- The `for (i = 0; i < unique; ++i)` loop of `read_header`, `n` iterations
to go: the `int` to return (0 when an `fread` fails), the source afterwards
and the table. -/
def read_pairs : Nat → List Nat → List Nat → Nat × List Nat × List Nat
  | 0, inp, freq_table => (1, inp, freq_table)
  | n + 1, inp, freq_table =>
    match fread 1 inp with
    | (none, inp1) => (0, inp1, freq_table)
    | (some sym, inp1) =>
      match fread 4 inp1 with
      | (none, inp2) => (0, inp2, freq_table)
      | (some f, inp2) => read_pairs n inp2 (freq_table.set (le_value sym) (le_value f))

/-- `read_header`: the `int` returned, the source afterwards and the table. -/
def read_header (inp : List Nat) (freq_table : List Nat) : Nat × List Nat × List Nat :=
  match fread 2 inp with
  | (none, inp1) => (0, inp1, freq_table)
  | (some unique, inp1) => read_pairs (le_value unique) inp1 freq_table

/-! ## Bit I/O -/

/-- `bitwriter_create`. -/
def bitwriter_create (f : List Nat) : BitWriter := { f := f, buffer := 0, bit_count := 0 }

/-- `bitwriter_write_bit`. -/
def bitwriter_write_bit (bw : BitWriter) (bit : Nat) : BitWriter :=
  let buffer := if bit ≠ 0 then (bw.buffer ||| (1 <<< (7 - bw.bit_count))) % 256 else bw.buffer
  let bit_count := bw.bit_count + 1
  if bit_count = 8 then { f := bw.f ++ [buffer], buffer := 0, bit_count := 0 }
  else { f := bw.f, buffer := buffer, bit_count := bit_count }

/-- `bitwriter_write_bits`: one bit per character of the NUL-terminated
string, `1` for the character `'1'`. -/
def bitwriter_write_bits (bw : BitWriter) (bits : List Char) : BitWriter :=
  bits.foldl (fun bw p => bitwriter_write_bit bw (if p = '1' then 1 else 0)) bw

/-- `bitwriter_flush`. -/
def bitwriter_flush (bw : BitWriter) : BitWriter :=
  if bw.bit_count > 0 then { f := bw.f ++ [bw.buffer], buffer := 0, bit_count := 0 } else bw

/-- `bitreader_create`. -/
def bitreader_create (f : List Nat) : BitReader :=
  { f := f, buffer := 0, bit_count := 0, eof_reached := 0 }

/-- The refill at the top of `bitreader_read_bit`: `none` when `fgetc`
returns `EOF`. -/
def bitreader_fill (br : BitReader) : Option BitReader :=
  if br.bit_count = 0 then
    match br.f with
    | [] => none
    | c :: rest =>
      some { f := rest, buffer := c % 256, bit_count := 8, eof_reached := br.eof_reached }
  else some br

/-- `bitreader_read_bit`: the `int` returned (`-1` at end of file) and the
reader afterwards. -/
def bitreader_read_bit (br : BitReader) : Int × BitReader :=
  match bitreader_fill br with
  | none => (-1, { br with eof_reached := 1 })
  | some br1 =>
    let bit : Int := if br1.buffer &&& (1 <<< (7 - (8 - br1.bit_count))) ≠ 0 then 1 else 0
    (bit, { br1 with bit_count := br1.bit_count - 1 })

/-! ## Encoder and decoder -/

/-- The first `while` loop of `huffman_encode`: the table of counts and
`total_bytes`. -/
def count_bytes (fin : List Nat) (freq_table : List Nat) (total_bytes : Nat) :
    List Nat × Nat :=
  fin.foldl
    (fun st c =>
      (st.1.set (c % 256) ((st.1.getD (c % 256) 0 + 1) % 2 ^ 32), (st.2 + 1) % 2 ^ 64))
    (freq_table, total_bytes)

/-- The second `while` loop of `huffman_encode`: a byte without a code is
skipped. -/
def write_codes (fin : List Nat) (codes : List (Option (List Char))) (bw : BitWriter) :
    BitWriter :=
  fin.foldl
    (fun bw c =>
      match codes.getD (c % 256) none with
      | none => bw
      | some code => bitwriter_write_bits bw code)
    bw

/-- `huffman_encode`.  `infile` is the content of the input file when it can
be opened, `out_ok` says whether the output file can be opened.  Returns the
`int` result and the content of the output file when it was opened. -/
def huffman_encode (infile : Option (List Nat)) (out_ok : Bool) : Nat × Option (List Nat) :=
  match infile with
  | none => (0, none)
  | some fin =>
    let st := count_bytes fin (List.replicate SYMBOLS 0) 0
    let freq_table := st.1
    let total_bytes := st.2
    if total_bytes = 0 then (0, none)
    else
      let root := build_huffman_tree freq_table
      let codes := code_table root
      if ¬ out_ok then (0, none)
      else
        let hdr := write_header [] freq_table
        if hdr.1 = 0 then (0, some hdr.2)
        else
          let bw := bitwriter_create hdr.2
          let bw := write_codes fin codes bw
          let bw := bitwriter_flush bw
          (1, some bw.f)

/-- The `while` loop of `huffman_decode`: the sink afterwards, or `none` when
`cur` is NULL where the loop dereferences it. -/
def decode_loop : Nat → Node → BitReader → Node → List Nat → Option (List Nat)
  | 0, _, _, _, fout => some fout
  | fuel + 1, root, br, cur, fout =>
    let rb := bitreader_read_bit br
    if rb.1 = -1 then some fout
    else
      match cur with
      | .null => none
      | .mk _ _ l r =>
        let cur := if rb.1 = 0 then l else r
        match cur with
        | .null => none
        | .mk symbol _ cl cr =>
          if cl = .null ∧ cr = .null then
            decode_loop fuel root rb.2 root (fout ++ [symbol % 256])
          else decode_loop fuel root rb.2 cur fout

/-- `huffman_decode`.  Arguments and result as for `huffman_encode`; the
result is `none` when the walk dereferences NULL. -/
def huffman_decode (infile : Option (List Nat)) (out_ok : Bool) :
    Option (Nat × Option (List Nat)) :=
  match infile with
  | none => some (0, none)
  | some fin =>
    let rh := read_header fin (List.replicate SYMBOLS 0)
    if rh.1 = 0 then some (0, none)
    else
      let root := build_huffman_tree rh.2.2
      if root = .null then some (0, none)
      else if ¬ out_ok then some (0, none)
      else
        let br := bitreader_create rh.2.1
        match decode_loop (8 * rh.2.1.length + 1) root br root [] with
        | none => none
        | some fout => some (1, some fout)

/-! ## Notions used in the statements -/

/-- The table of counts that `huffman_encode` computes for the content `fin`. -/
def freq_of (fin : List Nat) : List Nat := (count_bytes fin (List.replicate SYMBOLS 0) 0).1

/-- Length of the code recorded for byte `s`; 0 when `codes[s]` is NULL. -/
def code_len (codes : List (Option (List Char))) (s : Nat) : Nat :=
  match codes.getD s none with
  | none => 0
  | some code => code.length

/-- The byte values with a non-zero count, in ascending order. -/
def present (freq_table : List Nat) : List Nat :=
  (List.range SYMBOLS).filter (fun i => freq_table.getD i 0 ≠ 0)

/-- The header layout of the format: the count of byte values present, then
for each of them the byte value and its four-byte frequency. -/
def header_layout (freq_table : List Nat) : List Nat :=
  le_bytes 2 (present freq_table).length ++
    (present freq_table).flatMap (fun i => i :: le_bytes 4 (freq_table.getD i 0))

/-- The weight `array[i]->freq` of slot `i`. -/
def wt (a : List Node) (i : Nat) : Nat := (a.getD i .null).freq

/-- Min-heap order on the live slots: no slot is lighter than its parent
slot `(i - 1) / 2`. -/
def IsHeap (a : List Node) : Prop :=
  ∀ i, 0 < i → i < a.length → wt a ((i - 1) / 2) ≤ wt a i

/-- A sequence of `minheap_insert` calls, one per node of `nodes`, in order. -/
def insert_all (nodes : List Node) (h : MinHeap) : MinHeap :=
  nodes.foldl minheap_insert h

/-- A sequence of `n` `minheap_extract` calls: the nodes returned, in order. -/
def extract_all : Nat → MinHeap → List Node
  | 0, _ => []
  | n + 1, h => (minheap_extract h).1 :: extract_all n (minheap_extract h).2

/-- A strict binary tree: a non-NULL node that is a leaf (both child pointers
NULL) or has two children that are strict binary trees. -/
def Full : Node → Prop
  | .null => False
  | .mk _ _ l r => (l = .null ∧ r = .null) ∨ (Full l ∧ Full r)

/-- The `(symbol, freq)` pairs on the leaves of a tree, left to right. -/
def leaves : Node → List (Nat × Nat)
  | .null => []
  | .mk s f l r => if l = .null ∧ r = .null then [(s, f)] else leaves l ++ leaves r

/-- Number of edges on the longest downward path of a tree. -/
def height : Node → Nat
  | .null => 0
  | .mk _ _ l r => if l = .null ∧ r = .null then 0 else 1 + max (height l) (height r)

/-- The leaves of a tree in the order `build_codes` visits them, each with its
symbol and the path to it from the root (`'0'` left, `'1'` right), the path
`pre` leading to the tree itself. -/
def leaf_paths : Node → List Char → List (Nat × List Char)
  | .null, _ => []
  | .mk s _ l r, pre =>
    if l = .null ∧ r = .null then [(s, pre)]
    else leaf_paths l (pre ++ ['0']) ++ leaf_paths r (pre ++ ['1'])

/-- Recording the paths `ps` in a code table, in order (a later path for the
same symbol replaces an earlier one). -/
def record_paths (ps : List (Nat × List Char)) (codes : List (Option (List Char))) :
    List (Option (List Char)) :=
  ps.foldl (fun cs p => cs.set p.1 (some p.2)) codes

/-- Total weighted length of a list of `(weight, length)` pairs. -/
def pcost (P : List (Nat × Nat)) : Nat := (P.map (fun p => p.1 * p.2)).sum

/-- Kraft's inequality for code lengths `ls`, scaled by `2 ^ L`: every length
is at most `L` and the sum of `2 ^ (L - l)` is at most `2 ^ L`. -/
def KraftLe (L : Nat) (ls : List Nat) : Prop :=
  (∀ l ∈ ls, l ≤ L) ∧ (ls.map (fun l => 2 ^ (L - l))).sum ≤ 2 ^ L

/-- A run of the greedy merging on the weights `ws`: while more than one
weight is left, two least weights `a ≤ b` are replaced by `a + b`.  The second
index is the sum of the merged weights `a + b` over the run. -/
inductive Greedy : List Nat → Nat → Prop
  | single (w : Nat) : Greedy [w] 0
  | step (ws rest : List Nat) (a b g : Nat) :
      ws.Perm (a :: b :: rest) → a ≤ b → (∀ x ∈ rest, b ≤ x) →
      Greedy ((a + b) :: rest) g → Greedy ws (g + (a + b))

/-- Sum of the weights on the leaves of a tree. -/
def weight : Node → Nat
  | .null => 0
  | .mk _ f l r => if l = .null ∧ r = .null then f else weight l + weight r

/-- Weighted path length of a tree: the sum over its leaves of weight times
depth. -/
def wpl : Node → Nat
  | .null => 0
  | .mk _ _ l r => if l = .null ∧ r = .null then 0 else wpl l + wpl r + weight l + weight r

/-- A strict binary tree in which the weight of every internal node is the sum
of the weights of its two children. -/
def Sound : Node → Prop
  | .null => False
  | .mk _ f l r => (l = .null ∧ r = .null) ∨ (Sound l ∧ Sound r ∧ f = l.freq + r.freq)

/-- The leaves of a tree, left to right, each with its symbol, its weight and
the path to it from the root, the path `pre` leading to the tree itself. -/
def leaf_info : Node → List Char → List (Nat × Nat × List Char)
  | .null, _ => []
  | .mk s f l r, pre =>
    if l = .null ∧ r = .null then [(s, f, pre)]
    else leaf_info l (pre ++ ['0']) ++ leaf_info r (pre ++ ['1'])

/-- Total weighted code length for the table `freq_table` of a code whose
codeword for byte `s` has `len s` bits: the sum over the byte values present
of frequency times length. -/
def weighted_length (freq_table : List Nat) (len : Nat → Nat) : Nat :=
  ((present freq_table).map (fun s => freq_table.getD s 0 * len s)).sum

/-- One call on the priority queue: `minheap_insert(h, node)` or
`minheap_extract(h)`. -/
inductive HeapCall where
  | insert (node : Node) : HeapCall
  | extract : HeapCall

/-- The heap after a sequence of calls, in order. -/
def run_calls (calls : List HeapCall) (h : MinHeap) : MinHeap :=
  calls.foldl
    (fun h c =>
      match c with
      | .insert node => minheap_insert h node
      | .extract => (minheap_extract h).2)
    h

/-- Number of internal nodes (nodes with a child) of a tree. -/
def internal_count : Node → Nat
  | .null => 0
  | .mk _ _ l r =>
    if l = .null ∧ r = .null then 0 else 1 + internal_count l + internal_count r

/-- A leaf: a non-NULL node whose two child pointers are NULL (the test
`!cur->left && !cur->right` of the decoder and of `build_codes`). -/
def is_leaf (t : Node) : Prop := t ≠ .null ∧ t.left = .null ∧ t.right = .null

/-- The node reached from `t` along a path of characters: `'0'` goes to the
left child, `'1'` to the right child. -/
def walk : Node → List Char → Node
  | t, [] => t
  | t, c :: cs => if c = '0' then walk t.left cs else if c = '1' then walk t.right cs else .null

/-- The indices `depth` at which `build_codes(root, code, depth, codes)` writes
`code[depth]`, in the order of the writes. -/
def write_indices : Node → Nat → List Nat
  | .null, _ => []
  | .mk _ _ l r, depth =>
    if l = .null ∧ r = .null then [depth]
    else
      (if l ≠ .null then depth :: write_indices l (depth + 1) else []) ++
        (if r ≠ .null then depth :: write_indices r (depth + 1) else [])

/-- A sequence of `bitwriter_write_bit` calls, one per bit of `bs`, in order
(the `int` passed is 1 for a set bit, 0 otherwise). -/
def write_all (bw : BitWriter) (bs : List Bool) : BitWriter :=
  bs.foldl (fun bw b => bitwriter_write_bit bw (if b then 1 else 0)) bw

/-- A sequence of `n` `bitreader_read_bit` calls: the values returned, in
order. -/
def read_bits : Nat → BitReader → List Int
  | 0, _ => []
  | n + 1, br => (bitreader_read_bit br).1 :: read_bits n (bitreader_read_bit br).2

/-- The `int` that stands for a bit. -/
def bit_int (b : Bool) : Int := if b then 1 else 0

/-- The number whose binary digits, most significant first, are `c`. -/
def bits_value (c : List Bool) : Nat :=
  c.foldl (fun v b => 2 * v + (if b then 1 else 0)) 0

/-- The byte that holds the at most 8 bits `c` most significant bit first,
its unused low-order positions being 0. -/
def pack_byte (c : List Bool) : Nat := bits_value c * 2 ^ (8 - c.length)

/-- MSB-first packing of a bit sequence into bytes, zero-padded to a byte
boundary. -/
def pack (bs : List Bool) : List Nat :=
  (List.range ((bs.length + 7) / 8)).map (fun j => pack_byte ((bs.drop (8 * j)).take 8))

/-- The 8 bits of a byte, most significant first. -/
def byte_bits (c : Nat) : List Bool :=
  [c.testBit 7, c.testBit 6, c.testBit 5, c.testBit 4, c.testBit 3, c.testBit 2,
    c.testBit 1, c.testBit 0]

/-- The bits of a sequence of bytes, each byte most significant bit first. -/
def unpack (bytes : List Nat) : List Bool := bytes.flatMap byte_bits

/-- The bits a reader has still to deliver: the low `bit_count` bits of its
buffer, then the bits of the bytes not yet read. -/
def pending_bits (br : BitReader) : List Bool :=
  (List.range br.bit_count).reverse.map (fun p => br.buffer.testBit p) ++ unpack br.f

/-- The bits that the body loop of `huffman_encode` writes for the input byte
`c`: the codeword `codes[c]`, a set bit for each character `'1'`; no bit when
`codes[c]` is NULL. -/
def code_bits (codes : List (Option (List Char))) (c : Nat) : List Bool :=
  match codes.getD (c % 256) none with
  | none => []
  | some code => code.map (fun p => decide (p = '1'))

/-- The bytes that the tree walk of the `while` loop of `huffman_decode` emits
for the bits `bs`, started at node `cur`: a clear bit goes to the left child, a
set bit to the right child; on a leaf (`!cur->left && !cur->right`) its symbol
is written with `fputc` and the walk restarts at `root`. -/
def walk_emit (root : Node) : Node → List Bool → List Nat
  | _, [] => []
  | cur, b :: bs =>
    if (if b then cur.right else cur.left) ≠ .null ∧
        (if b then cur.right else cur.left).left = .null ∧
        (if b then cur.right else cur.left).right = .null then
      ((if b then cur.right else cur.left).symbol % 256) :: walk_emit root root bs
    else walk_emit root (if b then cur.right else cur.left) bs

/-! # Theorems -/

/-! ## Concrete runs -/

/-- C1 (evaluation at the failing inputs): encoding the four bytes "aaab" and
decoding the result succeeds but yields the eight bytes "aaabbbbb": the four
zero pad bits of the last byte are decoded as four more copies of `b`.
Likewise the one-byte input "A" comes back as eight copies of "A".  In both
cases the round trip does not return the input. -/
theorem roundtrip_aaab_appends_padding :
    huffman_encode (some [97, 97, 97, 98]) true
        = (1, some [2, 0, 97, 3, 0, 0, 0, 98, 1, 0, 0, 0, 224]) ∧
      huffman_decode (huffman_encode (some [97, 97, 97, 98]) true).2 true
        = some (1, some [97, 97, 97, 98, 98, 98, 98, 98]) ∧
      huffman_decode (huffman_encode (some [97, 97, 97, 98]) true).2 true
        ≠ some (1, some [97, 97, 97, 98]) ∧
      huffman_encode (some [65]) true = (1, some [1, 0, 65, 1, 0, 0, 0, 0]) ∧
      huffman_decode (huffman_encode (some [65]) true).2 true
        = some (1, some [65, 65, 65, 65, 65, 65, 65, 65]) := by
  set_option maxRecDepth 100000 in decide

/-- C7 (counterexample): for the input "aaab" the code recorded for `a` is not
strictly shorter than the code recorded for `b`. -/
theorem aaab_code_not_strictly_shorter :
    ¬ (code_len (code_table (build_huffman_tree (freq_of [97, 97, 97, 98]))) 97
        < code_len (code_table (build_huffman_tree (freq_of [97, 97, 97, 98]))) 98) := by
  set_option maxRecDepth 100000 in decide

/-- C7 (amended): for the input "aaab" (frequencies a:3, b:1) the tree has the
leaf of `b` on the left and the leaf of `a` on the right, `a` gets the code
"1" and `b` the code "0", so the code of `a` is as long as, and in particular
not longer than, the code of `b`. -/
theorem aaab_codes :
    freq_of [97, 97, 97, 98] = ((List.replicate 256 0).set 97 3).set 98 1 ∧
      build_huffman_tree (freq_of [97, 97, 97, 98])
        = .mk 0 4 (.mk 98 1 .null .null) (.mk 97 3 .null .null) ∧
      (code_table (build_huffman_tree (freq_of [97, 97, 97, 98]))).getD 97 none
        = some ['1'] ∧
      (code_table (build_huffman_tree (freq_of [97, 97, 97, 98]))).getD 98 none
        = some ['0'] ∧
      code_len (code_table (build_huffman_tree (freq_of [97, 97, 97, 98]))) 97
        ≤ code_len (code_table (build_huffman_tree (freq_of [97, 97, 97, 98]))) 98 := by
  set_option maxRecDepth 100000 in decide

/-! ## The counting loop -/

theorem count_bytes_total (fin : List Nat) (ft : List Nat) (n : Nat) :
    (count_bytes fin ft n).2 % 2 ^ 64 = (n + fin.length) % 2 ^ 64 := by
  unfold count_bytes
  induction fin generalizing ft n with
  | nil => simp
  | cons c cs ih =>
    rw [List.foldl_cons, ih]
    simp only [List.length_cons]
    omega

theorem count_bytes_total_lt (fin : List Nat) (ft : List Nat) (n : Nat) (hn : n < 2 ^ 64) :
    (count_bytes fin ft n).2 < 2 ^ 64 := by
  unfold count_bytes
  induction fin generalizing ft n with
  | nil => simpa using hn
  | cons c cs ih =>
    rw [List.foldl_cons]
    exact ih _ _ (Nat.mod_lt _ (by norm_num))

/-- C4: `huffman_encode` on an empty input file returns 0 and does not open
the output file (no byte is written); on every non-empty input file (of fewer
than 2^64 bytes, the range of `total_bytes`) whose output file can be opened
it returns 1 and leaves an output file. -/
theorem encode_empty_fails_nonempty_succeeds (out_ok : Bool) (fin : List Nat)
    (hne : fin ≠ []) (hlen : fin.length < 2 ^ 64) :
    huffman_encode (some []) out_ok = (0, none) ∧
      (huffman_encode (some fin) true).1 = 1 ∧
      ∃ out, (huffman_encode (some fin) true).2 = some out := by
  refine ⟨by simp [huffman_encode, count_bytes], ?_⟩
  have h1 := count_bytes_total fin (List.replicate SYMBOLS 0) 0
  have h2 := count_bytes_total_lt fin (List.replicate SYMBOLS 0) 0 (by norm_num)
  have h3 : (count_bytes fin (List.replicate SYMBOLS 0) 0).2 ≠ 0 := by
    have : 0 < fin.length := List.length_pos.mpr hne
    rw [Nat.mod_eq_of_lt h2, Nat.zero_add, Nat.mod_eq_of_lt hlen] at h1
    omega
  simp [huffman_encode, h3, write_header]

theorem encode_empty_fails_nonempty_succeeds_witness :
    ([65] : List Nat) ≠ [] ∧ ([65] : List Nat).length < 2 ^ 64 ∧
      (huffman_encode (some []) true = (0, none) ∧
        (huffman_encode (some [65]) true).1 = 1 ∧
        ∃ out, (huffman_encode (some [65]) true).2 = some out) :=
  ⟨by decide, by decide, encode_empty_fails_nonempty_succeeds true [65] (by decide) (by decide)⟩

/-! ## Header layout -/

theorem foldl_count (p : Nat → Prop) [DecidablePred p] (l : List Nat) (u : Nat) :
    l.foldl (fun u i => if p i then (u + 1) % 2 ^ 16 else u) u % 2 ^ 16
      = (u + (l.filter (fun i => p i)).length) % 2 ^ 16 := by
  induction l generalizing u with
  | nil => simp
  | cons i is ih =>
    rw [List.foldl_cons, ih]
    by_cases hp : p i
    · simp only [hp, if_true, List.filter_cons, decide_True, List.length_cons]; omega
    · simp [hp, List.filter_cons]

theorem foldl_count_lt (p : Nat → Prop) [DecidablePred p] (l : List Nat) (u : Nat)
    (hu : u < 2 ^ 16) :
    l.foldl (fun u i => if p i then (u + 1) % 2 ^ 16 else u) u < 2 ^ 16 := by
  induction l generalizing u with
  | nil => simpa using hu
  | cons i is ih =>
    rw [List.foldl_cons]
    apply ih
    split
    · exact Nat.mod_lt _ (by norm_num)
    · exact hu

theorem foldl_emit (p : Nat → Prop) [DecidablePred p] (g : Nat → List Nat) (l : List Nat)
    (out : List Nat) :
    l.foldl (fun out i => if p i then out ++ g i else out) out
      = out ++ (l.filter (fun i => p i)).flatMap g := by
  induction l generalizing out with
  | nil => simp
  | cons i is ih =>
    rw [List.foldl_cons, ih]
    by_cases hp : p i
    · simp [hp, List.filter_cons]
    · simp [hp, List.filter_cons]

theorem present_length_le (ft : List Nat) : (present ft).length ≤ 256 := by
  unfold present
  exact (List.length_filter_le _ _).trans (by simp [SYMBOLS])

theorem mem_present (ft : List Nat) (i : Nat) :
    i ∈ present ft ↔ i < 256 ∧ ft.getD i 0 ≠ 0 := by
  simp [present, SYMBOLS]

theorem write_header_eq (out ft : List Nat) :
    write_header out ft = (1, out ++ header_layout ft) := by
  have hk : (List.range SYMBOLS).foldl
      (fun u i => if ft.getD i 0 ≠ 0 then (u + 1) % 2 ^ 16 else u) 0
      = (present ft).length := by
    have h1 := foldl_count (fun i => ft.getD i 0 ≠ 0) (List.range SYMBOLS) 0
    have h2 := foldl_count_lt (fun i => ft.getD i 0 ≠ 0) (List.range SYMBOLS) 0 (by norm_num)
    have h3 := present_length_le ft
    rw [Nat.mod_eq_of_lt h2, Nat.zero_add] at h1
    rw [h1]
    exact Nat.mod_eq_of_lt (by unfold present at h3; omega)
  unfold write_header
  simp only [hk]
  have := foldl_emit (fun i => ft.getD i 0 ≠ 0)
    (fun i => le_bytes 1 (i % 256) ++ le_bytes 4 (ft.getD i 0)) (List.range SYMBOLS)
    (out ++ le_bytes 2 (present ft).length)
  simp only [List.append_assoc] at this ⊢
  rw [this]
  unfold header_layout
  congr 3
  apply List.flatMap_congr
  intro i hi
  have : i < 256 := by
    have := (List.mem_filter.mp hi).1
    simpa [SYMBOLS] using this
  simp [le_bytes, Nat.mod_eq_of_lt this]

theorem le_bytes_length (n x : Nat) : (le_bytes n x).length = n := by
  induction n generalizing x with
  | zero => rfl
  | succ n ih => simp [le_bytes, ih]

theorem le_value_le_bytes (n x : Nat) (hx : x < 256 ^ n) : le_value (le_bytes n x) = x := by
  induction n generalizing x with
  | zero => simp at hx; simp [le_bytes, le_value, hx]
  | succ n ih =>
    simp only [le_bytes, le_value]
    rw [ih]
    · omega
    · rw [pow_succ] at hx
      exact Nat.div_lt_of_lt_mul (by linarith)

theorem bind_const_length (l : List Nat) (g : Nat → List Nat) (n : Nat)
    (hg : ∀ i, (g i).length = n) : (l.flatMap g).length = n * l.length := by
  induction l with
  | nil => simp
  | cons i is ih => simp [List.flatMap_cons, ih, hg, Nat.mul_add, Nat.add_comm]

theorem header_layout_length (ft : List Nat) :
    (header_layout ft).length = 2 + 5 * (present ft).length := by
  unfold header_layout
  rw [List.length_append, le_bytes_length,
    bind_const_length _ _ 5 (fun i => by simp [le_bytes_length])]

/-! ## Reading the header back -/

theorem fread_append (n : Nat) (bs rest : List Nat) (h : bs.length = n) :
    fread n (bs ++ rest) = (some bs, rest) := by
  unfold fread
  have : n ≤ (bs ++ rest).length := by simp [h]
  rw [if_pos this]
  subst h
  simp

/-- Status of the pair loop: it succeeds exactly when `5 * n` bytes are there. -/
theorem read_pairs_status (n : Nat) (inp ft : List Nat) :
    (read_pairs n inp ft).1 = (if 5 * n ≤ inp.length then 1 else 0) := by
  induction n generalizing inp ft with
  | zero => simp [read_pairs]
  | succ n ih =>
    unfold read_pairs fread
    by_cases h1 : 1 ≤ inp.length
    · simp only [h1, if_true]
      by_cases h4 : 4 ≤ (inp.drop 1).length
      · simp only [h4, if_true]
        rw [ih]
        simp only [List.length_drop] at h4 ⊢
        congr 1
        apply propext
        constructor <;> intro <;> omega
      · simp only [h4, if_false]
        simp only [List.length_drop] at h4
        rw [if_neg (by omega)]
    · simp only [h1, if_false]
      rw [if_neg (by omega)]

theorem read_header_status (inp ft : List Nat) :
    (read_header inp ft).1 = 0 ↔
      inp.length < 2 ∨ inp.length < 2 + 5 * le_value (inp.take 2) := by
  unfold read_header fread
  by_cases h2 : 2 ≤ inp.length
  · simp only [h2, if_true]
    rw [read_pairs_status]
    simp only [List.length_drop]
    split <;> constructor <;> intro h <;> omega
  · simp only [h2, if_false]
    constructor
    · intro; omega
    · intro; trivial

/-- The pair loop on the pairs of a table: it stores every pair and stops at
the first byte after them. -/
theorem read_pairs_pairs (t : List Nat) (l : List Nat) (rest ft : List Nat)
    (hl : ∀ i ∈ l, i < 256 ∧ t.getD i 0 < 2 ^ 32) :
    read_pairs l.length (l.flatMap (fun i => i :: le_bytes 4 (t.getD i 0)) ++ rest) ft
      = (1, rest, l.foldl (fun ft i => ft.set i (t.getD i 0)) ft) := by
  induction l generalizing ft with
  | nil => simp [read_pairs]
  | cons i is ih =>
    have hi := hl i (List.mem_cons_self _ _)
    simp only [List.length_cons, List.flatMap_cons, List.cons_append, List.append_assoc,
      List.foldl_cons]
    unfold read_pairs
    have e1 : fread 1 (i :: (le_bytes 4 (t.getD i 0) ++
        (is.flatMap (fun i => i :: le_bytes 4 (t.getD i 0)) ++ rest)))
        = (some [i], le_bytes 4 (t.getD i 0) ++
          (is.flatMap (fun i => i :: le_bytes 4 (t.getD i 0)) ++ rest)) :=
      fread_append 1 [i] _ rfl
    rw [e1]
    simp only
    rw [fread_append 4 _ _ (le_bytes_length 4 _)]
    simp only
    rw [le_value_le_bytes 4 _ (by have := hi.2; norm_num at this ⊢; exact this)]
    have : le_value [i] = i := by simp [le_value]
    rw [this]
    exact ih _ (fun j hj => hl j (List.mem_cons_of_mem _ hj))

theorem foldl_set_length (t : List Nat) (l : List Nat) (ft : List Nat) :
    (l.foldl (fun ft i => ft.set i (t.getD i 0)) ft).length = ft.length := by
  induction l generalizing ft with
  | nil => rfl
  | cons i is ih => rw [List.foldl_cons, ih, List.length_set]

theorem foldl_set_getD (t : List Nat) (l : List Nat) (ft : List Nat) (j : Nat)
    (hj : j < ft.length) :
    (l.foldl (fun ft i => ft.set i (t.getD i 0)) ft).getD j 0
      = if j ∈ l then t.getD j 0 else ft.getD j 0 := by
  induction l generalizing ft with
  | nil => simp
  | cons i is ih =>
    rw [List.foldl_cons, ih _ (by simpa using hj)]
    by_cases hji : j = i
    · subst hji
      by_cases hm : j ∈ is
      · simp [hm]
      · simp [hm, List.getD_eq_getElem?_getD, List.getElem?_set, hj]
    · by_cases hm : j ∈ is
      · simp [hm]
      · simp [hm, hji, List.getD_eq_getElem?_getD, List.getElem?_set, Ne.symm hji]

theorem getD_replicate_zero (n j : Nat) : (List.replicate n 0).getD j 0 = 0 := by
  simp only [List.getD_eq_getElem?_getD, List.getElem?_replicate]
  split <;> rfl

theorem foldl_set_present (t : List Nat) (ht : t.length = 256) :
    (present t).foldl (fun ft i => ft.set i (t.getD i 0)) (List.replicate SYMBOLS 0) = t := by
  apply List.ext_getElem
  · rw [foldl_set_length, List.length_replicate, ht]; rfl
  · intro j h1 h2
    have hj : j < 256 := by omega
    have := foldl_set_getD t (present t) (List.replicate SYMBOLS 0) j
      (by rw [List.length_replicate]; exact hj)
    rw [List.getD_eq_getElem _ _ h1] at this
    rw [this, getD_replicate_zero]
    by_cases h0 : t.getD j 0 = 0
    · have h0' := h0
      rw [List.getD_eq_getElem _ _ h2] at h0'
      rw [h0', h0]
      split <;> rfl
    · rw [if_pos ((mem_present t j).mpr ⟨hj, h0⟩)]
      exact List.getD_eq_getElem _ _ h2

/-- C3: for every table `t` of 256 counts below 2^32, `read_header` applied to
a zeroed table and to the bytes written by `write_header` for `t` (followed by
any bytes `rest`) returns 1, yields a table equal to `t`, and leaves the
source at the first byte of `rest`: it consumes exactly the header. -/
theorem read_header_write_header (t rest : List Nat) (ht : t.length = 256)
    (h32 : ∀ x ∈ t, x < 2 ^ 32) :
    read_header ((write_header [] t).2 ++ rest) (List.replicate SYMBOLS 0) = (1, rest, t) := by
  rw [write_header_eq]
  simp only [List.nil_append]
  unfold header_layout read_header
  rw [List.append_assoc, fread_append 2 _ _ (le_bytes_length 2 _)]
  simp only
  rw [le_value_le_bytes 2 _ (by have := present_length_le t; omega)]
  rw [read_pairs_pairs t (present t) rest _ ?_, foldl_set_present t ht]
  intro i hi
  have hi2 := (mem_present t i).mp hi
  refine ⟨hi2.1, ?_⟩
  rw [List.getD_eq_getElem _ _ (by omega)]
  exact h32 _ (List.getElem_mem _)

theorem read_header_write_header_witness :
    read_header ((write_header [] (List.replicate 256 7)).2 ++ [1, 2, 3])
      (List.replicate SYMBOLS 0) = (1, [1, 2, 3], List.replicate 256 7) :=
  read_header_write_header (List.replicate 256 7) [1, 2, 3] (List.length_replicate _ _)
    (by intro x hx; rw [List.eq_of_mem_replicate hx]; norm_num)

/-- C9: `read_header` returns 0 exactly when the source holds fewer than 2
bytes, or fewer than `2 + 5 * count` bytes for the count declared in its first
two bytes; and whenever it returns 0, `huffman_decode` returns 0 without
opening the output file (no byte is written). -/
theorem read_header_fails_iff_truncated (inp ft : List Nat) (out_ok : Bool) :
    ((read_header inp ft).1 = 0 ↔
        inp.length < 2 ∨ inp.length < 2 + 5 * le_value (inp.take 2)) ∧
      ((read_header inp (List.replicate SYMBOLS 0)).1 = 0 →
        huffman_decode (some inp) out_ok = some (0, none)) := by
  refine ⟨read_header_status inp ft, ?_⟩
  intro h
  simp [huffman_decode, h]

/-! ## The single-symbol tree -/

theorem foldl_id_of_forall {α : Type} (step : α → Nat → α) (l : List Nat) (h : α)
    (hid : ∀ i ∈ l, ∀ x, step x i = x) : l.foldl step h = h := by
  induction l generalizing h with
  | nil => rfl
  | cons i is ih =>
    rw [List.foldl_cons, hid i (List.mem_cons_self _ _)]
    exact ih h (fun j hj => hid j (List.mem_cons_of_mem _ hj))

theorem foldl_single {α : Type} (step : α → Nat → α) (l : List Nat) (h : α) (b : Nat)
    (hb : b ∈ l) (hnd : l.Nodup) (hid : ∀ i ∈ l, i ≠ b → ∀ x, step x i = x) :
    l.foldl step h = step h b := by
  obtain ⟨l1, l2, rfl⟩ := List.append_of_mem hb
  have hnd1 := (List.nodup_append.mp hnd)
  have hb1 : b ∉ l1 := fun hm => hnd1.2.2 hm (List.mem_cons_self _ _) 
  have hb2 : b ∉ l2 := (List.nodup_cons.mp hnd1.2.1).1
  rw [List.foldl_append, List.foldl_cons]
  rw [foldl_id_of_forall step l1 h (fun i hi x =>
    hid i (List.mem_append_left _ hi) (fun e => hb1 (e ▸ hi)) x)]
  exact foldl_id_of_forall step l2 _ (fun i hi x =>
    hid i (List.mem_append_right _ (List.mem_cons_of_mem _ hi)) (fun e => hb2 (e ▸ hi)) x)

theorem insert_leaves_single (ft : List Nat) (b : Nat) (hb : b < 256)
    (hn : 0 < ft.getD b 0) (hz : ∀ i, i < 256 → i ≠ b → ft.getD i 0 = 0) (h : MinHeap) :
    insert_leaves ft h = minheap_insert h (create_node b (ft.getD b 0)) := by
  unfold insert_leaves
  rw [foldl_single _ (List.range SYMBOLS) h b (by simpa [SYMBOLS] using hb)
    (List.nodup_range _)]
  · simp only [gt_iff_lt, hn, if_true, Nat.mod_eq_of_lt hb]
  · intro i hi hne x
    have : i < 256 := by simpa [SYMBOLS] using hi
    simp only [gt_iff_lt, hz i this hne, Nat.lt_irrefl, if_false]

theorem insert_leaves_single_tree (ft : List Nat) (b : Nat) (hb : b < 256)
    (hn : 0 < ft.getD b 0) (hz : ∀ i, i < 256 → i ≠ b → ft.getD i 0 = 0) :
    build_huffman_tree ft
      = .mk 0 (ft.getD b 0) (.mk b (ft.getD b 0) .null .null) (.mk 0 0 .null .null) := by
  unfold build_huffman_tree
  rw [insert_leaves_single ft b hb hn hz]
  rfl

/-- C5: for a table whose only non-zero entry is byte `b` with count `n`,
`build_huffman_tree` returns an internal root of weight `n` whose left child is
the leaf `(b, n)` and whose right child is the placeholder leaf of symbol 0 and
weight 0: exactly two leaves, and the root is not a leaf. -/
theorem build_huffman_tree_single (ft : List Nat) (b : Nat) (hb : b < 256)
    (hn : 0 < ft.getD b 0) (hz : ∀ i, i < 256 → i ≠ b → ft.getD i 0 = 0) :
    build_huffman_tree ft
      = .mk 0 (ft.getD b 0) (.mk b (ft.getD b 0) .null .null) (.mk 0 0 .null .null) :=
  insert_leaves_single_tree ft b hb hn hz

theorem build_huffman_tree_single_witness :
    build_huffman_tree ((List.replicate 256 0).set 65 1000)
      = .mk 0 1000 (.mk 65 1000 .null .null) (.mk 0 0 .null .null) :=
  build_huffman_tree_single ((List.replicate 256 0).set 65 1000) 65 (by decide) (by decide)
    (by
      intro i hi hne
      simp only [List.getD_eq_getElem?_getD, List.getElem?_set, List.getElem?_replicate]
      rw [if_neg (Ne.symm hne)]
      split <;> rfl)

/-! ## Swapping two slots -/

theorem swap_nodes_length (a : List Node) (i j : Nat) :
    (swap_nodes a i j).length = a.length := by
  simp [swap_nodes]

theorem swap_nodes_getD (a : List Node) (i j k : Nat) (hi : i < a.length)
    (hj : j < a.length) :
    (swap_nodes a i j).getD k .null
      = if k = j then a.getD i .null else if k = i then a.getD j .null else a.getD k .null := by
  unfold swap_nodes
  simp only [List.getD_eq_getElem?_getD, List.getElem?_set, List.length_set]
  by_cases hkj : k = j
  · subst hkj; simp [hj]
  · by_cases hki : k = i
    · subst hki; simp [hi, Ne.symm hkj, hkj]
    · simp [Ne.symm hkj, Ne.symm hki, hkj, hki]

theorem set_cons_perm (t : List Node) (j : Nat) (x y : Node) (hj : j < t.length)
    (hx : t.getD j .null = x) : (x :: t.set j y).Perm (y :: t) := by
  induction t generalizing j with
  | nil => simp at hj
  | cons h t ih =>
    cases j with
    | zero =>
      simp at hx
      subst hx
      exact List.Perm.swap _ _ _
    | succ j =>
      simp only [List.set_cons_succ]
      have hx' : t.getD j .null = x := by simpa using hx
      have := ih j (by simpa using hj) hx'
      exact (List.Perm.swap _ _ _).trans ((this.cons h).trans (List.Perm.swap _ _ _))

theorem swap_nodes_perm (a : List Node) (i j : Nat) (hi : i < a.length) (hj : j < a.length) :
    (swap_nodes a i j).Perm a := by
  unfold swap_nodes
  induction a generalizing i j with
  | nil => simp at hi
  | cons h t ih =>
    cases i with
    | zero =>
      cases j with
      | zero => simp
      | succ j =>
        simp only [List.set_cons_zero, List.set_cons_succ, List.getD_cons_succ,
          List.getD_cons_zero]
        exact set_cons_perm t j _ h (by simpa using hj) rfl
    | succ i =>
      cases j with
      | zero =>
        simp only [List.set_cons_zero, List.set_cons_succ, List.getD_cons_succ,
          List.getD_cons_zero]
        exact set_cons_perm t i _ h (by simpa using hi) rfl
      | succ j =>
        simp only [List.set_cons_succ, List.getD_cons_succ]
        exact (ih i j (by simpa using hi) (by simpa using hj)).cons h

/-! ## Heap order -/

theorem wt_swap (a : List Node) (i j k : Nat) (hi : i < a.length) (hj : j < a.length) :
    wt (swap_nodes a i j) k = if k = j then wt a i else if k = i then wt a j else wt a k := by
  unfold wt
  rw [swap_nodes_getD a i j k hi hj]
  split
  · rfl
  · split <;> rfl

theorem sift_up_isHeap (fuel : Nat) (a : List Node) (i : Nat) (hfuel : i ≤ fuel)
    (hi : i < a.length)
    (h1 : ∀ j, 0 < j → j < a.length → j ≠ i → wt a ((j - 1) / 2) ≤ wt a j)
    (h2 : ∀ j, 0 < j → j < a.length → (j - 1) / 2 = i → 0 < i →
      wt a ((i - 1) / 2) ≤ wt a j) :
    IsHeap (sift_up fuel a i) := by
  induction fuel generalizing a i with
  | zero =>
    have : i = 0 := by omega
    subst this
    intro j hj0 hj
    exact h1 j hj0 hj (by omega)
  | succ fuel ih =>
    unfold sift_up
    by_cases hc : i ≠ 0 ∧ wt a ((i - 1) / 2) > wt a i
    · have hc' : i ≠ 0 ∧ (a.getD ((i - 1) / 2) .null).freq > (a.getD i .null).freq := hc
      rw [if_pos hc']
      have hp : (i - 1) / 2 < i := by omega
      have hpl : (i - 1) / 2 < a.length := by omega
      apply ih
      · omega
      · rw [swap_nodes_length]; exact hpl
      · intro j hj0 hj hjp
        rw [swap_nodes_length] at hj
        rw [wt_swap a i _ _ hi hpl, wt_swap a i _ _ hi hpl]
        by_cases hji : j = i
        · subst hji
          simp only [if_true, if_neg hjp]
          omega
        · simp only [if_neg hjp, if_neg hji]
          by_cases e1 : (j - 1) / 2 = (i - 1) / 2
          · rw [if_pos e1]
            have := h1 j hj0 hj hji
            rw [e1] at this
            omega
          · rw [if_neg e1]
            by_cases e2 : (j - 1) / 2 = i
            · rw [if_pos e2]
              exact h2 j hj0 hj e2 (by omega)
            · rw [if_neg e2]
              exact h1 j hj0 hj hji
      · intro j hj0 hj hjp hp0
        rw [swap_nodes_length] at hj
        rw [wt_swap a i _ _ hi hpl, wt_swap a i _ _ hi hpl]
        have e1 : ¬ ((i - 1) / 2 - 1) / 2 = (i - 1) / 2 := by omega
        have e2 : ¬ ((i - 1) / 2 - 1) / 2 = i := by omega
        have e3 : ¬ j = (i - 1) / 2 := by omega
        simp only [if_neg e1, if_neg e2, if_neg e3]
        have hpp := h1 ((i - 1) / 2) hp0 hpl (by omega)
        by_cases hji : j = i
        · rw [if_pos hji]; exact hpp
        · rw [if_neg hji]
          have := h1 j hj0 hj hji
          rw [hjp] at this
          omega
    · have hc' : ¬ (i ≠ 0 ∧ (a.getD ((i - 1) / 2) .null).freq > (a.getD i .null).freq) := hc
      rw [if_neg hc']
      intro j hj0 hj
      by_cases hji : j = i
      · subst hji
        have : ¬ wt a ((j - 1) / 2) > wt a j := fun h => hc ⟨by omega, h⟩
        omega
      · exact h1 j hj0 hj hji

theorem heap_down_step (a : List Node) (idx s : Nat)
    (hs : s = 2 * idx + 1 ∨ s = 2 * idx + 2) (hsl : s < a.length)
    (hlt : wt a s < wt a idx)
    (hmin : ∀ c, c = 2 * idx + 1 ∨ c = 2 * idx + 2 → c < a.length → wt a s ≤ wt a c)
    (h1 : ∀ j, 0 < j → j < a.length → (j - 1) / 2 ≠ idx → wt a ((j - 1) / 2) ≤ wt a j)
    (h2 : ∀ j, 0 < j → j < a.length → (j - 1) / 2 = idx → 0 < idx →
      wt a ((idx - 1) / 2) ≤ wt a j) :
    (∀ j, 0 < j → j < a.length → (j - 1) / 2 ≠ s →
        wt (swap_nodes a s idx) ((j - 1) / 2) ≤ wt (swap_nodes a s idx) j) ∧
      (∀ j, 0 < j → j < a.length → (j - 1) / 2 = s →
        wt (swap_nodes a s idx) ((s - 1) / 2) ≤ wt (swap_nodes a s idx) j) := by
  have hidx : idx < a.length := by omega
  have hps : (s - 1) / 2 = idx := by omega
  constructor
  · intro j hj0 hj hjp
    rw [wt_swap a _ _ _ hsl hidx, wt_swap a _ _ _ hsl hidx]
    by_cases e1 : (j - 1) / 2 = idx
    · rw [if_pos e1, if_neg (by omega)]
      by_cases e2 : j = s
      · rw [if_pos e2]; omega
      · rw [if_neg e2]
        exact hmin j (by omega) hj
    · rw [if_neg e1, if_neg hjp]
      by_cases e2 : j = idx
      · rw [if_pos e2]
        subst e2
        exact h2 s (by omega) hsl hps hj0
      · rw [if_neg e2, if_neg (by omega)]
        exact h1 j hj0 hj e1
  · intro j hj0 hj hjp
    rw [wt_swap a _ _ _ hsl hidx, wt_swap a _ _ _ hsl hidx]
    rw [if_pos hps, if_neg (by omega), if_neg (by omega)]
    have := h1 j hj0 hj (by omega)
    rw [hjp] at this
    exact this

theorem minheapify_isHeap (fuel : Nat) (a : List Node) (idx : Nat)
    (hfuel : a.length ≤ fuel + idx)
    (h1 : ∀ j, 0 < j → j < a.length → (j - 1) / 2 ≠ idx → wt a ((j - 1) / 2) ≤ wt a j)
    (h2 : ∀ j, 0 < j → j < a.length → (j - 1) / 2 = idx → 0 < idx →
      wt a ((idx - 1) / 2) ≤ wt a j) :
    IsHeap (minheapify fuel a idx) := by
  induction fuel generalizing a idx with
  | zero =>
    unfold minheapify
    intro j hj0 hj
    exact h1 j hj0 hj (by omega)
  | succ fuel ih =>
    unfold minheapify
    simp only
    by_cases hl : 2 * idx + 1 < a.length ∧ wt a (2 * idx + 1) < wt a idx
    · have hl' : 2 * idx + 1 < a.length ∧
          (a.getD (2 * idx + 1) .null).freq < (a.getD idx .null).freq := hl
      rw [if_pos hl']
      by_cases hr : 2 * idx + 2 < a.length ∧ wt a (2 * idx + 2) < wt a (2 * idx + 1)
      · have hr' : 2 * idx + 2 < a.length ∧
            (a.getD (2 * idx + 2) .null).freq < (a.getD (2 * idx + 1) .null).freq := hr
        rw [if_pos hr', if_pos (by omega)]
        have st := heap_down_step a idx (2 * idx + 2) (Or.inr rfl) hr.1 (by omega)
          (by
            intro c hc hcl
            rcases hc with hc | hc <;> subst hc <;> omega) h1 h2
        apply ih
        · rw [swap_nodes_length]; omega
        · intro j hj0 hj hjp
          rw [swap_nodes_length] at hj
          exact st.1 j hj0 hj hjp
        · intro j hj0 hj hjp _
          rw [swap_nodes_length] at hj
          exact st.2 j hj0 hj hjp
      · have hr' : ¬ (2 * idx + 2 < a.length ∧
            (a.getD (2 * idx + 2) .null).freq < (a.getD (2 * idx + 1) .null).freq) := hr
        rw [if_neg hr', if_pos (by omega)]
        have st := heap_down_step a idx (2 * idx + 1) (Or.inl rfl) hl.1 hl.2
          (by
            intro c hc hcl
            rcases hc with hc | hc
            · subst hc; omega
            · subst hc
              have : ¬ wt a (2 * idx + 2) < wt a (2 * idx + 1) := fun h => hr ⟨hcl, h⟩
              omega) h1 h2
        apply ih
        · rw [swap_nodes_length]; omega
        · intro j hj0 hj hjp
          rw [swap_nodes_length] at hj
          exact st.1 j hj0 hj hjp
        · intro j hj0 hj hjp _
          rw [swap_nodes_length] at hj
          exact st.2 j hj0 hj hjp
    · have hl' : ¬ (2 * idx + 1 < a.length ∧
          (a.getD (2 * idx + 1) .null).freq < (a.getD idx .null).freq) := hl
      rw [if_neg hl']
      by_cases hr : 2 * idx + 2 < a.length ∧ wt a (2 * idx + 2) < wt a idx
      · have hr' : 2 * idx + 2 < a.length ∧
            (a.getD (2 * idx + 2) .null).freq < (a.getD idx .null).freq := hr
        rw [if_pos hr', if_pos (by omega)]
        have st := heap_down_step a idx (2 * idx + 2) (Or.inr rfl) hr.1 hr.2
          (by
            intro c hc hcl
            rcases hc with hc | hc
            · subst hc
              have : ¬ wt a (2 * idx + 1) < wt a idx := fun h => hl ⟨hcl, h⟩
              omega
            · subst hc; omega) h1 h2
        apply ih
        · rw [swap_nodes_length]; omega
        · intro j hj0 hj hjp
          rw [swap_nodes_length] at hj
          exact st.1 j hj0 hj hjp
        · intro j hj0 hj hjp _
          rw [swap_nodes_length] at hj
          exact st.2 j hj0 hj hjp
      · have hr' : ¬ (2 * idx + 2 < a.length ∧
            (a.getD (2 * idx + 2) .null).freq < (a.getD idx .null).freq) := hr
        rw [if_neg hr', if_neg (by omega)]
        intro j hj0 hj
        by_cases e1 : (j - 1) / 2 = idx
        · rw [e1]
          have hj2 : j = 2 * idx + 1 ∨ j = 2 * idx + 2 := by omega
          rcases hj2 with hj2 | hj2
          · subst hj2
            have : ¬ wt a (2 * idx + 1) < wt a idx := fun h => hl ⟨hj, h⟩
            omega
          · subst hj2
            have : ¬ wt a (2 * idx + 2) < wt a idx := fun h => hr ⟨hj, h⟩
            omega
        · exact h1 j hj0 hj e1

theorem sift_up_perm (fuel : Nat) (a : List Node) (i : Nat) (hi : i < a.length) :
    (sift_up fuel a i).Perm a := by
  induction fuel generalizing a i with
  | zero => exact List.Perm.refl _
  | succ fuel ih =>
    unfold sift_up
    split
    · have hpl : (i - 1) / 2 < a.length := by omega
      exact (ih _ _ (by rw [swap_nodes_length]; exact hpl)).trans
        (swap_nodes_perm a i _ hi hpl)
    · exact List.Perm.refl _

theorem minheapify_perm (fuel : Nat) (a : List Node) (idx : Nat) (hidx : idx < a.length) :
    (minheapify fuel a idx).Perm a := by
  induction fuel generalizing a idx with
  | zero => exact List.Perm.refl _
  | succ fuel ih =>
    unfold minheapify
    simp only
    have key : ∀ s, s < a.length →
        (if s ≠ idx then minheapify fuel (swap_nodes a s idx) s else a).Perm a := by
      intro s hs
      split
      · exact (ih _ _ (by rw [swap_nodes_length]; exact hs)).trans
          (swap_nodes_perm a s idx hs hidx)
      · exact List.Perm.refl _
    apply key
    split_ifs <;> omega

theorem minheapify_nil (fuel idx : Nat) : minheapify fuel [] idx = [] := by
  cases fuel with
  | zero => rfl
  | succ fuel => simp [minheapify]

theorem isHeap_root_le (a : List Node) (h : IsHeap a) (i : Nat) (hi : i < a.length) :
    wt a 0 ≤ wt a i := by
  induction i using Nat.strong_induction_on with
  | _ i ih =>
    by_cases h0 : i = 0
    · subst h0; exact Nat.le_refl _
    · have hp : (i - 1) / 2 < i := by omega
      exact (ih _ hp (by omega)).trans (h i (by omega) hi)

theorem wt_of_mem (a : List Node) (x : Node) (hx : x ∈ a) :
    ∃ i, i < a.length ∧ wt a i = x.freq := by
  obtain ⟨i, hi, rfl⟩ := List.getElem_of_mem hx
  exact ⟨i, hi, by unfold wt; rw [List.getD_eq_getElem _ _ hi]⟩

/-! ## `minheap_insert` and `minheap_extract` -/

theorem minheap_insert_perm (h : MinHeap) (node : Node) :
    (minheap_insert h node).array.Perm (node :: h.array) := by
  unfold minheap_insert
  simp only
  exact (sift_up_perm _ _ _ (by simp [MinHeap.size])).trans
    (List.perm_append_comm)

theorem getD_append_left (a : List Node) (x : Node) (i : Nat) (hi : i < a.length) :
    (a ++ [x]).getD i .null = a.getD i .null := by
  simp [List.getD_eq_getElem?_getD, List.getElem?_append_left hi]

theorem minheap_insert_isHeap (h : MinHeap) (node : Node) (hh : IsHeap h.array) :
    IsHeap (minheap_insert h node).array := by
  unfold minheap_insert
  simp only
  apply sift_up_isHeap
  · exact Nat.le_refl _
  · simp [MinHeap.size]
  · intro j hj0 hj hne
    have hj' : j < h.array.length := by
      simp [MinHeap.size] at hj hne; omega
    unfold wt
    rw [getD_append_left _ _ _ hj', getD_append_left _ _ _ (by omega)]
    exact hh j hj0 hj'
  · intro j hj0 hj hp _
    simp [MinHeap.size] at hj hp
    omega

theorem take_last_cons_perm (x : Node) (rest : List Node) :
    ((((x :: rest).getD rest.length .null) :: rest).take rest.length).Perm rest := by
  cases rest with
  | nil => simp
  | cons y ys =>
    have hlast : (x :: y :: ys).getD (y :: ys).length .null = (y :: ys).getLast (by simp) := by
      simp only [List.length_cons, List.getD_cons_succ]
      rw [List.getLast_eq_getElem, List.getD_eq_getElem _ _ (by simp)]
      simp
    rw [hlast]
    simp only [List.length_cons, List.take_succ_cons]
    have h1 : List.take ys.length (y :: ys) = (y :: ys).dropLast := by
      rw [List.dropLast_eq_take]; simp
    rw [h1]
    have := List.dropLast_append_getLast (l := y :: ys) (by simp)
    conv_rhs => rw [← this]
    exact @List.perm_append_comm _ [(y :: ys).getLast (by simp)] _

theorem minheap_extract_perm (h : MinHeap) (hne : h.array ≠ []) :
    h.array.Perm ((minheap_extract h).1 :: (minheap_extract h).2.array) := by
  unfold minheap_extract
  have hs : ¬ h.size = 0 := by
    simpa [MinHeap.size] using hne
  rw [if_neg hs]
  simp only
  cases hA : h.array with
  | nil => exact absurd hA hne
  | cons x rest =>
    simp only [MinHeap.size, hA, List.length_cons, Nat.add_sub_cancel, List.getD_cons_zero,
      List.set_cons_zero]
    apply List.Perm.cons
    by_cases hr : rest = []
    · subst hr; simp [minheapify_nil]
    · refine List.Perm.symm ((minheapify_perm _ _ 0 ?_).trans (take_last_cons_perm x rest))
      have : 0 < rest.length := List.length_pos.mpr hr
      simp
      omega

theorem minheap_extract_isHeap (h : MinHeap) (hh : IsHeap h.array) :
    IsHeap (minheap_extract h).2.array := by
  unfold minheap_extract
  split
  · exact hh
  · simp only
    apply minheapify_isHeap
    · simp [MinHeap.size]
    · intro j hj0 hj hp
      simp only [MinHeap.size, List.length_take, List.length_set] at hj
      have e : ∀ k, 0 < k → k < h.array.length - 1 →
          wt (List.take (h.size - 1) (h.array.set 0 (h.array.getD (h.size - 1) .null))) k
            = wt h.array k := by
        intro k hk0 hk
        unfold wt
        simp only [MinHeap.size, List.getD_eq_getElem?_getD, List.getElem?_take, hk, if_true,
          List.getElem?_set]
        rw [if_neg (by omega)]
      rw [e j hj0 (by omega), e _ (by omega) (by omega)]
      exact hh j hj0 (by omega)
    · intro j _ _ _ h0
      exact absurd h0 (Nat.lt_irrefl 0)

theorem minheap_extract_min (h : MinHeap) (hh : IsHeap h.array) (x : Node)
    (hx : x ∈ h.array) : (minheap_extract h).1.freq ≤ x.freq := by
  unfold minheap_extract
  have hs : ¬ h.size = 0 := by
    intro h0
    have : h.array = [] := List.length_eq_zero.mp h0
    rw [this] at hx
    simp at hx
  rw [if_neg hs]
  obtain ⟨i, hi, hw⟩ := wt_of_mem _ _ hx
  rw [← hw]
  exact isHeap_root_le _ hh i hi

theorem minheap_extract_size (h : MinHeap) :
    (minheap_extract h).2.size = h.size - 1 := by
  by_cases hne : h.array = []
  · simp [minheap_extract, MinHeap.size, hne]
  · have := (minheap_extract_perm h hne).length_eq
    simp only [List.length_cons] at this
    simp only [MinHeap.size]
    omega

theorem minheap_insert_size (h : MinHeap) (node : Node) :
    (minheap_insert h node).size = h.size + 1 := by
  have := (minheap_insert_perm h node).length_eq
  simpa [MinHeap.size] using this

/-! ## Enough fuel -/

theorem sift_up_fuel (fuel1 fuel2 : Nat) (a : List Node) (i : Nat) (h1 : i ≤ fuel1)
    (h2 : i ≤ fuel2) : sift_up fuel1 a i = sift_up fuel2 a i := by
  induction fuel1 generalizing fuel2 a i with
  | zero =>
    have : i = 0 := by omega
    subst this
    cases fuel2 with
    | zero => rfl
    | succ f2 => simp [sift_up]
  | succ f1 ih =>
    cases fuel2 with
    | zero =>
      have : i = 0 := by omega
      subst this
      simp [sift_up]
    | succ f2 =>
      unfold sift_up
      split
      · exact ih _ _ _ (by omega) (by omega)
      · rfl

theorem minheapify_stop (fuel : Nat) (a : List Node) (idx : Nat) (h : a.length ≤ idx) :
    minheapify fuel a idx = a := by
  cases fuel with
  | zero => rfl
  | succ f =>
    unfold minheapify
    have e1 : ¬ (2 * idx + 1 < a.length) := by omega
    have e2 : ¬ (2 * idx + 2 < a.length) := by omega
    simp [e1, e2]

theorem minheapify_fuel (fuel1 fuel2 : Nat) (a : List Node) (idx : Nat)
    (h1 : a.length ≤ fuel1 + idx) (h2 : a.length ≤ fuel2 + idx) :
    minheapify fuel1 a idx = minheapify fuel2 a idx := by
  induction fuel1 generalizing fuel2 a idx with
  | zero => rw [minheapify_stop _ _ _ (by omega), minheapify_stop _ _ _ (by omega)]
  | succ f1 ih =>
    cases fuel2 with
    | zero => rw [minheapify_stop _ _ _ (by omega), minheapify_stop _ _ _ (by omega)]
    | succ f2 =>
      unfold minheapify
      simp only
      have key : ∀ s, (s = idx ∨ idx < s) →
          (if s ≠ idx then minheapify f1 (swap_nodes a s idx) s else a)
            = (if s ≠ idx then minheapify f2 (swap_nodes a s idx) s else a) := by
        intro s hs
        by_cases e : s = idx
        · simp [e]
        · rw [if_pos e, if_pos e]
          exact ih _ _ _ (by rw [swap_nodes_length]; omega) (by rw [swap_nodes_length]; omega)
      apply key
      split_ifs <;> omega

/-! ## Sequences of heap calls -/

theorem insert_all_isHeap (nodes : List Node) (h : MinHeap) (hh : IsHeap h.array) :
    IsHeap (insert_all nodes h).array := by
  unfold insert_all
  induction nodes generalizing h with
  | nil => exact hh
  | cons n ns ih => exact ih _ (minheap_insert_isHeap h n hh)

theorem insert_all_perm (nodes : List Node) (h : MinHeap) :
    (insert_all nodes h).array.Perm (nodes ++ h.array) := by
  unfold insert_all
  induction nodes generalizing h with
  | nil => exact List.Perm.refl _
  | cons n ns ih =>
    rw [List.foldl_cons]
    refine (ih _).trans ?_
    refine ((minheap_insert_perm h n).append_left ns).trans ?_
    exact List.perm_middle

theorem extract_all_perm (n : Nat) (h : MinHeap) (hn : h.size = n) :
    (extract_all n h).Perm h.array := by
  induction n generalizing h with
  | zero =>
    have : h.array = [] := List.length_eq_zero.mp hn
    rw [this]; exact List.Perm.refl _
  | succ n ih =>
    have hne : h.array ≠ [] := by
      intro e; rw [MinHeap.size, e] at hn; simp at hn
    unfold extract_all
    have hs : (minheap_extract h).2.size = n := by rw [minheap_extract_size]; omega
    exact ((ih _ hs).cons _).trans (minheap_extract_perm h hne).symm

theorem extract_all_sorted (n : Nat) (h : MinHeap) (hn : h.size = n) (hh : IsHeap h.array) :
    (extract_all n h).Pairwise (fun x y => x.freq ≤ y.freq) := by
  induction n generalizing h with
  | zero => exact List.Pairwise.nil
  | succ n ih =>
    have hne : h.array ≠ [] := by
      intro e; rw [MinHeap.size, e] at hn; simp at hn
    unfold extract_all
    have hs : (minheap_extract h).2.size = n := by rw [minheap_extract_size]; omega
    refine List.Pairwise.cons ?_ (ih _ hs (minheap_extract_isHeap h hh))
    intro y hy
    have hy1 : y ∈ (minheap_extract h).2.array := (extract_all_perm n _ hs).subset hy
    have hy2 : y ∈ h.array :=
      (minheap_extract_perm h hne).symm.subset (List.mem_cons_of_mem _ hy1)
    exact minheap_extract_min h hh y hy2

theorem isHeap_nil : IsHeap [] := by
  intro i _ hi
  simp at hi

/-- C10 (counterexample): three nodes of equal weight 1 inserted in the order
A, B, C (symbols 1, 2, 3) are extracted in the order A, C, B: the node C,
inserted after B, is extracted before it. -/
theorem heap_ties_not_fifo :
    extract_all 3
        (insert_all [create_node 1 1, create_node 2 1, create_node 3 1] (create_minheap 256))
      = [create_node 1 1, create_node 3 1, create_node 2 1] ∧
    (create_node 2 1).freq = (create_node 3 1).freq := by
  decide

/-- C10 (amended): for every sequence of `minheap_insert` calls on an empty
heap followed by as many `minheap_extract` calls, the nodes extracted are
exactly the nodes inserted (a permutation of them), in non-decreasing order
of weight; the order among equal weights is the one fixed by the array
layout, not the insertion order. -/
theorem heap_extracts_in_weight_order (nodes : List Node) (capacity : Nat) :
    (extract_all nodes.length (insert_all nodes (create_minheap capacity))).Perm nodes ∧
      (extract_all nodes.length (insert_all nodes (create_minheap capacity))).Pairwise
        (fun x y => x.freq ≤ y.freq) := by
  have hp := insert_all_perm nodes (create_minheap capacity)
  have hs : (insert_all nodes (create_minheap capacity)).size = nodes.length := by
    have := hp.length_eq
    simpa [MinHeap.size, create_minheap] using this
  refine ⟨(extract_all_perm _ _ hs).trans (by simpa [create_minheap] using hp),
    extract_all_sorted _ _ hs (insert_all_isHeap _ _ ?_)⟩
  exact isHeap_nil

/-! ## `build_codes` records the leaf paths -/

theorem strdup_set_nul (code : List Char) (d : Nat) (hd : d < code.length)
    (hn : ∀ c ∈ code.take d, c ≠ NUL) : strdup (code.set d NUL) = code.take d := by
  unfold strdup
  have e : code.set d NUL = code.take d ++ NUL :: code.drop (d + 1) := by
    rw [List.set_eq_take_append_cons_drop, if_pos hd]
  rw [e, List.takeWhile_append_of_pos]
  · simp
  · intro c hc
    simpa using hn c hc

theorem take_set_of_le (code : List Char) (d e : Nat) (c : Char) (h : d ≤ e) :
    (code.set e c).take d = code.take d := by
  apply List.ext_getElem?
  intro i
  simp only [List.getElem?_take, List.getElem?_set]
  split
  · rw [if_neg (by omega)]
  · rfl

theorem take_succ_set (code : List Char) (d : Nat) (c : Char) (hd : d < code.length) :
    (code.set d c).take (d + 1) = code.take d ++ [c] := by
  rw [List.set_eq_take_append_cons_drop, if_pos hd]
  rw [List.take_append_eq_append_take]
  simp [List.length_take, Nat.min_eq_left (Nat.le_of_lt hd)]

theorem build_codes_spec (t : Node) (code : List Char) (d : Nat)
    (codes : List (Option (List Char))) (hd : d + height t < code.length)
    (hn : ∀ c ∈ code.take d, c ≠ NUL) :
    (build_codes t code d codes).2 = record_paths (leaf_paths t (code.take d)) codes ∧
      (build_codes t code d codes).1.take d = code.take d ∧
      (build_codes t code d codes).1.length = code.length := by
  induction t generalizing code d codes with
  | null => simp [build_codes, leaf_paths, record_paths]
  | mk s f l r ihl ihr =>
    unfold build_codes
    by_cases hleaf : l = .null ∧ r = .null
    · rw [if_pos hleaf]
      simp only [leaf_paths, if_pos hleaf, record_paths, List.foldl_cons, List.foldl_nil]
      rw [strdup_set_nul code d (by omega) hn]
      exact ⟨rfl, take_set_of_le _ _ _ _ (Nat.le_refl _), by simp⟩
    · rw [if_neg hleaf]
      simp only [leaf_paths, if_neg hleaf]
      have hh : height (.mk s f l r) = 1 + max (height l) (height r) := by
        simp [height, hleaf]
      rw [hh] at hd
      have hdl : d < code.length := by omega
      -- the left subtree
      have L : (if l ≠ .null then build_codes l (code.set d '0') (d + 1) codes
            else (code, codes)).2 = record_paths (leaf_paths l (code.take d ++ ['0'])) codes ∧
          (if l ≠ .null then build_codes l (code.set d '0') (d + 1) codes
            else (code, codes)).1.take d = code.take d ∧
          (if l ≠ .null then build_codes l (code.set d '0') (d + 1) codes
            else (code, codes)).1.length = code.length := by
        by_cases hl : l = .null
        · subst hl
          simp [leaf_paths, record_paths]
        · rw [if_pos hl]
          have := ihl (code.set d '0') (d + 1) codes
            (by rw [List.length_set]; have := Nat.le_max_left (height l) (height r); omega)
            (by
              rw [take_succ_set _ _ _ hdl]
              intro c hc
              rcases List.mem_append.mp hc with hc | hc
              · exact hn c hc
              · simp at hc; subst hc; decide)
          rw [take_succ_set _ _ _ hdl] at this
          refine ⟨this.1, ?_, by rw [this.2.2, List.length_set]⟩
          have h2 := congrArg (List.take d) this.2.1
          simpa [List.take_take, List.take_append_eq_append_take,
            Nat.min_eq_left (Nat.le_of_lt hdl)] using h2
      generalize (if l ≠ .null then build_codes l (code.set d '0') (d + 1) codes
            else (code, codes)) = s1 at L
      obtain ⟨L1, L2, L3⟩ := L
      by_cases hr : r = .null
      · subst hr
        rw [if_neg (by simp)]
        simp only [leaf_paths, List.append_nil]
        exact ⟨L1, L2, L3⟩
      · rw [if_pos hr]
        have hdl1 : d < s1.1.length := by omega
        have := ihr (s1.1.set d '1') (d + 1) s1.2
          (by rw [List.length_set]; have := Nat.le_max_right (height l) (height r); omega)
          (by
            rw [take_succ_set _ _ _ hdl1, L2]
            intro c hc
            rcases List.mem_append.mp hc with hc | hc
            · exact hn c hc
            · simp at hc; subst hc; decide)
        rw [take_succ_set _ _ _ hdl1, L2] at this
        refine ⟨?_, ?_, by rw [this.2.2, List.length_set, L3]⟩
        · rw [this.1, L1]
          simp [record_paths, List.foldl_append]
        · have h2 := congrArg (List.take d) this.2.1
          simpa [List.take_take, List.take_append_eq_append_take,
            Nat.min_eq_left (Nat.le_of_lt hdl)] using h2

/-! ## Shape of the tree built by `build_huffman_tree` -/

theorem full_ne_null (t : Node) (h : Full t) : t ≠ .null := by
  intro e; subst e; exact h

theorem height_lt_leaves (t : Node) (h : Full t) : height t + 1 ≤ (leaves t).length := by
  induction t with
  | null => exact absurd h (by simp [Full])
  | mk s f l r ihl ihr =>
    by_cases hleaf : l = .null ∧ r = .null
    · simp [height, leaves, hleaf]
    · simp only [height, leaves, if_neg hleaf, List.length_append]
      rcases h with h | h
      · exact absurd h hleaf
      · have := ihl h.1
        have := ihr h.2
        omega

theorem leaves_mk_of_full (s f : Nat) (l r : Node) (hl : Full l) :
    leaves (.mk s f l r) = leaves l ++ leaves r := by
  simp [leaves, full_ne_null l hl]

theorem merge_loop_size_le_one (fuel : Nat) (h : MinHeap) (hfuel : h.size ≤ fuel + 1) :
    (merge_loop fuel h).size ≤ 1 := by
  induction fuel generalizing h with
  | zero => simpa [merge_loop] using hfuel
  | succ fuel ih =>
    unfold merge_loop
    split
    · apply ih
      simp only [minheap_insert_size, minheap_extract_size]
      omega
    · omega

theorem merge_loop_tree (fuel : Nat) (h : MinHeap) (hfuel : h.size ≤ fuel + 1)
    (hne : 1 ≤ h.size) (hfull : ∀ t ∈ h.array, Full t) :
    ∃ T, (merge_loop fuel h).array = [T] ∧ Full T ∧
      (leaves T).Perm (h.array.flatMap leaves) := by
  induction fuel generalizing h with
  | zero =>
    have h1 : h.array.length = 1 := by simp [MinHeap.size] at hfuel hne; omega
    obtain ⟨T, hT⟩ := List.length_eq_one.mp h1
    refine ⟨T, by simp [merge_loop, hT], hfull T (by simp [hT]), ?_⟩
    simp [hT]
  | succ fuel ih =>
    unfold merge_loop
    by_cases hs : h.size > 1
    · rw [if_pos hs]
      simp only
      have hne0 : h.array ≠ [] := by
        intro e; simp [MinHeap.size, e] at hs
      have p1 := minheap_extract_perm h hne0
      have hs1 : (minheap_extract h).2.size = h.size - 1 := minheap_extract_size h
      have hne1 : (minheap_extract h).2.array ≠ [] := by
        intro e
        have : (minheap_extract h).2.size = 0 := by simp [MinHeap.size, e]
        omega
      have p2 := minheap_extract_perm (minheap_extract h).2 hne1
      have hs2 := minheap_extract_size (minheap_extract h).2
      generalize hL : (minheap_extract h).1 = left at p1
      generalize hH1 : (minheap_extract h).2 = h1 at p1 p2 hs1 hs2 hne1
      generalize hR : (minheap_extract h1).1 = right at p2
      generalize hH2 : (minheap_extract h1).2 = h2 at p2 hs2
      have pall : h.array.Perm (left :: right :: h2.array) := p1.trans (p2.cons left)
      have hfl : Full left := hfull _ (pall.symm.subset (by simp))
      have hfr : Full right := hfull _ (pall.symm.subset (by simp))
      have p3 := minheap_insert_perm h2 (.mk 0 ((left.freq + right.freq) % 2 ^ 32) left right)
      obtain ⟨T, hT, hTf, hTl⟩ := ih
        (minheap_insert h2 (.mk 0 ((left.freq + right.freq) % 2 ^ 32) left right))
        (by rw [minheap_insert_size]; omega)
        (by rw [minheap_insert_size]; omega)
        (by
          intro t ht
          rcases List.mem_cons.mp (p3.subset ht) with e | hm
          · subst e
            exact Or.inr ⟨hfl, hfr⟩
          · exact hfull t (pall.symm.subset (by simp [hm])))
      refine ⟨T, hT, hTf, hTl.trans ?_⟩
      refine (List.Perm.flatMap_right _ p3).trans ?_
      refine List.Perm.trans ?_ (List.Perm.flatMap_right _ pall).symm
      simp only [List.flatMap_cons, leaves_mk_of_full _ _ _ _ hfl, List.append_assoc]
      exact List.Perm.refl _
    · rw [if_neg hs]
      have h1 : h.array.length = 1 := by simp [MinHeap.size] at hs hne; omega
      obtain ⟨T, hT⟩ := List.length_eq_one.mp h1
      refine ⟨T, hT, hfull T (by simp [hT]), ?_⟩
      simp [hT]

theorem insert_leaves_perm (ft : List Nat) (h : MinHeap) :
    (insert_leaves ft h).array.Perm
      ((present ft).map (fun i => create_node i (ft.getD i 0)) ++ h.array) := by
  unfold insert_leaves present
  have key : ∀ (l : List Nat), (∀ i ∈ l, i < 256) → ∀ h : MinHeap,
      (l.foldl (fun h i => if ft.getD i 0 > 0 then
          minheap_insert h (create_node (i % 256) (ft.getD i 0)) else h) h).array.Perm
        ((l.filter (fun i => ft.getD i 0 ≠ 0)).map (fun i => create_node i (ft.getD i 0))
          ++ h.array) := by
    intro l
    induction l with
    | nil => intro _ h; exact List.Perm.refl _
    | cons i is ih =>
      intro hl h
      have hi : i < 256 := hl i (List.mem_cons_self _ _)
      rw [List.foldl_cons]
      refine (ih (fun j hj => hl j (List.mem_cons_of_mem _ hj)) _).trans ?_
      by_cases h0 : ft.getD i 0 = 0
      · have hn : ¬ ft.getD i 0 > 0 := by omega
        have hf : List.filter (fun i => decide (ft.getD i 0 ≠ 0)) (i :: is)
            = List.filter (fun i => decide (ft.getD i 0 ≠ 0)) is :=
          List.filter_cons_of_neg (by rw [h0]; decide)
        rw [if_neg hn, hf]
      · have hpos : ft.getD i 0 > 0 := Nat.pos_of_ne_zero h0
        have hf : List.filter (fun i => decide (ft.getD i 0 ≠ 0)) (i :: is)
            = i :: List.filter (fun i => decide (ft.getD i 0 ≠ 0)) is :=
          List.filter_cons_of_pos (decide_eq_true h0)
        rw [if_pos hpos, Nat.mod_eq_of_lt hi, hf]
        simp only [List.map_cons, List.cons_append]
        exact ((minheap_insert_perm h _).append_left _).trans List.perm_middle
  exact key _ (fun i hi => by simpa [SYMBOLS] using hi) h

theorem flatMap_leaves_create_node (ft : List Nat) (l : List Nat) :
    (l.map (fun i => create_node i (ft.getD i 0))).flatMap leaves
      = l.map (fun i => (i, ft.getD i 0)) := by
  induction l with
  | nil => rfl
  | cons i is ih =>
    rw [List.map_cons, List.flatMap_cons, ih]
    rfl

theorem minheap_extract_single (c : Nat) (T : Node) :
    (minheap_extract { capacity := c, array := [T] }).1 = T := by
  simp [minheap_extract, MinHeap.size]

theorem build_huffman_tree_shape (ft : List Nat) (hk : 2 ≤ (present ft).length) :
    Full (build_huffman_tree ft) ∧
      (leaves (build_huffman_tree ft)).Perm
        ((present ft).map (fun i => (i, ft.getD i 0))) := by
  have hp := insert_leaves_perm ft (create_minheap 256)
  have hsz : (insert_leaves ft (create_minheap 256)).size = (present ft).length := by
    have := hp.length_eq
    simpa [MinHeap.size, create_minheap] using this
  unfold build_huffman_tree
  simp only
  rw [if_neg (by omega)]
  have hfull : ∀ t ∈ (insert_leaves ft (create_minheap 256)).array, Full t := by
    intro t ht
    have := hp.subset ht
    simp only [create_minheap, List.append_nil, List.mem_map] at this
    obtain ⟨i, _, rfl⟩ := this
    exact Or.inl ⟨rfl, rfl⟩
  obtain ⟨T, hT, hTf, hTl⟩ := merge_loop_tree (insert_leaves ft (create_minheap 256)).size
    (insert_leaves ft (create_minheap 256)) (by omega) (by omega) hfull
  have e : merge_loop (insert_leaves ft (create_minheap 256)).size
      (insert_leaves ft (create_minheap 256))
      = { capacity := (merge_loop (insert_leaves ft (create_minheap 256)).size
            (insert_leaves ft (create_minheap 256))).capacity, array := [T] } := by
    rw [← hT]
  rw [e, minheap_extract_single]
  refine ⟨hTf, hTl.trans ?_⟩
  refine (List.Perm.flatMap_right _ hp).trans ?_
  simp only [create_minheap, List.append_nil]
  rw [flatMap_leaves_create_node]

theorem present_eq_nil (ft : List Nat) (h : (present ft).length = 0) :
    build_huffman_tree ft = .null := by
  have hp := insert_leaves_perm ft (create_minheap 256)
  rw [List.length_eq_zero.mp h] at hp
  unfold build_huffman_tree
  generalize insert_leaves ft (create_minheap 256) = h0 at hp
  obtain ⟨c, a⟩ := h0
  have ha : a = [] := by simpa [create_minheap] using hp
  subst ha
  rfl

theorem present_single (ft : List Nat) (b : Nat) (h : present ft = [b]) :
    b < 256 ∧ 0 < ft.getD b 0 ∧ ∀ i, i < 256 → i ≠ b → ft.getD i 0 = 0 := by
  have hb := (mem_present ft b).mp (by rw [h]; simp)
  refine ⟨hb.1, Nat.pos_of_ne_zero hb.2, ?_⟩
  intro i hi hne
  by_contra h0
  have := (mem_present ft i).mpr ⟨hi, h0⟩
  rw [h] at this
  simp at this
  exact hne this

theorem build_huffman_tree_height (ft : List Nat) : height (build_huffman_tree ft) < 256 := by
  rcases Nat.lt_or_ge (present ft).length 2 with hk | hk
  · rcases Nat.lt_or_ge (present ft).length 1 with h0 | h1
    · rw [present_eq_nil ft (by omega)]
      simp [height]
    · obtain ⟨b, hb⟩ := List.length_eq_one.mp (by omega : (present ft).length = 1)
      obtain ⟨h1, h2, h3⟩ := present_single ft b hb
      rw [insert_leaves_single_tree ft b h1 h2 h3]
      simp [height]
  · have := build_huffman_tree_shape ft hk
    have hh := height_lt_leaves _ this.1
    rw [this.2.length_eq, List.length_map] at hh
    have := present_length_le ft
    omega

/-! ## The code table is prefix-free -/

theorem build_codes_buffer_irrelevant (t : Node) (buf1 buf2 : List Char)
    (codes : List (Option (List Char))) (h1 : height t < buf1.length)
    (h2 : height t < buf2.length) :
    (build_codes t buf1 0 codes).2 = (build_codes t buf2 0 codes).2 := by
  rw [(build_codes_spec t buf1 0 codes (by omega) (by simp)).1,
    (build_codes_spec t buf2 0 codes (by omega) (by simp)).1]
  simp

theorem record_paths_getD (ps : List (Nat × List Char)) (codes : List (Option (List Char)))
    (s : Nat) (p : List Char) (h : (record_paths ps codes).getD s none = some p) :
    (s, p) ∈ ps ∨ codes.getD s none = some p := by
  unfold record_paths at h
  induction ps generalizing codes with
  | nil => exact Or.inr h
  | cons q qs ih =>
    rw [List.foldl_cons] at h
    rcases ih _ h with h1 | h1
    · exact Or.inl (List.mem_cons_of_mem _ h1)
    · simp only [List.getD_eq_getElem?_getD, List.getElem?_set] at h1
      by_cases e : q.1 = s
      · rw [if_pos e] at h1
        split at h1
        · simp only [Option.getD_some, Option.some.injEq] at h1
          left
          rw [← h1, ← e]
          exact List.mem_cons_self _ _
        · simp at h1
      · rw [if_neg e] at h1
        right
        simpa [List.getD_eq_getElem?_getD] using h1

theorem leaf_paths_extends (t : Node) (pre : List Char) (s : Nat) (p : List Char)
    (h : (s, p) ∈ leaf_paths t pre) : pre <+: p := by
  induction t generalizing pre with
  | null => simp [leaf_paths] at h
  | mk s0 f l r ihl ihr =>
    unfold leaf_paths at h
    split at h
    · simp at h
      rw [h.2]
    · rcases List.mem_append.mp h with h | h
      · exact (List.prefix_append pre ['0']).trans (ihl _ h)
      · exact (List.prefix_append pre ['1']).trans (ihr _ h)

theorem not_prefix_of_branch (pre p q : List Char) (hp : (pre ++ ['0']) <+: p)
    (hq : (pre ++ ['1']) <+: q) : ¬ p <+: q ∧ ¬ q <+: p := by
  obtain ⟨x, rfl⟩ := hp
  obtain ⟨y, rfl⟩ := hq
  constructor
  · rintro ⟨z, hz⟩
    simp only [List.append_assoc, List.singleton_append, List.cons_append,
      List.append_cancel_left_eq, List.cons.injEq] at hz
    exact absurd hz.1 (by decide)
  · rintro ⟨z, hz⟩
    simp only [List.append_assoc, List.singleton_append, List.cons_append,
      List.append_cancel_left_eq, List.cons.injEq] at hz
    exact absurd hz.1 (by decide)

theorem leaf_paths_no_prefix_pair (t : Node) (pre : List Char) (s1 s2 : Nat)
    (p1 p2 : List Char) (h1 : (s1, p1) ∈ leaf_paths t pre) (h2 : (s2, p2) ∈ leaf_paths t pre)
    (hp : p1 <+: p2) : s1 = s2 ∧ p1 = p2 := by
  induction t generalizing pre with
  | null => simp [leaf_paths] at h1
  | mk s0 f l r ihl ihr =>
    unfold leaf_paths at h1 h2
    by_cases hleaf : l = .null ∧ r = .null
    · rw [if_pos hleaf] at h1 h2
      simp at h1 h2
      exact ⟨h1.1.trans h2.1.symm, h1.2.trans h2.2.symm⟩
    · rw [if_neg hleaf] at h1 h2
      rcases List.mem_append.mp h1 with a1 | a1 <;> rcases List.mem_append.mp h2 with a2 | a2
      · exact ihl _ a1 a2
      · exact absurd hp
          (not_prefix_of_branch pre p1 p2 (leaf_paths_extends _ _ _ _ a1)
            (leaf_paths_extends _ _ _ _ a2)).1
      · exact absurd hp
          (not_prefix_of_branch pre p2 p1 (leaf_paths_extends _ _ _ _ a2)
            (leaf_paths_extends _ _ _ _ a1)).2
      · exact ihr _ a1 a2

theorem getD_replicate_none (n j : Nat) :
    (List.replicate n (none : Option (List Char))).getD j none = none := by
  simp only [List.getD_eq_getElem?_getD, List.getElem?_replicate]
  split <;> rfl

theorem code_table_mem (t : Node) (buf : List Char) (hb : height t < buf.length)
    (s : Nat) (p : List Char)
    (h : (build_codes t buf 0 (List.replicate SYMBOLS none)).2.getD s none = some p) :
    (s, p) ∈ leaf_paths t [] := by
  rw [(build_codes_spec t buf 0 _ (by omega) (by simp)).1] at h
  rcases record_paths_getD _ _ _ _ h with h | h
  · simpa using h
  · rw [getD_replicate_none] at h
    exact absurd h (by simp)

/-- C2: for every frequency table with a non-zero entry and every initial
content of the 256-character buffer, in the table that `build_codes` fills
from the tree returned by `build_huffman_tree` the code recorded for a byte
value is never a prefix of the code recorded for a different byte value (so
no two byte values share a code). -/
theorem code_table_prefix_free (ft : List Nat) (codebuf : List Char)
    (hnz : ∃ i, i < 256 ∧ ft.getD i 0 ≠ 0) (hbuf : codebuf.length = 256)
    (s t : Nat) (c1 c2 : List Char) (hst : s ≠ t)
    (h1 : (build_codes (build_huffman_tree ft) codebuf 0
      (List.replicate SYMBOLS none)).2.getD s none = some c1)
    (h2 : (build_codes (build_huffman_tree ft) codebuf 0
      (List.replicate SYMBOLS none)).2.getD t none = some c2) :
    ¬ c1 <+: c2 := by
  have hh := build_huffman_tree_height ft
  intro hp
  exact hst (leaf_paths_no_prefix_pair _ _ _ _ _ _
    (code_table_mem _ codebuf (by omega) s c1 h1)
    (code_table_mem _ codebuf (by omega) t c2 h2) hp).1

set_option maxRecDepth 100000 in
theorem code_table_prefix_free_witness :
    (build_codes (build_huffman_tree (freq_of [97, 97, 97, 98])) (List.replicate 256 NUL) 0
        (List.replicate SYMBOLS none)).2.getD 97 none = some ['1'] ∧
      (build_codes (build_huffman_tree (freq_of [97, 97, 97, 98])) (List.replicate 256 NUL) 0
        (List.replicate SYMBOLS none)).2.getD 98 none = some ['0'] ∧
      ¬ (['1'] : List Char) <+: ['0'] :=
  ⟨by decide, by decide,
    code_table_prefix_free (freq_of [97, 97, 97, 98]) (List.replicate 256 NUL)
      ⟨97, by decide, by decide⟩ (List.length_replicate _ _) 97 98 ['1'] ['0'] (by decide)
      (by decide) (by decide)⟩

/-! ## Greedy merging is optimal among length assignments satisfying Kraft -/

theorem pcost_cons (p : Nat × Nat) (P : List (Nat × Nat)) :
    pcost (p :: P) = p.1 * p.2 + pcost P := by
  simp [pcost]

theorem pcost_perm (P Q : List (Nat × Nat)) (h : P.Perm Q) : pcost P = pcost Q := by
  unfold pcost
  exact (h.map _).sum_eq

theorem kraftLe_perm (L : Nat) (ls ms : List Nat) (h : ls.Perm ms) (hk : KraftLe L ls) :
    KraftLe L ms := by
  refine ⟨fun l hl => hk.1 l (h.symm.subset hl), ?_⟩
  rw [← (h.map _).sum_eq]
  exact hk.2

theorem kraft_sum_succ (L : Nat) (ls : List Nat) (h : ∀ l ∈ ls, l ≤ L) :
    (ls.map (fun l => 2 ^ (L + 1 - l))).sum = 2 * (ls.map (fun l => 2 ^ (L - l))).sum := by
  induction ls with
  | nil => simp
  | cons l ls ih =>
    have hl : l ≤ L := h l (List.mem_cons_self _ _)
    simp only [List.map_cons, List.sum_cons]
    rw [ih (fun x hx => h x (List.mem_cons_of_mem _ hx))]
    have : L + 1 - l = (L - l) + 1 := by omega
    rw [this, pow_succ]
    ring

theorem replace_weight (a w : Nat) (Q : List (Nat × Nat)) (ha : a ∈ Q.map Prod.fst) :
    ∃ Q' la, la ∈ Q.map Prod.snd ∧ (a :: Q'.map Prod.fst).Perm (w :: Q.map Prod.fst) ∧
      Q'.map Prod.snd = Q.map Prod.snd ∧ pcost Q' + a * la = pcost Q + w * la := by
  induction Q with
  | nil => simp at ha
  | cons q qs ih =>
    by_cases hq : q.1 = a
    · refine ⟨(w, q.2) :: qs, q.2, by simp, ?_, by simp, ?_⟩
      · simp only [List.map_cons, hq]
        exact List.Perm.swap _ _ _
      · simp only [pcost_cons, hq]
        ring
    · have ha' : a ∈ qs.map Prod.fst := by
        simp only [List.map_cons, List.mem_cons] at ha
        rcases ha with ha | ha
        · exact absurd ha.symm hq
        · exact ha
      obtain ⟨qs', la, h1, h2, h3, h4⟩ := ih ha'
      refine ⟨q :: qs', la, by simp [h1], ?_, by simp [h3], ?_⟩
      · simp only [List.map_cons]
        exact (List.Perm.swap _ _ _).trans ((h2.cons q.1).trans (List.Perm.swap _ _ _))
      · simp only [pcost_cons]
        omega

theorem exchange_min (a w l : Nat) (Q : List (Nat × Nat)) (ha : a ∈ w :: Q.map Prod.fst)
    (hmin : ∀ x ∈ w :: Q.map Prod.fst, a ≤ x) (hl : ∀ x ∈ Q.map Prod.snd, x ≤ l) :
    ∃ Q', (a :: Q'.map Prod.fst).Perm (w :: Q.map Prod.fst) ∧
      Q'.map Prod.snd = Q.map Prod.snd ∧ a * l + pcost Q' ≤ w * l + pcost Q := by
  by_cases haw : a = w
  · subst haw
    exact ⟨Q, List.Perm.refl _, rfl, Nat.le_refl _⟩
  · have ha' : a ∈ Q.map Prod.fst := by
      rcases List.mem_cons.mp ha with h | h
      · exact absurd h haw
      · exact h
    obtain ⟨Q', la, h1, h2, h3, h4⟩ := replace_weight a w Q ha'
    refine ⟨Q', h2, h3, ?_⟩
    have hw : a ≤ w := hmin w (List.mem_cons_self _ _)
    have hla : la ≤ l := hl la h1
    obtain ⟨u, rfl⟩ := Nat.exists_eq_add_of_le hw
    obtain ⟨v, rfl⟩ := Nat.exists_eq_add_of_le hla
    nlinarith [Nat.zero_le (u * v)]

theorem kraftLe_merge (L l : Nat) (ls : List Nat) (hl : 1 ≤ l)
    (hk : KraftLe L (l :: l :: ls)) : KraftLe L ((l - 1) :: ls) := by
  obtain ⟨h1, h2⟩ := hk
  have hlL : l ≤ L := h1 l (List.mem_cons_self _ _)
  refine ⟨?_, ?_⟩
  · intro x hx
    rcases List.mem_cons.mp hx with hx | hx
    · omega
    · exact h1 x (List.mem_cons_of_mem _ (List.mem_cons_of_mem _ hx))
  · simp only [List.map_cons, List.sum_cons] at h2 ⊢
    have : L - (l - 1) = (L - l) + 1 := by omega
    rw [this, pow_succ]
    omega

theorem kraft_sum_all_zero (ls : List Nat) (h : ∀ l ∈ ls, l ≤ 0) :
    (ls.map (fun l => 2 ^ (0 - l))).sum = ls.length := by
  induction ls with
  | nil => simp
  | cons l ls ih =>
    simp only [List.map_cons, List.sum_cons, List.length_cons]
    rw [ih (fun x hx => h x (List.mem_cons_of_mem _ hx))]
    simp
    omega

theorem exists_two_deepest (L : Nat) (P : List (Nat × Nat)) (hP : 2 ≤ P.length)
    (hk : KraftLe L (P.map Prod.snd)) :
    ∃ w1 w2 l R, 1 ≤ l ∧ (∀ x ∈ R.map Prod.snd, x ≤ l) ∧
      (w1 :: w2 :: R.map Prod.fst).Perm (P.map Prod.fst) ∧
      (∃ L', KraftLe L' (l :: l :: R.map Prod.snd)) ∧
      w1 * l + w2 * l + pcost R ≤ pcost P := by
  induction L generalizing P with
  | zero =>
    have := kraft_sum_all_zero _ hk.1
    have h2 := hk.2
    rw [this, List.length_map] at h2
    simp at h2
    omega
  | succ L ih =>
    have hpart : ((P.filter (fun p => p.2 = L + 1)) ++ (P.filter (fun p => ¬ p.2 = L + 1))).Perm
        P := by
      have := List.filter_append_perm (fun p : Nat × Nat => decide (p.2 = L + 1)) P
      simpa using this
    have hN : ∀ x ∈ (P.filter (fun p => ¬ p.2 = L + 1)).map Prod.snd, x ≤ L := by
      intro x hx
      obtain ⟨p, hp, rfl⟩ := List.mem_map.mp hx
      have hp' := List.mem_filter.mp hp
      have h1 := hk.1 p.2 (List.mem_map_of_mem _ hp'.1)
      have h2 : ¬ p.2 = L + 1 := by simpa using hp'.2
      omega
    have hM : ∀ p ∈ P.filter (fun p => p.2 = L + 1), p.2 = L + 1 := by
      intro p hp
      simpa using (List.mem_filter.mp hp).2
    generalize P.filter (fun p => ¬ p.2 = L + 1) = N at hpart hN
    generalize P.filter (fun p => p.2 = L + 1) = M at hpart hM
    have hkM : KraftLe (L + 1) ((M ++ N).map Prod.snd) :=
      kraftLe_perm _ _ _ (hpart.map _).symm hk
    match M, hpart, hM, hkM with
    | [], hpart, _, hkM =>
      -- no item at depth L + 1
      simp only [List.nil_append] at hpart hkM
      have h2 := hkM.2
      rw [kraft_sum_succ L _ hN, pow_succ] at h2
      have hkN : KraftLe L (N.map Prod.snd) := ⟨hN, by omega⟩
      obtain ⟨w1, w2, l, R, h1, hR, hp, hK, hc⟩ := ih N (by rw [hpart.length_eq]; exact hP) hkN
      exact ⟨w1, w2, l, R, h1, hR, hp.trans (hpart.map _), hK,
        hc.trans (pcost_perm _ _ hpart).le⟩
    | [m], hpart, hM, hkM =>
      -- one item at depth L + 1: it can be moved up
      have hm : m.2 = L + 1 := hM m (by simp)
      simp only [List.singleton_append] at hpart hkM
      have h2 := hkM.2
      simp only [List.map_cons, List.sum_cons, hm, Nat.sub_self, pow_zero] at h2
      rw [kraft_sum_succ L _ hN, pow_succ] at h2
      have hkP' : KraftLe L (((m.1, L) :: N).map Prod.snd) := by
        refine ⟨?_, ?_⟩
        · intro x hx
          simp only [List.map_cons, List.mem_cons] at hx
          rcases hx with hx | hx
          · omega
          · exact hN x hx
        · simp only [List.map_cons, List.sum_cons, Nat.sub_self, pow_zero]
          omega
      obtain ⟨w1, w2, l, R, h1, hR, hp, hK, hc⟩ := ih ((m.1, L) :: N)
        (by have := hpart.length_eq; simp only [List.length_cons] at this ⊢; omega) hkP'
      refine ⟨w1, w2, l, R, h1, hR, hp.trans ?_, hK, hc.trans ?_⟩
      · have := hpart.map Prod.fst
        simpa using this
      · rw [← pcost_perm _ _ hpart, pcost_cons, pcost_cons, hm]
        simp only
        nlinarith
    | m1 :: m2 :: M', hpart, hM, hkM =>
      have hm1 : m1.2 = L + 1 := hM m1 (by simp)
      have hm2 : m2.2 = L + 1 := hM m2 (by simp)
      refine ⟨m1.1, m2.1, L + 1, M' ++ N, by omega, ?_, ?_, ⟨L + 1, ?_⟩, ?_⟩
      · intro x hx
        exact hkM.1 x (by simp at hx ⊢; tauto)
      · have := hpart.map Prod.fst
        simpa using this
      · have := hkM
        simpa [hm1, hm2] using this
      · rw [← pcost_perm _ _ hpart]
        simp only [List.cons_append, pcost_cons, hm1, hm2]
        omega

theorem greedy_perm (ws ws' : List Nat) (g : Nat) (h : Greedy ws g) (hp : ws.Perm ws') :
    Greedy ws' g := by
  cases h with
  | single w =>
    rw [List.perm_singleton.mp hp.symm]
    exact Greedy.single w
  | step _ rest a b g hperm hab hb hG =>
    exact Greedy.step ws' rest a b g (hp.symm.trans hperm) hab hb hG

theorem greedy_le_pcost (ws : List Nat) (g : Nat) (h : Greedy ws g) :
    ∀ P : List (Nat × Nat), (P.map Prod.fst).Perm ws →
      (∃ L, KraftLe L (P.map Prod.snd)) → g ≤ pcost P := by
  induction h with
  | single w => intro P _ _; exact Nat.zero_le _
  | step ws rest a b g hperm hab hb _ ih =>
    intro P hP hK
    obtain ⟨L, hK⟩ := hK
    have hlen : 2 ≤ P.length := by
      have := (hP.trans hperm).length_eq
      simp only [List.length_map, List.length_cons] at this
      omega
    obtain ⟨w1, w2, l, R, hl1, hR, hp1, ⟨L', hK'⟩, hc1⟩ := exists_two_deepest L P hlen hK
    have hpa : (w1 :: w2 :: R.map Prod.fst).Perm (a :: b :: rest) := hp1.trans (hP.trans hperm)
    have hmina : ∀ x ∈ a :: b :: rest, a ≤ x := by
      intro x hx
      simp only [List.mem_cons] at hx
      rcases hx with hx | hx | hx
      · omega
      · omega
      · exact hab.trans (hb x hx)
    have hminb : ∀ x ∈ b :: rest, b ≤ x := by
      intro x hx
      rcases List.mem_cons.mp hx with hx | hx
      · omega
      · exact hb x hx
    -- first exchange: the least weight takes the first deepest place
    obtain ⟨Q', hq1, hq2, hq3⟩ := exchange_min a w1 l ((w2, l) :: R)
      (hpa.symm.subset (List.mem_cons_self _ _))
      (fun x hx => hmina x (hpa.subset hx))
      (by
        intro x hx
        simp only [List.map_cons, List.mem_cons] at hx
        rcases hx with hx | hx
        · omega
        · exact hR x hx)
    have hq1' : (Q'.map Prod.fst).Perm (b :: rest) :=
      List.Perm.cons_inv (hq1.trans hpa)
    match Q', hq1, hq2, hq3, hq1' with
    | [], _, hq2, _, _ => simp at hq2
    | (w2', l') :: R1, _, hq2, hq3, hq1' =>
      simp only [List.map_cons, List.cons.injEq] at hq2
      obtain ⟨hl', hR1⟩ := hq2
      subst hl'
      -- second exchange
      obtain ⟨R', hr1, hr2, hr3⟩ := exchange_min b w2' l' R1
        (hq1'.symm.subset (List.mem_cons_self _ _))
        (fun x hx => hminb x (hq1'.subset hx))
        (by rw [hR1]; exact hR)
      have hr1' : (R'.map Prod.fst).Perm rest := List.Perm.cons_inv (hr1.trans hq1')
      have hKm : KraftLe L' ((l' - 1) :: R'.map Prod.snd) := by
        rw [hr2, hR1]
        exact kraftLe_merge L' l' _ hl1 hK'
      have := ih ((a + b, l' - 1) :: R') (by simpa using hr1'.cons (a + b)) ⟨L', by simpa using hKm⟩
      simp only [pcost_cons] at this hq3 hc1
      obtain ⟨k, rfl⟩ := Nat.exists_eq_add_of_le hl1
      simp only [Nat.add_sub_cancel_left] at this
      nlinarith

/-! ## Kraft's inequality for a prefix-free binary code -/

theorem kraft_half (L : Nat) (b : Bool) (ds : List (List Bool))
    (ih : ∀ cs : List (List Bool), cs.Pairwise (fun c d => ¬ c <+: d ∧ ¬ d <+: c) →
      (∀ c ∈ cs, c.length ≤ L) → (cs.map (fun c => 2 ^ (L - c.length))).sum ≤ 2 ^ L)
    (hb : ∀ c ∈ ds, ∃ t, c = b :: t)
    (hpf : ds.Pairwise (fun c d => ¬ c <+: d ∧ ¬ d <+: c))
    (hL : ∀ c ∈ ds, c.length ≤ L + 1) :
    (ds.map (fun c => 2 ^ (L + 1 - c.length))).sum ≤ 2 ^ L := by
  have e : ds.map (fun c => 2 ^ (L + 1 - c.length))
      = (ds.map List.tail).map (fun t => 2 ^ (L - t.length)) := by
    rw [List.map_map]
    apply List.map_congr_left
    intro c hc
    obtain ⟨t, rfl⟩ := hb c hc
    simp
  rw [e]
  apply ih
  · rw [List.pairwise_map]
    refine List.Pairwise.imp_of_mem ?_ hpf
    intro c d hc hd h
    obtain ⟨t, rfl⟩ := hb c hc
    obtain ⟨u, rfl⟩ := hb d hd
    simp only [List.tail_cons]
    constructor
    · intro hp
      exact h.1 ((List.prefix_cons_inj b).mpr hp)
    · intro hp
      exact h.2 ((List.prefix_cons_inj b).mpr hp)
  · intro t ht
    obtain ⟨c, hc, rfl⟩ := List.mem_map.mp ht
    have := hL c hc
    obtain ⟨u, rfl⟩ := hb c hc
    simp only [List.length_cons, List.tail_cons] at this ⊢
    omega

theorem kraft_of_prefix_free (L : Nat) (cs : List (List Bool))
    (hpf : cs.Pairwise (fun c d => ¬ c <+: d ∧ ¬ d <+: c))
    (hL : ∀ c ∈ cs, c.length ≤ L) :
    (cs.map (fun c => 2 ^ (L - c.length))).sum ≤ 2 ^ L := by
  induction L generalizing cs with
  | zero =>
    match cs, hpf, hL with
    | [], _, _ => simp
    | [c], _, _ => simp
    | c :: d :: rest, hpf, hL =>
      have hc : c = [] := List.length_eq_zero.mp (Nat.le_zero.mp (hL c (by simp)))
      have := (List.pairwise_cons.mp hpf).1 d (by simp)
      rw [hc] at this
      exact absurd (List.nil_prefix) this.1
  | succ L ih =>
    by_cases hnil : [] ∈ cs
    · -- the empty code is alone
      match cs, hpf, hL, hnil with
      | [c], _, _, hnil =>
        have : c = [] := (List.mem_singleton.mp hnil).symm
        subst this
        simp
      | c :: d :: rest, hpf, _, hnil =>
        exfalso
        have h1 := List.pairwise_cons.mp hpf
        rcases List.mem_cons.mp hnil with h | h
        · have := h1.1 d (by simp)
          rw [← h] at this
          exact this.1 List.nil_prefix
        · have := h1.1 [] h
          exact this.2 List.nil_prefix
    · have hpart := List.filter_append_perm (fun c : List Bool => c.head? == some true) cs
      rw [← (hpart.map _).sum_eq, List.map_append, List.sum_append]
      have h1 := kraft_half L true (cs.filter (fun c => c.head? == some true)) ih
        (by
          intro c hc
          have := (List.mem_filter.mp hc).2
          match c, this with
          | true :: t, _ => exact ⟨t, rfl⟩)
        (hpf.sublist (List.filter_sublist _))
        (fun c hc => hL c (List.mem_filter.mp hc).1)
      have h0 := kraft_half L false (cs.filter (fun c => !(c.head? == some true))) ih
        (by
          intro c hc
          have hm := List.mem_filter.mp hc
          match c, hm with
          | [], hm => exact absurd hm.1 hnil
          | false :: t, _ => exact ⟨t, rfl⟩
          | true :: t, hm => simp at hm)
        (hpf.sublist (List.filter_sublist _))
        (fun c hc => hL c (List.mem_filter.mp hc).1)
      rw [pow_succ]
      omega

/-! ## The merge loop is a greedy run -/

theorem freq_mk (s f : Nat) (l r : Node) : (Node.mk s f l r).freq = f := rfl

theorem sound_full (t : Node) (h : Sound t) : Full t := by
  induction t with
  | null => exact h
  | mk s f l r ihl ihr =>
    rcases h with h | h
    · exact Or.inl h
    · exact Or.inr ⟨ihl h.1, ihr h.2.1⟩

theorem sound_freq (t : Node) (h : Sound t) : t.freq = weight t := by
  induction t with
  | null => exact absurd h (by simp [Sound])
  | mk s f l r ihl ihr =>
    rcases h with h | h
    · simp [weight, Node.freq, h]
    · have hl : l ≠ .null := full_ne_null l (sound_full l h.1)
      simp only [weight, Node.freq, hl, false_and, if_false]
      rw [h.2.2, ihl h.1, ihr h.2.1]

theorem wpl_mk_of_sound (s f : Nat) (l r : Node) (hl : Sound l) (hr : Sound r) :
    wpl (.mk s f l r) = wpl l + wpl r + l.freq + r.freq := by
  have hln : l ≠ .null := full_ne_null l (sound_full l hl)
  simp only [wpl, hln, false_and, if_false]
  rw [sound_freq l hl, sound_freq r hr]

theorem insert_leaves_isHeap (ft : List Nat) (h : MinHeap) (hh : IsHeap h.array) :
    IsHeap (insert_leaves ft h).array := by
  unfold insert_leaves
  generalize List.range SYMBOLS = l
  induction l generalizing h with
  | nil => exact hh
  | cons i is ih =>
    rw [List.foldl_cons]
    apply ih
    split
    · exact minheap_insert_isHeap h _ hh
    · exact hh

theorem merge_loop_greedy (fuel : Nat) (h : MinHeap) (hfuel : h.size ≤ fuel + 1)
    (hne : 1 ≤ h.size) (hheap : IsHeap h.array) (hs : ∀ t ∈ h.array, Sound t)
    (hsum : (h.array.map Node.freq).sum < 2 ^ 32) :
    ∃ T g, (merge_loop fuel h).array = [T] ∧ Greedy (h.array.map Node.freq) g ∧
      wpl T = (h.array.map wpl).sum + g := by
  induction fuel generalizing h with
  | zero =>
    have h1 : h.array.length = 1 := by simp [MinHeap.size] at hfuel hne; omega
    obtain ⟨T, hT⟩ := List.length_eq_one.mp h1
    refine ⟨T, 0, by simp [merge_loop, hT], ?_, by simp [hT]⟩
    rw [hT]
    exact Greedy.single _
  | succ fuel ih =>
    unfold merge_loop
    by_cases hsz : h.size > 1
    · rw [if_pos hsz]
      simp only
      have hne0 : h.array ≠ [] := by
        intro e; simp [MinHeap.size, e] at hsz
      have p1 := minheap_extract_perm h hne0
      have hs1 : (minheap_extract h).2.size = h.size - 1 := minheap_extract_size h
      have hne1 : (minheap_extract h).2.array ≠ [] := by
        intro e
        have : (minheap_extract h).2.size = 0 := by simp [MinHeap.size, e]
        omega
      have p2 := minheap_extract_perm (minheap_extract h).2 hne1
      have hs2 := minheap_extract_size (minheap_extract h).2
      have hh1 := minheap_extract_isHeap h hheap
      have hh2 := minheap_extract_isHeap _ hh1
      have m1 := minheap_extract_min h hheap
      have m2 := minheap_extract_min _ hh1
      generalize hL : (minheap_extract h).1 = left at p1 m1
      generalize hH1 : (minheap_extract h).2 = h1 at p1 p2 hs1 hs2 hne1 hh1 hh2 m2
      generalize hR : (minheap_extract h1).1 = right at p2 m2
      generalize hH2 : (minheap_extract h1).2 = h2 at p2 hs2 hh2
      have pall : h.array.Perm (left :: right :: h2.array) := p1.trans (p2.cons left)
      have hsl : Sound left := hs _ (pall.symm.subset (by simp))
      have hsr : Sound right := hs _ (pall.symm.subset (by simp))
      have hsumall : left.freq + right.freq + (h2.array.map Node.freq).sum
          = (h.array.map Node.freq).sum := by
        rw [(pall.map Node.freq).sum_eq]
        simp [Nat.add_assoc]
      have hmod : (left.freq + right.freq) % 2 ^ 32 = left.freq + right.freq :=
        Nat.mod_eq_of_lt (by omega)
      rw [hmod]
      have p3 := minheap_insert_perm h2 (.mk 0 (left.freq + right.freq) left right)
      obtain ⟨T, g, hT, hG, hW⟩ := ih
        (minheap_insert h2 (.mk 0 (left.freq + right.freq) left right))
        (by rw [minheap_insert_size]; omega)
        (by rw [minheap_insert_size]; omega)
        (minheap_insert_isHeap _ _ hh2)
        (by
          intro t ht
          rcases List.mem_cons.mp (p3.subset ht) with e | hm
          · subst e
            exact Or.inr ⟨hsl, hsr, rfl⟩
          · exact hs t (pall.symm.subset (by simp [hm])))
        (by
          rw [(p3.map Node.freq).sum_eq]
          simp only [List.map_cons, List.sum_cons, freq_mk]
          omega)
      refine ⟨T, g + (left.freq + right.freq), hT, ?_, ?_⟩
      · refine Greedy.step _ (h2.array.map Node.freq) left.freq right.freq g
          (pall.map Node.freq) ?_ ?_ ?_
        · exact m1 right (p1.symm.subset (List.mem_cons_of_mem _ (p2.symm.subset (by simp))))
        · intro x hx
          obtain ⟨t, ht, rfl⟩ := List.mem_map.mp hx
          exact m2 t (p2.symm.subset (List.mem_cons_of_mem _ ht))
        · exact greedy_perm _ _ _ hG (by simpa [freq_mk] using p3.map Node.freq)
      · rw [hW, (p3.map wpl).sum_eq, (pall.map wpl).sum_eq]
        simp only [List.map_cons, List.sum_cons, wpl_mk_of_sound _ _ _ _ hsl hsr]
        omega
    · rw [if_neg hsz]
      have h1 : h.array.length = 1 := by simp [MinHeap.size] at hsz hne; omega
      obtain ⟨T, hT⟩ := List.length_eq_one.mp h1
      refine ⟨T, 0, hT, ?_, by simp [hT]⟩
      rw [hT]
      exact Greedy.single _

/-! ## Cost of the code table -/

theorem leaf_paths_eq_map (t : Node) (pre : List Char) :
    leaf_paths t pre = (leaf_info t pre).map (fun x => (x.1, x.2.2)) := by
  induction t generalizing pre with
  | null => rfl
  | mk s f l r ihl ihr =>
    unfold leaf_paths leaf_info
    split
    · rfl
    · rw [ihl, ihr, List.map_append]

theorem leaves_eq_map (t : Node) (pre : List Char) :
    leaves t = (leaf_info t pre).map (fun x => (x.1, x.2.1)) := by
  induction t generalizing pre with
  | null => rfl
  | mk s f l r ihl ihr =>
    unfold leaves leaf_info
    split
    · rfl
    · rw [ihl (pre ++ ['0']), ihr (pre ++ ['1']), List.map_append]

theorem leaf_info_sum (t : Node) (pre : List Char) :
    ((leaf_info t pre).map (fun x => x.2.1 * x.2.2.length)).sum
      = wpl t + weight t * pre.length := by
  induction t generalizing pre with
  | null => simp [leaf_info, wpl, weight]
  | mk s f l r ihl ihr =>
    by_cases hleaf : l = .null ∧ r = .null
    · simp [leaf_info, wpl, weight, hleaf]
    · simp only [leaf_info, wpl, weight, if_neg hleaf]
      rw [List.map_append, List.sum_append, ihl, ihr]
      simp only [List.length_append, List.length_singleton]
      ring

theorem record_paths_length (ps : List (Nat × List Char)) (codes : List (Option (List Char))) :
    (record_paths ps codes).length = codes.length := by
  unfold record_paths
  induction ps generalizing codes with
  | nil => rfl
  | cons q qs ih => rw [List.foldl_cons, ih, List.length_set]

theorem record_paths_other (ps : List (Nat × List Char)) (codes : List (Option (List Char)))
    (s : Nat) (hs : s ∉ ps.map Prod.fst) :
    (record_paths ps codes).getD s none = codes.getD s none := by
  unfold record_paths
  induction ps generalizing codes with
  | nil => rfl
  | cons q qs ih =>
    rw [List.foldl_cons, ih _ (fun h => hs (by simp [h]))]
    have : q.1 ≠ s := fun e => hs (by simp [e])
    simp [List.getD_eq_getElem?_getD, List.getElem?_set, this]

theorem record_paths_lookup (ps : List (Nat × List Char)) (codes : List (Option (List Char)))
    (s : Nat) (p : List Char) (hnd : (ps.map Prod.fst).Nodup) (hm : (s, p) ∈ ps)
    (hs : s < codes.length) : (record_paths ps codes).getD s none = some p := by
  induction ps generalizing codes with
  | nil => simp at hm
  | cons q qs ih =>
    simp only [List.map_cons, List.nodup_cons] at hnd
    rcases List.mem_cons.mp hm with e | hm'
    · subst e
      have := record_paths_other qs (codes.set s (some p)) s hnd.1
      unfold record_paths at this ⊢
      rw [List.foldl_cons, this]
      simp [List.getD_eq_getElem?_getD, List.getElem?_set, hs]
    · have := ih (codes.set q.1 (some q.2)) hnd.2 hm' (by simpa using hs)
      unfold record_paths at this ⊢
      rw [List.foldl_cons]
      exact this

theorem present_nodup (ft : List Nat) : (present ft).Nodup :=
  (List.nodup_range _).filter _

theorem code_table_eq (ft : List Nat) :
    code_table (build_huffman_tree ft)
      = record_paths (leaf_paths (build_huffman_tree ft) []) (List.replicate SYMBOLS none) := by
  unfold code_table
  have hh := build_huffman_tree_height ft
  have := (build_codes_spec (build_huffman_tree ft) (List.replicate SYMBOLS NUL) 0
    (List.replicate SYMBOLS none) (by rw [List.length_replicate, Nat.zero_add]; exact hh)
    (by intro c hc; rw [List.take_zero] at hc; exact absurd hc (List.not_mem_nil _))).1
  rw [List.take_zero] at this
  exact this

theorem leaf_info_keys_perm (ft : List Nat) (hk : 2 ≤ (present ft).length) :
    ((leaf_info (build_huffman_tree ft) []).map (fun x => x.1)).Perm (present ft) := by
  have hshape := (build_huffman_tree_shape ft hk).2
  rw [leaves_eq_map _ []] at hshape
  have := hshape.map Prod.fst
  rw [List.map_map, List.map_map] at this
  have e1 : (Prod.fst ∘ fun x : Nat × Nat × List Char => (x.1, x.2.1)) = fun x => x.1 := rfl
  have e2 : (Prod.fst ∘ fun i : Nat => (i, ft.getD i 0)) = id := rfl
  rw [e1, e2, List.map_id] at this
  exact this

/-- For a table with at least two byte values present: every leaf of the tree
carries a byte value that is present, with its count, and the table holds the
path to that leaf as its code. -/
theorem code_table_of_leaf (ft : List Nat) (hk : 2 ≤ (present ft).length)
    (x : Nat × Nat × List Char) (hx : x ∈ leaf_info (build_huffman_tree ft) []) :
    x.1 ∈ present ft ∧ x.2.1 = ft.getD x.1 0 ∧
      (code_table (build_huffman_tree ft)).getD x.1 none = some x.2.2 := by
  have hshape := (build_huffman_tree_shape ft hk).2
  rw [leaves_eq_map _ []] at hshape
  have hmem : (x.1, x.2.1) ∈ (present ft).map (fun i => (i, ft.getD i 0)) :=
    hshape.subset (List.mem_map_of_mem _ hx)
  obtain ⟨i, hi, he⟩ := List.mem_map.mp hmem
  simp only [Prod.mk.injEq] at he
  have hpres : x.1 ∈ present ft := he.1 ▸ hi
  refine ⟨hpres, by rw [← he.2, he.1], ?_⟩
  rw [code_table_eq]
  apply record_paths_lookup
  · rw [leaf_paths_eq_map, List.map_map]
    have e1 : (Prod.fst ∘ fun x : Nat × Nat × List Char => (x.1, x.2.2)) = fun x => x.1 := rfl
    rw [e1]
    exact (leaf_info_keys_perm ft hk).nodup_iff.mpr (present_nodup ft)
  · rw [leaf_paths_eq_map]
    exact List.mem_map_of_mem _ hx
  · rw [List.length_replicate]
    exact ((mem_present ft x.1).mp hpres).1

theorem weighted_length_code_table (ft : List Nat) (hk : 2 ≤ (present ft).length) :
    weighted_length ft (code_len (code_table (build_huffman_tree ft)))
      = wpl (build_huffman_tree ft) := by
  have hkeys := leaf_info_keys_perm ft hk
  unfold weighted_length
  rw [← (hkeys.map (fun s => ft.getD s 0 *
    code_len (code_table (build_huffman_tree ft)) s)).sum_eq, List.map_map]
  have := leaf_info_sum (build_huffman_tree ft) []
  simp only [List.length_nil, Nat.mul_zero, Nat.add_zero] at this
  rw [← this]
  apply congrArg List.sum
  apply List.map_congr_left
  intro x hx
  obtain ⟨_, h2, h3⟩ := code_table_of_leaf ft hk x hx
  simp only [Function.comp_apply, code_len, h3, h2]

/-! ## Optimality of the code table -/

theorem build_huffman_tree_greedy (ft : List Nat) (hk : 2 ≤ (present ft).length)
    (hsum : ((present ft).map (fun s => ft.getD s 0)).sum < 2 ^ 32) :
    Greedy ((present ft).map (fun s => ft.getD s 0)) (wpl (build_huffman_tree ft)) := by
  have hp : (insert_leaves ft (create_minheap 256)).array.Perm
      ((present ft).map (fun i => create_node i (ft.getD i 0))) := by
    have := insert_leaves_perm ft (create_minheap 256)
    rw [show (create_minheap 256).array = [] from rfl, List.append_nil] at this
    exact this
  have hsz : (insert_leaves ft (create_minheap 256)).size = (present ft).length := by
    have := hp.length_eq
    rw [List.length_map] at this
    exact this
  have hfreq : ((insert_leaves ft (create_minheap 256)).array.map Node.freq).Perm
      ((present ft).map (fun s => ft.getD s 0)) := by
    have := hp.map Node.freq
    rw [List.map_map] at this
    exact this
  have hwpl : ((insert_leaves ft (create_minheap 256)).array.map wpl).sum = 0 := by
    rw [(hp.map wpl).sum_eq, List.map_map]
    apply List.sum_eq_zero
    intro x hx
    obtain ⟨i, _, rfl⟩ := List.mem_map.mp hx
    rfl
  obtain ⟨T, g, hT, hG, hW⟩ := merge_loop_greedy (insert_leaves ft (create_minheap 256)).size
    (insert_leaves ft (create_minheap 256)) (by omega) (by omega)
    (insert_leaves_isHeap ft _ isHeap_nil)
    (by
      intro t ht
      obtain ⟨i, _, rfl⟩ := List.mem_map.mp (hp.subset ht)
      exact Or.inl ⟨rfl, rfl⟩)
    (by rw [hfreq.sum_eq]; exact hsum)
  have hroot : build_huffman_tree ft = T := by
    unfold build_huffman_tree
    simp only
    rw [if_neg (by omega)]
    have e : merge_loop (insert_leaves ft (create_minheap 256)).size
        (insert_leaves ft (create_minheap 256))
        = { capacity := (merge_loop (insert_leaves ft (create_minheap 256)).size
              (insert_leaves ft (create_minheap 256))).capacity, array := [T] } := by
      rw [← hT]
    rw [e, minheap_extract_single]
  rw [hroot, hW, hwpl, Nat.zero_add]
  exact greedy_perm _ _ _ hG hfreq

/-- C8: for every frequency table with at least two non-zero entries whose
frequencies sum to less than 2^32, the table filled by `build_codes` from the
tree of `build_huffman_tree` gives every byte value present a code, and its
total weighted code length (sum of frequency times code length) is at most
that of any binary code `c` that is prefix-free on the byte values present. -/
theorem huffman_code_optimal (ft : List Nat) (c : Nat → List Bool)
    (hk : 2 ≤ (present ft).length)
    (hsum : ((present ft).map (fun s => ft.getD s 0)).sum < 2 ^ 32)
    (hc : ∀ s ∈ present ft, ∀ t ∈ present ft, s ≠ t → ¬ c s <+: c t) :
    (∀ s ∈ present ft, ∃ code,
        (code_table (build_huffman_tree ft)).getD s none = some code) ∧
      weighted_length ft (code_len (code_table (build_huffman_tree ft)))
        ≤ weighted_length ft (fun s => (c s).length) := by
  constructor
  · intro s hs
    have hkeys := leaf_info_keys_perm ft hk
    obtain ⟨x, hx, rfl⟩ := List.mem_map.mp (hkeys.symm.subset hs)
    exact ⟨x.2.2, (code_table_of_leaf ft hk x hx).2.2⟩
  · rw [weighted_length_code_table ft hk]
    have hG := build_huffman_tree_greedy ft hk hsum
    have hpf : ((present ft).map c).Pairwise (fun c d => ¬ c <+: d ∧ ¬ d <+: c) := by
      rw [List.pairwise_map]
      refine List.Pairwise.imp_of_mem ?_ (present_nodup ft)
      intro s t hs ht hne
      exact ⟨hc s hs t ht hne, hc t ht s hs (Ne.symm hne)⟩
    have hK := kraft_of_prefix_free (((present ft).map c).map List.length).sum
      ((present ft).map c) hpf
      (by
        intro d hd
        exact List.le_sum_of_mem (List.mem_map_of_mem _ hd))
    have := greedy_le_pcost _ _ hG
      ((present ft).map (fun s => (ft.getD s 0, (c s).length)))
      (by rw [List.map_map]; exact List.Perm.refl _)
      ⟨(((present ft).map c).map List.length).sum, by
        refine ⟨?_, ?_⟩
        · intro l hl
          rw [List.map_map] at hl
          obtain ⟨s, hs, rfl⟩ := List.mem_map.mp hl
          exact List.le_sum_of_mem
            (List.mem_map_of_mem _ (List.mem_map_of_mem _ hs))
        · rw [List.map_map] at hK ⊢
          rw [List.map_map]
          exact hK⟩
    refine this.trans (le_of_eq ?_)
    unfold pcost weighted_length
    rw [List.map_map]
    rfl

set_option maxRecDepth 100000 in
theorem huffman_code_optimal_witness :
    2 ≤ (present (freq_of [97, 97, 97, 98])).length ∧
      ((∀ s ∈ present (freq_of [97, 97, 97, 98]), ∃ code,
          (code_table (build_huffman_tree (freq_of [97, 97, 97, 98]))).getD s none
            = some code) ∧
        weighted_length (freq_of [97, 97, 97, 98])
            (code_len (code_table (build_huffman_tree (freq_of [97, 97, 97, 98]))))
          ≤ weighted_length (freq_of [97, 97, 97, 98])
            (fun s => (if s = 97 then [true] else [false, true]).length)) :=
  ⟨by decide,
    huffman_code_optimal (freq_of [97, 97, 97, 98])
      (fun s => if s = 97 then [true] else [false, true]) (by decide) (by decide)
      (by
        have hp : present (freq_of [97, 97, 97, 98]) = [97, 98] := by decide
        rw [hp]
        decide)⟩

/-! ## Enough fuel for the decoding loop -/

theorem bitreader_read_bit_measure (br : BitReader) (h : (bitreader_read_bit br).1 ≠ -1) :
    8 * (bitreader_read_bit br).2.f.length + (bitreader_read_bit br).2.bit_count + 1
      = 8 * br.f.length + br.bit_count := by
  unfold bitreader_read_bit bitreader_fill at h ⊢
  by_cases h0 : br.bit_count = 0
  · rw [if_pos h0] at h ⊢
    cases hf : br.f with
    | nil => rw [hf] at h; simp at h
    | cons c rest =>
      simp only [List.length_cons]
      omega
  · rw [if_neg h0]
    simp only
    omega

theorem decode_loop_fuel (fuel1 fuel2 : Nat) (root : Node) (br : BitReader) (cur : Node)
    (fout : List Nat) (h1 : 8 * br.f.length + br.bit_count < fuel1)
    (h2 : 8 * br.f.length + br.bit_count < fuel2) :
    decode_loop fuel1 root br cur fout = decode_loop fuel2 root br cur fout := by
  induction fuel1 generalizing fuel2 br cur fout with
  | zero => omega
  | succ f1 ih =>
    cases fuel2 with
    | zero => omega
    | succ f2 =>
      unfold decode_loop
      simp only
      by_cases hb : (bitreader_read_bit br).1 = -1
      · rw [if_pos hb, if_pos hb]
      · rw [if_neg hb, if_neg hb]
        have hm := bitreader_read_bit_measure br hb
        cases cur with
        | null => rfl
        | mk s f l r =>
          simp only
          cases (if (bitreader_read_bit br).1 = 0 then l else r) with
          | null => rfl
          | mk s' f' cl cr =>
            simp only
            split
            · exact ih _ _ _ _ (by omega) (by omega)
            · exact ih _ _ _ _ (by omega) (by omega)

/-! ## The placeholder leaf and byte 0 -/

/-- C12 (evaluation at the failing input): for the input of three bytes 0 the
tree is the root with the real leaf `(0, 3)` on the left and the placeholder
leaf `(0, 0)` on the right; `build_codes` records "0" for byte 0 at the real
leaf and then replaces it by "1" at the placeholder leaf, so the encoder
writes the path to the placeholder for every input byte (body byte 0xE0), and
the first three bytes the decoder emits come from the placeholder leaf. -/
theorem placeholder_code_used_for_byte_zero :
    build_huffman_tree (freq_of [0, 0, 0])
        = .mk 0 3 (.mk 0 3 .null .null) (.mk 0 0 .null .null) ∧
      leaf_paths (build_huffman_tree (freq_of [0, 0, 0])) []
        = [(0, ['0']), (0, ['1'])] ∧
      (code_table (build_huffman_tree (freq_of [0, 0, 0]))).getD 0 none = some ['1'] ∧
      huffman_encode (some [0, 0, 0]) true = (1, some [1, 0, 0, 3, 0, 0, 0, 224]) := by
  set_option maxRecDepth 100000 in decide

/-! ## Extract-minimum over arbitrary call sequences -/

theorem run_calls_isHeap (calls : List HeapCall) (h : MinHeap) (hh : IsHeap h.array) :
    IsHeap (run_calls calls h).array := by
  unfold run_calls
  induction calls generalizing h with
  | nil => exact hh
  | cons c cs ih =>
    rw [List.foldl_cons]
    apply ih
    cases c with
    | insert node => exact minheap_insert_isHeap h node hh
    | extract => exact minheap_extract_isHeap h hh

theorem run_calls_nonnull (calls : List HeapCall) (h : MinHeap)
    (hc : ∀ node, HeapCall.insert node ∈ calls → node ≠ .null)
    (hh : ∀ x ∈ h.array, x ≠ .null) :
    ∀ x ∈ (run_calls calls h).array, x ≠ .null := by
  unfold run_calls
  induction calls generalizing h with
  | nil => exact hh
  | cons c cs ih =>
    rw [List.foldl_cons]
    apply ih
    · intro node hn
      exact hc node (List.mem_cons_of_mem _ hn)
    · cases c with
      | insert node =>
        intro x hx
        rcases List.mem_cons.mp ((minheap_insert_perm h node).subset hx) with e | hm
        · rw [e]; exact hc node (List.mem_cons_self _ _)
        · exact hh x hm
      | extract =>
        intro x hx
        by_cases hne : h.array = []
        · have : (minheap_extract h).2 = h := by
            simp [minheap_extract, MinHeap.size, hne]
          rw [this] at hx
          exact hh x hx
        · exact hh x ((minheap_extract_perm h hne).symm.subset (List.mem_cons_of_mem _ hx))

/-- C13: after every sequence of `minheap_insert` (of non-NULL nodes) and
`minheap_extract` calls on a heap created empty by `create_minheap` with a
positive capacity (a capacity of 0 would stay 0 under the doubling of
`minheap_insert`), `minheap_extract` on an
empty heap returns NULL and leaves the heap as it is, and on a non-empty heap
it returns a non-NULL node that is no heavier than any node in the queue and
removes exactly that node: the queue before is a permutation of the node
returned followed by the queue after. -/
theorem minheap_extract_minimum (calls : List HeapCall) (capacity : Nat)
    (_hcap : 0 < capacity)
    (hc : ∀ node, HeapCall.insert node ∈ calls → node ≠ .null) :
    ((run_calls calls (create_minheap capacity)).size = 0 →
        minheap_extract (run_calls calls (create_minheap capacity))
          = (.null, run_calls calls (create_minheap capacity))) ∧
      ((run_calls calls (create_minheap capacity)).size ≠ 0 →
        (minheap_extract (run_calls calls (create_minheap capacity))).1 ≠ .null ∧
        (∀ x ∈ (run_calls calls (create_minheap capacity)).array,
          (minheap_extract (run_calls calls (create_minheap capacity))).1.freq ≤ x.freq) ∧
        (run_calls calls (create_minheap capacity)).array.Perm
          ((minheap_extract (run_calls calls (create_minheap capacity))).1 ::
            (minheap_extract (run_calls calls (create_minheap capacity))).2.array)) := by
  have hheap := run_calls_isHeap calls (create_minheap capacity) isHeap_nil
  have hnn := run_calls_nonnull calls (create_minheap capacity) hc
    (by intro x hx; simp [create_minheap] at hx)
  generalize run_calls calls (create_minheap capacity) = h at hheap hnn
  constructor
  · intro h0
    simp [minheap_extract, h0]
  · intro h0
    have hne : h.array ≠ [] := by
      intro e; exact h0 (by simp [MinHeap.size, e])
    have hp := minheap_extract_perm h hne
    exact ⟨hnn _ (hp.symm.subset (List.mem_cons_self _ _)), minheap_extract_min h hheap, hp⟩

theorem minheap_extract_minimum_witness :
    (minheap_extract (run_calls
        [.insert (create_node 1 5), .insert (create_node 2 3), .extract,
          .insert (create_node 3 4)] (create_minheap 256))).1 = create_node 3 4 ∧
      ((run_calls [.insert (create_node 1 5), .insert (create_node 2 3), .extract,
          .insert (create_node 3 4)] (create_minheap 256)).size ≠ 0 →
        (minheap_extract (run_calls
          [.insert (create_node 1 5), .insert (create_node 2 3), .extract,
            .insert (create_node 3 4)] (create_minheap 256))).1 ≠ .null ∧
        (∀ x ∈ (run_calls [.insert (create_node 1 5), .insert (create_node 2 3), .extract,
            .insert (create_node 3 4)] (create_minheap 256)).array,
          (minheap_extract (run_calls
            [.insert (create_node 1 5), .insert (create_node 2 3), .extract,
              .insert (create_node 3 4)] (create_minheap 256))).1.freq ≤ x.freq) ∧
        (run_calls [.insert (create_node 1 5), .insert (create_node 2 3), .extract,
            .insert (create_node 3 4)] (create_minheap 256)).array.Perm
          ((minheap_extract (run_calls
              [.insert (create_node 1 5), .insert (create_node 2 3), .extract,
                .insert (create_node 3 4)] (create_minheap 256))).1 ::
            (minheap_extract (run_calls
              [.insert (create_node 1 5), .insert (create_node 2 3), .extract,
                .insert (create_node 3 4)] (create_minheap 256))).2.array)) :=
  ⟨by decide,
    (minheap_extract_minimum
      [.insert (create_node 1 5), .insert (create_node 2 3), .extract,
        .insert (create_node 3 4)] 256 (by decide)
      (by
        intro node hn
        simp only [List.mem_cons, HeapCall.insert.injEq, List.mem_singleton,
          List.not_mem_nil, or_false] at hn
        rcases hn with h | h | h | h
        · rw [h]; decide
        · rw [h]; decide
        · exact absurd h (by simp)
        · rw [h]; decide)).2⟩

/-! ## The tree is a strict binary tree with an internal root -/

theorem present_ne_nil_of_nonzero (ft : List Nat) (h : ∃ i, i < 256 ∧ ft.getD i 0 ≠ 0) :
    1 ≤ (present ft).length := by
  obtain ⟨i, hi, h0⟩ := h
  exact List.length_pos_of_mem ((mem_present ft i).mpr ⟨hi, h0⟩)

theorem build_huffman_tree_internal (ft : List Nat) (hk : 1 ≤ (present ft).length) :
    ∃ s f l r, build_huffman_tree ft = .mk s f l r ∧ Full l ∧ Full r := by
  rcases Nat.lt_or_ge (present ft).length 2 with h1 | h2
  · obtain ⟨b, hb⟩ := List.length_eq_one.mp (by omega : (present ft).length = 1)
    obtain ⟨h1, h2, h3⟩ := present_single ft b hb
    rw [insert_leaves_single_tree ft b h1 h2 h3]
    exact ⟨_, _, _, _, rfl, Or.inl ⟨rfl, rfl⟩, Or.inl ⟨rfl, rfl⟩⟩
  · obtain ⟨hfull, hperm⟩ := build_huffman_tree_shape ft h2
    have hlen := hperm.length_eq
    rw [List.length_map] at hlen
    generalize build_huffman_tree ft = T at hfull hlen
    cases T with
    | null => exact absurd hfull (by simp [Full])
    | mk s f l r =>
      rcases hfull with hleaf | hint
      · simp [leaves, hleaf] at hlen
        omega
      · exact ⟨s, f, l, r, rfl, hint.1, hint.2⟩

theorem decode_loop_no_null (fuel : Nat) (root : Node) (br : BitReader) (cur : Node)
    (fout : List Nat)
    (hroot : ∃ s f l r, root = .mk s f l r ∧ Full l ∧ Full r)
    (hcur : ∃ s f l r, cur = .mk s f l r ∧ Full l ∧ Full r) :
    decode_loop fuel root br cur fout ≠ none := by
  induction fuel generalizing br cur fout with
  | zero => simp [decode_loop]
  | succ fuel ih =>
    obtain ⟨s, f, l, r, rfl, hl, hr⟩ := hcur
    unfold decode_loop
    simp only
    split
    · simp
    · have hnext : Full (if (bitreader_read_bit br).1 = 0 then l else r) := by
        split
        · exact hl
        · exact hr
      generalize (if (bitreader_read_bit br).1 = 0 then l else r) = next at hnext
      cases next with
      | null => exact absurd hnext (by simp [Full])
      | mk s' f' a b =>
        simp only
        split
        · exact ih _ _ _ hroot
        · rename_i hleaf
          rcases hnext with h | h
          · exact absurd h hleaf
          · exact ih _ _ _ ⟨s', f', a, b, rfl, h.1, h.2⟩

/-- C14: for every frequency table with a non-zero entry `build_huffman_tree`
returns a non-NULL root that is an internal node with two children, and every
node of the tree has two children or none; hence the decoder's walk, started
at the root, never follows a bit to a NULL child (`decode_loop` never fails),
whatever the bits.  For the all-zero table it returns NULL. -/
theorem build_huffman_tree_strict (ft : List Nat) :
    ((∃ i, i < 256 ∧ ft.getD i 0 ≠ 0) →
        build_huffman_tree ft ≠ .null ∧
        Full (build_huffman_tree ft) ∧
        (∃ s f l r, build_huffman_tree ft = .mk s f l r ∧ Full l ∧ Full r) ∧
        ∀ fuel br fout,
          decode_loop fuel (build_huffman_tree ft) br (build_huffman_tree ft) fout ≠ none) ∧
      ((∀ i, i < 256 → ft.getD i 0 = 0) → build_huffman_tree ft = .null) := by
  constructor
  · intro h
    have hk := present_ne_nil_of_nonzero ft h
    have hint := build_huffman_tree_internal ft hk
    generalize build_huffman_tree ft = T at hint
    have hfull : Full T := by
      obtain ⟨s, f, l, r, rfl, hl, hr⟩ := hint
      exact Or.inr ⟨hl, hr⟩
    refine ⟨full_ne_null T hfull, hfull, hint, ?_⟩
    intro fuel br fout
    exact decode_loop_no_null fuel T br T fout hint hint
  · intro h
    have h0 : (present ft).length = 0 := by
      rw [List.length_eq_zero]
      apply List.eq_nil_iff_forall_not_mem.mpr
      intro i hi
      have := (mem_present ft i).mp hi
      exact this.2 (h i this.1)
    exact present_eq_nil ft h0

/-! ## The leaves are the byte values present -/

theorem internal_count_full (t : Node) (h : Full t) :
    internal_count t + 1 = (leaves t).length := by
  induction t with
  | null => exact absurd h (by simp [Full])
  | mk s f l r ihl ihr =>
    by_cases hleaf : l = .null ∧ r = .null
    · simp [internal_count, leaves, hleaf]
    · simp only [internal_count, leaves, if_neg hleaf, List.length_append]
      rcases h with h | h
      · exact absurd h hleaf
      · have := ihl h.1
        have := ihr h.2
        omega

/-- C15: for every frequency table with `k ≥ 2` non-zero entries the tree of
`build_huffman_tree` has exactly `k` leaves and `k - 1` internal nodes; its
leaves are, up to order, the pairs (byte value, count) of the non-zero
entries: no two leaves carry the same byte value, every byte value with a
non-zero count is on a leaf with that count, and every leaf carries a byte
value below 256 whose count is its weight and is not zero. -/
theorem leaves_are_present_bytes (ft : List Nat) (hk : 2 ≤ (present ft).length) :
    (leaves (build_huffman_tree ft)).Perm ((present ft).map (fun i => (i, ft.getD i 0))) ∧
      (leaves (build_huffman_tree ft)).length = (present ft).length ∧
      internal_count (build_huffman_tree ft) = (present ft).length - 1 ∧
      ((leaves (build_huffman_tree ft)).map Prod.fst).Nodup ∧
      (∀ i, i < 256 → ft.getD i 0 ≠ 0 → (i, ft.getD i 0) ∈ leaves (build_huffman_tree ft)) ∧
      (∀ p ∈ leaves (build_huffman_tree ft), p.1 < 256 ∧ ft.getD p.1 0 = p.2 ∧ p.2 ≠ 0) := by
  obtain ⟨hfull, hperm⟩ := build_huffman_tree_shape ft hk
  generalize build_huffman_tree ft = T at hfull hperm
  have hlen : (leaves T).length = (present ft).length := by
    rw [hperm.length_eq, List.length_map]
  have hkeys : ((leaves T).map Prod.fst).Perm (present ft) := by
    have := hperm.map Prod.fst
    rw [List.map_map] at this
    have e2 : (Prod.fst ∘ fun i : Nat => (i, ft.getD i 0)) = id := rfl
    rw [e2, List.map_id] at this
    exact this
  refine ⟨hperm, hlen, ?_, hkeys.nodup_iff.mpr (present_nodup ft), ?_, ?_⟩
  · have := internal_count_full T hfull
    omega
  · intro i hi h0
    exact hperm.symm.subset (List.mem_map_of_mem _ ((mem_present ft i).mpr ⟨hi, h0⟩))
  · intro p hp
    obtain ⟨i, hi, rfl⟩ := List.mem_map.mp (hperm.subset hp)
    have := (mem_present ft i).mp hi
    exact ⟨this.1, rfl, this.2⟩

set_option maxRecDepth 100000 in
theorem leaves_are_present_bytes_witness :
    leaves (build_huffman_tree (freq_of [97, 97, 97, 98])) = [(98, 1), (97, 3)] ∧
      internal_count (build_huffman_tree (freq_of [97, 97, 97, 98]))
        = (present (freq_of [97, 97, 97, 98])).length - 1 :=
  ⟨by decide, (leaves_are_present_bytes (freq_of [97, 97, 97, 98]) (by decide)).2.2.1⟩

/-! ## A code is the path to its leaf -/

theorem leaf_paths_walk (t : Node) (pre : List Char) (s : Nat) (p : List Char)
    (h : (s, p) ∈ leaf_paths t pre) :
    ∃ q, p = pre ++ q ∧ is_leaf (walk t q) ∧ (walk t q).symbol = s ∧
      ∀ q', q' <+: q → q' ≠ q → ¬ is_leaf (walk t q') := by
  induction t generalizing pre with
  | null => simp [leaf_paths] at h
  | mk s0 f l r ihl ihr =>
    unfold leaf_paths at h
    by_cases hleaf : l = .null ∧ r = .null
    · rw [if_pos hleaf] at h
      simp only [List.mem_singleton, Prod.mk.injEq] at h
      refine ⟨[], by simp [h.2], ⟨by simp [walk], hleaf.1, hleaf.2⟩, h.1.symm, ?_⟩
      intro q' hq' hne
      exact absurd (List.prefix_nil.mp hq') hne
    · rw [if_neg hleaf] at h
      have hroot : ¬ is_leaf (Node.mk s0 f l r) := fun hl => hleaf ⟨hl.2.1, hl.2.2⟩
      rcases List.mem_append.mp h with h | h
      · obtain ⟨q, hq, h1, h2, h3⟩ := ihl _ h
        refine ⟨'0' :: q, by simp [hq], by simpa [walk, Node.left] using h1,
          by simpa [walk, Node.left] using h2, ?_⟩
        intro q' hq' hne
        cases q' with
        | nil => exact hroot
        | cons c cs =>
          obtain ⟨hc, hcs⟩ := List.cons_prefix_cons.mp hq'
          subst hc
          have := h3 cs hcs (fun e => hne (by rw [e]))
          simpa [walk, Node.left] using this
      · obtain ⟨q, hq, h1, h2, h3⟩ := ihr _ h
        refine ⟨'1' :: q, by simp [hq], by simpa [walk, Node.right] using h1,
          by simpa [walk, Node.right] using h2, ?_⟩
        intro q' hq' hne
        cases q' with
        | nil => exact hroot
        | cons c cs =>
          obtain ⟨hc, hcs⟩ := List.cons_prefix_cons.mp hq'
          subst hc
          have := h3 cs hcs (fun e => hne (by rw [e]))
          simpa [walk, Node.right] using this

theorem code_table_walk (t : Node) (buf : List Char) (hb : height t < buf.length)
    (s : Nat) (p : List Char)
    (h : (build_codes t buf 0 (List.replicate SYMBOLS none)).2.getD s none = some p) :
    is_leaf (walk t p) ∧ (walk t p).symbol = s ∧
      ∀ q, q <+: p → q ≠ p → ¬ is_leaf (walk t q) := by
  obtain ⟨q, hq, h1, h2, h3⟩ := leaf_paths_walk t [] s p (code_table_mem t buf hb s p h)
  rw [List.nil_append] at hq
  subst hq
  exact ⟨h1, h2, h3⟩

/-- C17: for every frequency table and every initial content of the
256-character buffer, whenever the table filled by `build_codes` from the tree
of `build_huffman_tree` has a code for byte value `s`, walking from the root
along that code (`'0'` left, `'1'` right) ends at a leaf whose symbol is `s`,
and walking along any proper prefix of the code does not end at a leaf. -/
theorem code_is_path_to_leaf (ft : List Nat) (codebuf : List Char) (s : Nat) (p : List Char)
    (hbuf : codebuf.length = 256)
    (h : (build_codes (build_huffman_tree ft) codebuf 0
      (List.replicate SYMBOLS none)).2.getD s none = some p) :
    is_leaf (walk (build_huffman_tree ft) p) ∧
      (walk (build_huffman_tree ft) p).symbol = s ∧
      ∀ q, q <+: p → q ≠ p → ¬ is_leaf (walk (build_huffman_tree ft) q) := by
  have hh := build_huffman_tree_height ft
  generalize build_huffman_tree ft = T at h hh
  exact code_table_walk T codebuf (by omega) s p h

set_option maxRecDepth 100000 in
theorem code_is_path_to_leaf_witness :
    walk (build_huffman_tree (freq_of [97, 97, 97, 98])) ['1'] = .mk 97 3 .null .null ∧
      (is_leaf (walk (build_huffman_tree (freq_of [97, 97, 97, 98])) ['1']) ∧
        (walk (build_huffman_tree (freq_of [97, 97, 97, 98])) ['1']).symbol = 97 ∧
        ∀ q, q <+: ['1'] → q ≠ ['1'] →
          ¬ is_leaf (walk (build_huffman_tree (freq_of [97, 97, 97, 98])) q)) :=
  ⟨by decide,
    code_is_path_to_leaf (freq_of [97, 97, 97, 98]) (List.replicate 256 NUL) 97 ['1']
      (List.length_replicate _ _) (by decide)⟩

/-! ## Bounds on the code lengths -/

theorem leaf_paths_length_le (t : Node) (pre : List Char) (s : Nat) (p : List Char)
    (h : (s, p) ∈ leaf_paths t pre) : p.length ≤ pre.length + height t := by
  induction t generalizing pre with
  | null => simp [leaf_paths] at h
  | mk s0 f l r ihl ihr =>
    unfold leaf_paths at h
    by_cases hleaf : l = .null ∧ r = .null
    · rw [if_pos hleaf] at h
      simp only [List.mem_singleton, Prod.mk.injEq] at h
      rw [h.2]
      omega
    · rw [if_neg hleaf] at h
      simp only [height, if_neg hleaf]
      rcases List.mem_append.mp h with h | h
      · have := ihl _ h
        simp only [List.length_append, List.length_singleton] at this
        have := Nat.le_max_left (height l) (height r)
        omega
      · have := ihr _ h
        simp only [List.length_append, List.length_singleton] at this
        have := Nat.le_max_right (height l) (height r)
        omega

theorem leaf_paths_length_pos (s0 f : Nat) (l r : Node) (hint : ¬ (l = .null ∧ r = .null))
    (s : Nat) (p : List Char) (h : (s, p) ∈ leaf_paths (.mk s0 f l r) []) : 1 ≤ p.length := by
  unfold leaf_paths at h
  rw [if_neg hint] at h
  rcases List.mem_append.mp h with h | h
  · have := (leaf_paths_extends _ _ _ _ h).length_le
    simpa using this
  · have := (leaf_paths_extends _ _ _ _ h).length_le
    simpa using this

theorem write_indices_le (t : Node) (d : Nat) (i : Nat) (h : i ∈ write_indices t d) :
    i ≤ d + height t := by
  induction t generalizing d with
  | null => simp [write_indices] at h
  | mk s0 f l r ihl ihr =>
    unfold write_indices at h
    by_cases hleaf : l = .null ∧ r = .null
    · rw [if_pos hleaf] at h
      simp only [List.mem_singleton] at h
      omega
    · rw [if_neg hleaf] at h
      simp only [height, if_neg hleaf]
      have hl := Nat.le_max_left (height l) (height r)
      have hr := Nat.le_max_right (height l) (height r)
      rcases List.mem_append.mp h with h | h
      · split at h
        · rcases List.mem_cons.mp h with h | h
          · omega
          · have := ihl _ h
            omega
        · simp at h
      · split at h
        · rcases List.mem_cons.mp h with h | h
          · omega
          · have := ihr _ h
            omega
        · simp at h

theorem build_huffman_tree_height_le (ft : List Nat) (hk : 2 ≤ (present ft).length) :
    height (build_huffman_tree ft) + 1 ≤ (present ft).length := by
  obtain ⟨hfull, hperm⟩ := build_huffman_tree_shape ft hk
  generalize build_huffman_tree ft = T at hfull hperm
  have := height_lt_leaves T hfull
  rw [hperm.length_eq, List.length_map] at this
  exact this

/-- C19: for every frequency table with a non-zero entry and every initial
content of the 256-character buffer, every code recorded by `build_codes` for
the tree of `build_huffman_tree` has length at least 1 and at most 255 (at
most `k - 1` when `k ≥ 2` byte values are present), and every index at which
`build_codes` writes `code[depth]`, the terminating NUL included, is below
256. -/
theorem code_length_bounds (ft : List Nat) (codebuf : List Char) (s : Nat) (p : List Char)
    (hnz : ∃ i, i < 256 ∧ ft.getD i 0 ≠ 0) (hbuf : codebuf.length = 256)
    (h : (build_codes (build_huffman_tree ft) codebuf 0
      (List.replicate SYMBOLS none)).2.getD s none = some p) :
    1 ≤ p.length ∧ p.length ≤ 255 ∧
      (2 ≤ (present ft).length → p.length ≤ (present ft).length - 1) ∧
      ∀ i ∈ write_indices (build_huffman_tree ft) 0, i < 256 := by
  have hh := build_huffman_tree_height ft
  have hk := present_ne_nil_of_nonzero ft hnz
  have hint := build_huffman_tree_internal ft hk
  have hle : 2 ≤ (present ft).length →
      height (build_huffman_tree ft) + 1 ≤ (present ft).length :=
    build_huffman_tree_height_le ft
  generalize build_huffman_tree ft = T at h hh hint hle
  have hmem := code_table_mem T codebuf (by omega) s p h
  have hlen := leaf_paths_length_le T [] s p hmem
  simp only [List.length_nil, Nat.zero_add] at hlen
  refine ⟨?_, by omega, ?_, ?_⟩
  · obtain ⟨s0, f, l, r, rfl, hl, hr⟩ := hint
    exact leaf_paths_length_pos s0 f l r (fun e => full_ne_null l hl e.1) s p hmem
  · intro h2
    have := hle h2
    omega
  · intro i hi
    have := write_indices_le T 0 i hi
    omega

set_option maxRecDepth 100000 in
theorem code_length_bounds_witness :
    (build_codes (build_huffman_tree (freq_of [97, 97, 97, 98])) (List.replicate 256 NUL) 0
        (List.replicate SYMBOLS none)).2.getD 97 none = some ['1'] ∧
      (1 ≤ ['1'].length ∧ ['1'].length ≤ 255 ∧
        (2 ≤ (present (freq_of [97, 97, 97, 98])).length →
          ['1'].length ≤ (present (freq_of [97, 97, 97, 98])).length - 1) ∧
        ∀ i ∈ write_indices (build_huffman_tree (freq_of [97, 97, 97, 98])) 0, i < 256) :=
  ⟨by decide,
    code_length_bounds (freq_of [97, 97, 97, 98]) (List.replicate 256 NUL) 97 ['1']
      ⟨97, by decide, by decide⟩ (List.length_replicate _ _) (by decide)⟩

/-! ## The table of counts -/

theorem count_bytes_length (S : List Nat) (ft : List Nat) (n : Nat) :
    (count_bytes S ft n).1.length = ft.length := by
  unfold count_bytes
  induction S generalizing ft n with
  | nil => rfl
  | cons c cs ih => rw [List.foldl_cons, ih, List.length_set]

theorem count_bytes_getD (S : List Nat) (ft : List Nat) (n b : Nat) (hb : b < ft.length) :
    (count_bytes S ft n).1.getD b 0 % 2 ^ 32
      = (ft.getD b 0 + (S.map (fun c => c % 256)).count b) % 2 ^ 32 := by
  unfold count_bytes
  induction S generalizing ft n with
  | nil => simp
  | cons c cs ih =>
    rw [List.foldl_cons, ih _ _ (by rw [List.length_set]; exact hb)]
    simp only [List.map_cons, List.count_cons, List.getD_eq_getElem?_getD, List.getElem?_set]
    by_cases e : c % 256 = b
    · subst e
      simp only [if_true, hb, beq_self_eq_true, Option.getD_some]
      omega
    · rw [if_neg e]
      have : ¬ (c % 256 == b) = true := by simpa using e
      simp only [this, Bool.false_eq_true, if_false, Nat.add_zero]

theorem count_bytes_lt (S : List Nat) (ft : List Nat) (n b : Nat)
    (hft : ft.getD b 0 < 2 ^ 32) : (count_bytes S ft n).1.getD b 0 < 2 ^ 32 := by
  unfold count_bytes
  induction S generalizing ft n with
  | nil => exact hft
  | cons c cs ih =>
    rw [List.foldl_cons]
    apply ih
    simp only [List.getD_eq_getElem?_getD, List.getElem?_set]
    split
    · split
      · exact Nat.mod_lt _ (by norm_num)
      · simp
    · simpa [List.getD_eq_getElem?_getD] using hft

theorem freq_of_length (S : List Nat) : (freq_of S).length = 256 := by
  unfold freq_of
  rw [count_bytes_length, List.length_replicate]
  rfl

theorem freq_of_lt (S : List Nat) (b : Nat) : (freq_of S).getD b 0 < 2 ^ 32 := by
  unfold freq_of
  apply count_bytes_lt
  rw [getD_replicate_zero]
  norm_num

/-- For an input of fewer than 2^32 bytes the count of a byte value is the
number of its occurrences. -/
theorem freq_of_getD (S : List Nat) (hlen : S.length < 2 ^ 32) (b : Nat) (hb : b < 256) :
    (freq_of S).getD b 0 = (S.map (fun c => c % 256)).count b := by
  have h1 := count_bytes_getD S (List.replicate SYMBOLS 0) 0 b
    (by rw [List.length_replicate]; exact hb)
  have h2 := freq_of_lt S b
  have h3 : (S.map (fun c => c % 256)).count b ≤ S.length := by
    have := List.count_le_length b (S.map (fun c => c % 256))
    rw [List.length_map] at this
    exact this
  unfold freq_of at h2 ⊢
  rw [getD_replicate_zero, Nat.zero_add, Nat.mod_eq_of_lt h2,
    Nat.mod_eq_of_lt (by omega)] at h1
  exact h1

theorem mem_present_freq_of (S : List Nat) (hlen : S.length < 2 ^ 32) (c : Nat)
    (hc : c ∈ S) : c % 256 ∈ present (freq_of S) := by
  have hb : c % 256 < 256 := Nat.mod_lt _ (by norm_num)
  rw [mem_present, freq_of_getD S hlen _ hb]
  refine ⟨hb, ?_⟩
  have : 0 < (S.map (fun c => c % 256)).count (c % 256) :=
    List.count_pos_iff.mpr (List.mem_map_of_mem _ hc)
  omega

/-! ## Every byte value present has a code -/

theorem code_table_single (b n : Nat) (hb : b < 256) :
    (code_table (.mk 0 n (.mk b n .null .null) (.mk 0 0 .null .null))).getD b none
      = some (if b = 0 then ['1'] else ['0']) := by
  unfold code_table
  have := (build_codes_spec (.mk 0 n (.mk b n .null .null) (.mk 0 0 .null .null))
    (List.replicate SYMBOLS NUL) 0 (List.replicate SYMBOLS none)
    (by rw [List.length_replicate]; simp [height, SYMBOLS])
    (by intro c hc; rw [List.take_zero] at hc; exact absurd hc (List.not_mem_nil _))).1
  rw [this, List.take_zero]
  have hp : leaf_paths (.mk 0 n (.mk b n .null .null) (.mk 0 0 .null .null)) []
      = [(b, ['0']), (0, ['1'])] := by
    simp [leaf_paths]
  rw [hp]
  simp only [record_paths, List.foldl_cons, List.foldl_nil, List.getD_eq_getElem?_getD,
    List.getElem?_set, List.length_set, List.length_replicate]
  by_cases h0 : b = 0
  · subst h0
    simp [SYMBOLS]
  · rw [if_neg (Ne.symm h0), if_neg h0]
    simp [SYMBOLS, hb]

theorem code_table_some (ft : List Nat) (s : Nat) (hs : s ∈ present ft) :
    ∃ code, (code_table (build_huffman_tree ft)).getD s none = some code := by
  rcases Nat.lt_or_ge (present ft).length 2 with h1 | h2
  · have hpos : 0 < (present ft).length := List.length_pos_of_mem hs
    obtain ⟨b, hb⟩ := List.length_eq_one.mp (by omega : (present ft).length = 1)
    obtain ⟨hb1, hb2, hb3⟩ := present_single ft b hb
    rw [hb] at hs
    have hsb : s = b := List.mem_singleton.mp hs
    subst hsb
    rw [insert_leaves_single_tree ft s hb1 hb2 hb3]
    exact ⟨_, code_table_single s _ hb1⟩
  · have hkeys := leaf_info_keys_perm ft h2
    obtain ⟨x, hx, rfl⟩ := List.mem_map.mp (hkeys.symm.subset hs)
    exact ⟨x.2.2, (code_table_of_leaf ft h2 x hx).2.2⟩

/-- C11: for every non-empty input of fewer than 2^32 bytes `huffman_encode`
succeeds and every byte value occurring in the input has a (non-NULL) code in
the table it builds, so the "Missing code for symbol" branch of the body loop
is never taken and no input byte is skipped. -/
theorem every_input_byte_has_code (S : List Nat) (hne : S ≠ []) (hlen : S.length < 2 ^ 32) :
    (huffman_encode (some S) true).1 = 1 ∧
      ∀ c ∈ S, ∃ code,
        (code_table (build_huffman_tree (freq_of S))).getD (c % 256) none = some code := by
  constructor
  · have h1 := count_bytes_total S (List.replicate SYMBOLS 0) 0
    have h2 := count_bytes_total_lt S (List.replicate SYMBOLS 0) 0 (by norm_num)
    have h3 : (count_bytes S (List.replicate SYMBOLS 0) 0).2 ≠ 0 := by
      have : 0 < S.length := List.length_pos.mpr hne
      rw [Nat.mod_eq_of_lt h2, Nat.zero_add, Nat.mod_eq_of_lt (by omega)] at h1
      omega
    simp [huffman_encode, h3, write_header]
  · intro c hc
    exact code_table_some (freq_of S) (c % 256) (mem_present_freq_of S hlen c hc)

set_option maxRecDepth 100000 in
theorem every_input_byte_has_code_witness :
    ([97, 97, 97, 98] : List Nat) ≠ [] ∧ ([97, 97, 97, 98] : List Nat).length < 2 ^ 32 ∧
      ((huffman_encode (some [97, 97, 97, 98]) true).1 = 1 ∧
        ∀ c ∈ [97, 97, 97, 98], ∃ code,
          (code_table (build_huffman_tree (freq_of [97, 97, 97, 98]))).getD (c % 256) none
            = some code) :=
  ⟨by decide, by decide, every_input_byte_has_code [97, 97, 97, 98] (by decide) (by decide)⟩

/-! ## The bit reader -/

theorem and_shift_ne_zero (x p : Nat) : (x &&& (1 <<< p) ≠ 0) ↔ x.testBit p = true := by
  rw [Nat.one_shiftLeft]
  constructor
  · intro h
    by_contra hb
    apply h
    apply Nat.eq_of_testBit_eq
    intro j
    rw [Nat.testBit_and, Nat.testBit_two_pow, Nat.zero_testBit]
    by_cases e : p = j
    · subst e
      simp [hb]
    · simp [e]
  · intro h h0
    have := congrArg (fun y => y.testBit p) h0
    simp only [Nat.testBit_and, Nat.testBit_two_pow_self, h, Nat.zero_testBit] at this
    exact absurd this (by decide)

theorem testBit_mod_256 (c p : Nat) (hp : p < 8) : (c % 256).testBit p = c.testBit p := by
  have : (256 : Nat) = 2 ^ 8 := by norm_num
  rw [this, Nat.testBit_mod_two_pow]
  simp [hp]

theorem byte_bits_mod (c : Nat) : byte_bits (c % 256) = byte_bits c := by
  simp only [byte_bits, testBit_mod_256 c _ (by norm_num : (7 : Nat) < 8),
    testBit_mod_256 c _ (by norm_num : (6 : Nat) < 8),
    testBit_mod_256 c _ (by norm_num : (5 : Nat) < 8),
    testBit_mod_256 c _ (by norm_num : (4 : Nat) < 8),
    testBit_mod_256 c _ (by norm_num : (3 : Nat) < 8),
    testBit_mod_256 c _ (by norm_num : (2 : Nat) < 8),
    testBit_mod_256 c _ (by norm_num : (1 : Nat) < 8),
    testBit_mod_256 c _ (by norm_num : (0 : Nat) < 8)]

theorem range_reverse_map_eight (B : Nat) :
    (List.range 8).reverse.map (fun p => B.testBit p) = byte_bits B := by
  rfl

theorem pending_bits_eof (br : BitReader) (h : pending_bits br = []) :
    bitreader_read_bit br = (-1, { br with eof_reached := 1 }) := by
  unfold pending_bits at h
  obtain ⟨h1, h2⟩ := List.append_eq_nil.mp h
  have hbc : br.bit_count = 0 := by
    have := congrArg List.length h1
    simpa using this
  have hf : br.f = [] := by
    cases hf : br.f with
    | nil => rfl
    | cons c rest =>
      rw [hf] at h2
      simp [unpack, byte_bits] at h2
  simp [bitreader_read_bit, bitreader_fill, hbc, hf]

theorem pending_bits_next (br : BitReader) (b : Bool) (rest : List Bool)
    (hbc : br.bit_count ≤ 8) (h : pending_bits br = b :: rest) :
    (bitreader_read_bit br).1 = bit_int b ∧ pending_bits (bitreader_read_bit br).2 = rest ∧
      (bitreader_read_bit br).2.bit_count ≤ 8 := by
  unfold bitreader_read_bit bitreader_fill
  by_cases h0 : br.bit_count = 0
  · rw [if_pos h0]
    cases hf : br.f with
    | nil =>
      simp [pending_bits, h0, hf, unpack] at h
    | cons c cs =>
      simp only
      have hp : pending_bits br = byte_bits c ++ unpack cs := by
        simp [pending_bits, h0, hf, unpack]
      rw [hp] at h
      simp only [byte_bits, List.cons_append, List.cons.injEq] at h
      obtain ⟨hb, hrest⟩ := h
      refine ⟨?_, ?_, by norm_num⟩
      · have := and_shift_ne_zero (c % 256) 7
        rw [testBit_mod_256 c 7 (by norm_num), hb] at this
        unfold bit_int
        simp only [Nat.sub_self, Nat.sub_zero]
        cases b with
        | true =>
          rw [if_pos (this.mpr rfl)]
          rfl
        | false =>
          have hz : ¬ (c % 256 &&& (1 <<< 7) ≠ 0) := fun hh => by
            have := this.mp hh
            exact absurd this (by decide)
          rw [if_neg hz]
          rfl
      · rw [← hrest]
        simp only [pending_bits, Nat.reduceSub]
        have : (List.range 7).reverse.map (fun p => (c % 256).testBit p)
            = [c.testBit 6, c.testBit 5, c.testBit 4, c.testBit 3, c.testBit 2,
                c.testBit 1, c.testBit 0] := by
          simp only [List.range, List.range.loop, List.reverse_cons, List.reverse_nil,
            List.nil_append, List.cons_append, List.map_cons, List.map_nil]
          rw [testBit_mod_256 c 6 (by norm_num), testBit_mod_256 c 5 (by norm_num),
            testBit_mod_256 c 4 (by norm_num), testBit_mod_256 c 3 (by norm_num),
            testBit_mod_256 c 2 (by norm_num), testBit_mod_256 c 1 (by norm_num),
            testBit_mod_256 c 0 (by norm_num)]
        rw [this]
        rfl
  · rw [if_neg h0]
    simp only
    obtain ⟨k, hk⟩ : ∃ k, br.bit_count = k + 1 := ⟨br.bit_count - 1, by omega⟩
    have hp : pending_bits br
        = br.buffer.testBit k :: ((List.range k).reverse.map (fun p => br.buffer.testBit p)
            ++ unpack br.f) := by
      simp [pending_bits, hk, List.range_succ]
    rw [hp] at h
    simp only [List.cons.injEq] at h
    obtain ⟨hb, hrest⟩ := h
    have hpos : 7 - (8 - br.bit_count) = k := by omega
    refine ⟨?_, ?_, by show br.bit_count - 1 ≤ 8; omega⟩
    · rw [hpos]
      have := and_shift_ne_zero br.buffer k
      rw [hb] at this
      unfold bit_int
      cases b with
      | true =>
        rw [if_pos (this.mpr rfl)]
        rfl
      | false =>
        have hz : ¬ (br.buffer &&& (1 <<< k) ≠ 0) := fun hh => by
          have := this.mp hh
          exact absurd this (by decide)
        rw [if_neg hz]
        rfl
    · rw [← hrest]
      simp [pending_bits, hk]

theorem read_bits_pending (n : Nat) (br : BitReader) (hbc : br.bit_count ≤ 8) :
    read_bits n br = ((pending_bits br).take n).map bit_int
      ++ List.replicate (n - (pending_bits br).length) (-1) := by
  induction n generalizing br with
  | zero => simp [read_bits]
  | succ n ih =>
    unfold read_bits
    cases hp : pending_bits br with
    | nil =>
      have he := pending_bits_eof br hp
      have hp' : pending_bits { br with eof_reached := 1 } = [] := hp
      rw [he]
      simp only
      rw [ih { br with eof_reached := 1 } hbc, hp']
      simp [List.replicate_succ]
    | cons b rest =>
      obtain ⟨h1, h2, h3⟩ := pending_bits_next br b rest hbc hp
      rw [h1, ih _ h3, h2]
      simp

/-! ## The bit writer -/

theorem bits_value_append (c : List Bool) (b : Bool) :
    bits_value (c ++ [b]) = 2 * bits_value c + (if b then 1 else 0) := by
  simp [bits_value, List.foldl_append]

theorem bits_value_lt (c : List Bool) : bits_value c < 2 ^ c.length := by
  induction c using List.reverseRecOn with
  | nil => simp [bits_value]
  | append_singleton c b ih =>
    rw [bits_value_append, List.length_append, List.length_singleton, pow_succ]
    split <;> omega

theorem pack_byte_append (c : List Bool) (b : Bool) (hc : c.length < 8) :
    pack_byte (c ++ [b]) = pack_byte c + (if b then 2 ^ (7 - c.length) else 0) := by
  unfold pack_byte
  rw [bits_value_append, List.length_append, List.length_singleton]
  have e1 : 8 - (c.length + 1) = 7 - c.length := by omega
  have e2 : 8 - c.length = (7 - c.length) + 1 := by omega
  rw [e1, e2, pow_succ]
  split <;> ring

theorem pack_byte_lt (c : List Bool) (hc : c.length ≤ 8) : pack_byte c < 256 := by
  unfold pack_byte
  have h1 := bits_value_lt c
  have h2 : 2 ^ c.length * 2 ^ (8 - c.length) = 256 := by
    rw [← pow_add]
    have : c.length + (8 - c.length) = 8 := by omega
    rw [this]
    norm_num
  have h3 : 0 < 2 ^ (8 - c.length) := Nat.two_pow_pos _
  calc bits_value c * 2 ^ (8 - c.length) < 2 ^ c.length * 2 ^ (8 - c.length) :=
        Nat.mul_lt_mul_of_pos_right h1 h3
    _ = 256 := h2

theorem pack_byte_or (c : List Bool) (hc : c.length < 8) :
    (pack_byte c ||| (1 <<< (7 - c.length))) % 256 = pack_byte (c ++ [true]) := by
  have hlt := pack_byte_lt (c ++ [true]) (by simp; omega)
  rw [pack_byte_append c true hc] at hlt ⊢
  simp only [if_true] at hlt ⊢
  rw [Nat.one_shiftLeft]
  have e : pack_byte c = 2 ^ (7 - c.length + 1) * bits_value c := by
    unfold pack_byte
    have e2 : 8 - c.length = (7 - c.length) + 1 := by omega
    rw [e2, Nat.mul_comm]
  have hor := Nat.mul_add_lt_is_or (i := 7 - c.length + 1) (b := 2 ^ (7 - c.length))
    (by rw [pow_succ]; have := Nat.two_pow_pos (7 - c.length); omega)
    (bits_value c)
  rw [e, ← hor, ← e]
  exact Nat.mod_eq_of_lt hlt

theorem write_bit_step (f : List Nat) (c : List Bool) (b : Bool) (hc : c.length < 8) :
    bitwriter_write_bit { f := f, buffer := pack_byte c, bit_count := c.length }
        (if b then 1 else 0)
      = if c.length + 1 = 8 then
          { f := f ++ [pack_byte (c ++ [b])], buffer := 0, bit_count := 0 }
        else { f := f, buffer := pack_byte (c ++ [b]), bit_count := c.length + 1 } := by
  unfold bitwriter_write_bit
  simp only
  have hb : (if (if b then 1 else 0) ≠ 0 then (pack_byte c ||| (1 <<< (7 - c.length))) % 256
      else pack_byte c) = pack_byte (c ++ [b]) := by
    cases b with
    | true => simp only [if_true]; rw [if_pos (by norm_num)]; exact pack_byte_or c hc
    | false =>
      rw [if_neg (by simp)]
      rw [pack_byte_append c false hc]
      simp
  rw [hb]

theorem pack_nil : pack [] = [] := by
  simp [pack]

theorem pack_short (c : List Bool) (hc : c.length ≤ 8) (hne : c ≠ []) :
    pack c = [pack_byte c] := by
  unfold pack
  have hlen : (c.length + 7) / 8 = 1 := by
    have : 0 < c.length := List.length_pos.mpr hne
    omega
  rw [hlen]
  simp [List.range_succ, List.take_of_length_le hc]

theorem pack_eight (c : List Bool) (rest : List Bool) (hc : c.length = 8) :
    pack (c ++ rest) = pack_byte c :: pack rest := by
  unfold pack
  have hlen : ((c ++ rest).length + 7) / 8 = (rest.length + 7) / 8 + 1 := by
    rw [List.length_append, hc]
    omega
  rw [hlen, List.range_succ_eq_map, List.map_cons, List.map_map]
  congr 1
  · simp [List.take_append_of_le_length (Nat.le_of_eq hc.symm), List.take_of_length_le
      (Nat.le_of_eq hc)]
  · apply List.map_congr_left
    intro j _
    simp only [Function.comp_apply]
    have : 8 * (j + 1) = c.length + 8 * j := by omega
    rw [this, List.drop_append]

theorem write_all_flush (bs : List Bool) (f : List Nat) (c : List Bool) (hc : c.length < 8) :
    (bitwriter_flush (write_all { f := f, buffer := pack_byte c, bit_count := c.length } bs)).f
      = f ++ pack (c ++ bs) := by
  induction bs generalizing f c with
  | nil =>
    simp only [write_all, List.foldl_nil, List.append_nil, bitwriter_flush]
    by_cases hne : c = []
    · subst hne
      simp [pack_nil]
    · have : 0 < c.length := List.length_pos.mpr hne
      rw [if_pos (by simpa using this), pack_short c (by omega) hne]
  | cons b bs ih =>
    have hw : write_all { f := f, buffer := pack_byte c, bit_count := c.length } (b :: bs)
        = write_all (bitwriter_write_bit
            { f := f, buffer := pack_byte c, bit_count := c.length } (if b then 1 else 0)) bs := by
      simp [write_all]
    rw [hw, write_bit_step f c b hc]
    have hcb : c ++ b :: bs = (c ++ [b]) ++ bs := by simp
    by_cases h8 : c.length + 1 = 8
    · rw [if_pos h8]
      have h0 : pack_byte ([] : List Bool) = 0 := by simp [pack_byte, bits_value]
      have := ih (f ++ [pack_byte (c ++ [b])]) [] (by simp)
      rw [h0] at this
      simp only [List.length_nil, List.nil_append] at this
      rw [this, hcb, pack_eight (c ++ [b]) bs (by simp; omega)]
      simp
    · rw [if_neg h8]
      have := ih f (c ++ [b]) (by simp; omega)
      simp only [List.length_append, List.length_singleton] at this
      rw [this, hcb]

/-! ## Packing and unpacking -/

theorem bits_value_testBit (c : List Bool) (j : Nat) :
    (bits_value c).testBit j = (if j < c.length then c.getD (c.length - 1 - j) false else false) := by
  induction c using List.reverseRecOn generalizing j with
  | nil => simp [bits_value]
  | append_singleton c b ih =>
    rw [bits_value_append, List.length_append, List.length_singleton]
    cases j with
    | zero =>
      rw [Nat.testBit_zero]
      simp only [Nat.zero_lt_succ, if_true, Nat.add_sub_cancel, Nat.sub_zero]
      rw [List.getD_eq_getElem?_getD, List.getElem?_append_right (Nat.le_refl _)]
      cases b
      · simp
      · simp; omega
    | succ j =>
      rw [Nat.testBit_succ]
      have hdiv : (2 * bits_value c + (if b then 1 else 0)) / 2 = bits_value c := by
        split <;> omega
      rw [hdiv, ih]
      by_cases hj : j < c.length
      · rw [if_pos hj, if_pos (by omega)]
        have e : c.length + 1 - 1 - (j + 1) = c.length - 1 - j := by omega
        rw [e, List.getD_eq_getElem?_getD, List.getD_eq_getElem?_getD,
          List.getElem?_append_left (by omega)]
      · rw [if_neg hj, if_neg (by omega)]

theorem pack_byte_testBit (c : List Bool) (i : Nat) (hc : c.length ≤ 8) (hi : i < 8) :
    (pack_byte c).testBit (7 - i) = c.getD i false := by
  unfold pack_byte
  rw [Nat.mul_comm, Nat.testBit_mul_pow_two, bits_value_testBit]
  by_cases hik : i < c.length
  · have e1 : 7 - i ≥ 8 - c.length := by omega
    have e2 : 7 - i - (8 - c.length) < c.length := by omega
    have e3 : c.length - 1 - (7 - i - (8 - c.length)) = i := by omega
    simp only [e1, decide_True, Bool.true_and, if_pos e2, e3]
  · have e1 : ¬ (7 - i - (8 - c.length) < c.length) ∨ ¬ (7 - i ≥ 8 - c.length) := by omega
    have hg : c.getD i false = false := by
      rw [List.getD_eq_getElem?_getD, List.getElem?_eq_none (by omega)]
      rfl
    rw [hg]
    rcases e1 with e1 | e1
    · rw [if_neg e1]; simp
    · simp [e1]

theorem byte_bits_pack_byte (c : List Bool) (hc : c.length ≤ 8) :
    byte_bits (pack_byte c) = c ++ List.replicate (8 - c.length) false := by
  have h : ∀ i, i < 8 → (pack_byte c).testBit (7 - i)
      = (c ++ List.replicate (8 - c.length) false).getD i false := by
    intro i hi
    rw [pack_byte_testBit c i hc hi]
    simp only [List.getD_eq_getElem?_getD]
    by_cases hik : i < c.length
    · rw [List.getElem?_append_left hik]
    · rw [List.getElem?_eq_none (by omega), List.getElem?_append_right (by omega),
        List.getElem?_replicate]
      split <;> rfl
  apply List.ext_getElem
  · simp [byte_bits]; omega
  · intro i h1 h2
    have hi : i < 8 := by simpa [byte_bits] using h1
    have hh := h i hi
    rw [List.getD_eq_getElem _ _ h2] at hh
    rw [← hh]
    unfold byte_bits
    interval_cases i <;> rfl

theorem unpack_pack (bs : List Bool) :
    unpack (pack bs) = bs ++ List.replicate (8 * ((bs.length + 7) / 8) - bs.length) false := by
  have key : ∀ (n : Nat) (bs : List Bool), bs.length = n →
      unpack (pack bs)
        = bs ++ List.replicate (8 * ((bs.length + 7) / 8) - bs.length) false := by
    intro n
    induction n using Nat.strong_induction_on with
    | _ n ih =>
    intro bs hn
    by_cases h8 : bs.length < 8
    · by_cases hne : bs = []
      · subst hne
        simp [pack_nil, unpack]
      · have hpos : 0 < bs.length := List.length_pos.mpr hne
        rw [pack_short bs (by omega) hne]
        have e : 8 * ((bs.length + 7) / 8) - bs.length = 8 - bs.length := by omega
        rw [e]
        simp only [unpack, List.flatMap_cons, List.flatMap_nil, List.append_nil]
        exact byte_bits_pack_byte bs (by omega)
    · have hsplit : bs = bs.take 8 ++ bs.drop 8 := (List.take_append_drop 8 bs).symm
      have ht : (bs.take 8).length = 8 := by
        rw [List.length_take]; omega
      have hd : (bs.drop 8).length = bs.length - 8 := List.length_drop 8 bs
      have := ih (bs.drop 8).length (by omega) (bs.drop 8) rfl
      conv_lhs => rw [hsplit, pack_eight _ _ ht]
      simp only [unpack, List.flatMap_cons] at this ⊢
      rw [this, byte_bits_pack_byte _ (by omega), ht]
      simp only [Nat.sub_self, List.replicate_zero, List.append_nil]
      rw [← List.append_assoc, List.take_append_drop]
      have e : 8 * (((bs.drop 8).length + 7) / 8) - (bs.drop 8).length
          = 8 * ((bs.length + 7) / 8) - bs.length := by
        rw [hd]; omega
      rw [e]
  exact key _ bs rfl

theorem pack_length (bs : List Bool) : (pack bs).length = (bs.length + 7) / 8 := by
  simp [pack]

theorem pack_lt (bs : List Bool) (x : Nat) (hx : x ∈ pack bs) : x < 256 := by
  unfold pack at hx
  obtain ⟨j, _, rfl⟩ := List.mem_map.mp hx
  exact pack_byte_lt _ (by rw [List.length_take]; omega)

theorem pack_testBit (bs : List Bool) (i : Nat) (hi : i < 8 * ((bs.length + 7) / 8)) :
    ((pack bs).getD (i / 8) 0).testBit (7 - i % 8) = bs.getD i false := by
  have hj : i / 8 < (bs.length + 7) / 8 := by omega
  have hg : (pack bs).getD (i / 8) 0 = pack_byte ((bs.drop (8 * (i / 8))).take 8) := by
    unfold pack
    rw [List.getD_eq_getElem _ _ (by simpa using hj)]
    simp
  rw [hg, pack_byte_testBit _ _ (by rw [List.length_take]; omega) (Nat.mod_lt _ (by norm_num))]
  simp only [List.getD_eq_getElem?_getD, List.getElem?_take, List.getElem?_drop]
  rw [if_pos (Nat.mod_lt _ (by norm_num))]
  have : 8 * (i / 8) + i % 8 = i := Nat.div_add_mod i 8
  rw [this]

/-- C16: writing any bit sequence `bs` of length `n` with
`bitwriter_write_bit` on a fresh writer and then calling `bitwriter_flush`
appends exactly `ceil(n/8)` bytes, each below 256, in which bit `i` of `bs`
sits at bit position `7 - i mod 8` of byte `i div 8` and the unused low-order
positions of the last byte are 0 (the bytes are `pack bs`); reading these
bytes with `bitreader_read_bit` returns the bits of `bs` in order, then
`8 * ceil(n/8) - n` zero bits, then -1 on each of the `m` later calls. -/
theorem bit_io_round_trip (bs : List Bool) (out : List Nat) (m : Nat) :
    (bitwriter_flush (write_all (bitwriter_create out) bs)).f = out ++ pack bs ∧
      (pack bs).length = (bs.length + 7) / 8 ∧
      (∀ x ∈ pack bs, x < 256) ∧
      (∀ i, i < 8 * ((bs.length + 7) / 8) →
        ((pack bs).getD (i / 8) 0).testBit (7 - i % 8) = bs.getD i false) ∧
      read_bits (8 * ((bs.length + 7) / 8) + m) (bitreader_create (pack bs))
        = bs.map bit_int ++ List.replicate (8 * ((bs.length + 7) / 8) - bs.length) 0
          ++ List.replicate m (-1) := by
  refine ⟨?_, pack_length bs, pack_lt bs, pack_testBit bs, ?_⟩
  · have h0 : pack_byte ([] : List Bool) = 0 := by simp [pack_byte, bits_value]
    have := write_all_flush bs out [] (by simp)
    rw [h0] at this
    exact this
  · rw [read_bits_pending _ _ (by simp [bitreader_create])]
    have hp : pending_bits (bitreader_create (pack bs))
        = bs ++ List.replicate (8 * ((bs.length + 7) / 8) - bs.length) false := by
      simp only [pending_bits, bitreader_create, List.range_zero, List.reverse_nil,
        List.map_nil, List.nil_append]
      exact unpack_pack bs
    have hl : (bs ++ List.replicate (8 * ((bs.length + 7) / 8) - bs.length) false).length
        = 8 * ((bs.length + 7) / 8) := by
      rw [List.length_append, List.length_replicate]
      omega
    rw [hp, List.take_of_length_le (by rw [hl]; omega), hl, List.map_append,
      List.map_replicate]
    have e : 8 * ((bs.length + 7) / 8) + m - 8 * ((bs.length + 7) / 8) = m := by omega
    rw [e]
    rfl

/-! ## The encoded body -/

theorem write_all_append (bw : BitWriter) (a b : List Bool) :
    write_all bw (a ++ b) = write_all (write_all bw a) b := by
  simp [write_all, List.foldl_append]

theorem bitwriter_write_bits_eq (bw : BitWriter) (code : List Char) :
    bitwriter_write_bits bw code = write_all bw (code.map (fun p => decide (p = '1'))) := by
  unfold bitwriter_write_bits write_all
  rw [List.foldl_map]
  congr 1
  funext bw p
  by_cases h : p = '1' <;> simp [h]

theorem write_codes_eq (S : List Nat) (codes : List (Option (List Char))) (bw : BitWriter) :
    write_codes S codes bw = write_all bw (S.flatMap (code_bits codes)) := by
  unfold write_codes
  induction S generalizing bw with
  | nil => simp [write_all]
  | cons c cs ih =>
    rw [List.foldl_cons, ih, List.flatMap_cons, write_all_append]
    congr 1
    unfold code_bits
    cases codes.getD (c % 256) none with
    | none => simp [write_all]
    | some code => exact bitwriter_write_bits_eq bw code

theorem code_bits_length (codes : List (Option (List Char))) (c : Nat) :
    (code_bits codes c).length = code_len codes (c % 256) := by
  unfold code_bits code_len
  cases codes.getD (c % 256) none with
  | none => rfl
  | some code => simp

theorem flatMap_length_sum (S : List Nat) (g : Nat → List Bool) :
    (S.flatMap g).length = (S.map (fun c => (g c).length)).sum := by
  induction S with
  | nil => rfl
  | cons c cs ih => simp [List.flatMap_cons, ih]

theorem huffman_encode_eq (S : List Nat) (hne : S ≠ []) (hlen : S.length < 2 ^ 64) :
    huffman_encode (some S) true
      = (1, some (header_layout (freq_of S) ++
          pack (S.flatMap (code_bits (code_table (build_huffman_tree (freq_of S))))))) := by
  have h1 := count_bytes_total S (List.replicate SYMBOLS 0) 0
  have h2 := count_bytes_total_lt S (List.replicate SYMBOLS 0) 0 (by norm_num)
  have h3 : (count_bytes S (List.replicate SYMBOLS 0) 0).2 ≠ 0 := by
    have : 0 < S.length := List.length_pos.mpr hne
    rw [Nat.mod_eq_of_lt h2, Nat.zero_add, Nat.mod_eq_of_lt hlen] at h1
    omega
  have h0 : pack_byte ([] : List Bool) = 0 := by simp [pack_byte, bits_value]
  have hw := write_all_flush
    (S.flatMap (code_bits (code_table (build_huffman_tree (freq_of S)))))
    (header_layout (freq_of S)) [] (by simp)
  rw [h0] at hw
  simp only [List.length_nil, List.nil_append] at hw
  unfold huffman_encode
  simp only [h3, if_false, write_header_eq, List.nil_append, Bool.not_true, Bool.false_eq_true,
    not_false_eq_true, not_true_eq_false, if_true, one_ne_zero, write_codes_eq]
  unfold freq_of at hw ⊢
  unfold bitwriter_create
  rw [hw]

/-- C18: for every non-empty input `S` of fewer than 2^32 bytes
`huffman_encode` returns 1 and its output is the header written by
`write_header` for the table of counts of `S`, immediately followed by the
MSB-first packing, zero-padded to a byte boundary, of the concatenation in
input order of the codewords of the bytes of `S` (each byte has one); so the
output has `2 + 5 * k + ceil(B / 8)` bytes, `k` the number of distinct byte
values and `B` the sum over the input bytes of their code lengths. -/
theorem encoded_output_layout (S : List Nat) (hne : S ≠ []) (hlen : S.length < 2 ^ 32) :
    huffman_encode (some S) true
        = (1, some ((write_header [] (freq_of S)).2 ++
            pack (S.flatMap (code_bits (code_table (build_huffman_tree (freq_of S))))))) ∧
      (∀ c ∈ S, ∃ code,
        (code_table (build_huffman_tree (freq_of S))).getD (c % 256) none = some code ∧
        code_bits (code_table (build_huffman_tree (freq_of S))) c
          = code.map (fun p => decide (p = '1'))) ∧
      (S.flatMap (code_bits (code_table (build_huffman_tree (freq_of S))))).length
        = (S.map (fun c =>
            code_len (code_table (build_huffman_tree (freq_of S))) (c % 256))).sum ∧
      ((write_header [] (freq_of S)).2 ++
          pack (S.flatMap (code_bits (code_table (build_huffman_tree (freq_of S)))))).length
        = 2 + 5 * (present (freq_of S)).length +
          ((S.map (fun c =>
            code_len (code_table (build_huffman_tree (freq_of S))) (c % 256))).sum + 7) / 8 := by
  have hB : (S.flatMap (code_bits (code_table (build_huffman_tree (freq_of S))))).length
      = (S.map (fun c =>
          code_len (code_table (build_huffman_tree (freq_of S))) (c % 256))).sum := by
    rw [flatMap_length_sum]
    apply congrArg List.sum
    apply List.map_congr_left
    intro c _
    exact code_bits_length _ c
  refine ⟨?_, ?_, hB, ?_⟩
  · rw [write_header_eq, List.nil_append]
    exact huffman_encode_eq S hne (by omega)
  · intro c hc
    obtain ⟨code, hcode⟩ := code_table_some (freq_of S) (c % 256)
      (mem_present_freq_of S hlen c hc)
    refine ⟨code, hcode, ?_⟩
    unfold code_bits
    rw [hcode]
  · rw [write_header_eq, List.nil_append, List.length_append, header_layout_length,
      pack_length, hB]

set_option maxRecDepth 100000 in
theorem encoded_output_layout_witness :
    huffman_encode (some [97, 97, 97, 98]) true
        = (1, some ((write_header [] (freq_of [97, 97, 97, 98])).2 ++
            pack ([97, 97, 97, 98].flatMap
              (code_bits (code_table (build_huffman_tree (freq_of [97, 97, 97, 98]))))))) ∧
      (write_header [] (freq_of [97, 97, 97, 98])).2 ++
          pack ([97, 97, 97, 98].flatMap
            (code_bits (code_table (build_huffman_tree (freq_of [97, 97, 97, 98])))))
        = [2, 0, 97, 3, 0, 0, 0, 98, 1, 0, 0, 0, 224] :=
  ⟨(encoded_output_layout [97, 97, 97, 98] (by decide) (by decide)).1, by decide⟩

/-! ## Decoding what the encoder wrote -/

theorem read_header_layout (t rest : List Nat) (ht : t.length = 256)
    (h32 : ∀ b, t.getD b 0 < 2 ^ 32) :
    read_header (header_layout t ++ rest) (List.replicate SYMBOLS 0) = (1, rest, t) := by
  unfold header_layout read_header
  rw [List.append_assoc, fread_append 2 _ _ (le_bytes_length 2 _)]
  simp only
  rw [le_value_le_bytes 2 _ (by have := present_length_le t; omega)]
  rw [read_pairs_pairs t (present t) rest _ ?_, foldl_set_present t ht]
  intro i hi
  exact ⟨((mem_present t i).mp hi).1, h32 i⟩

theorem walk_emit_cons (root cur : Node) (b : Bool) (bs : List Bool) :
    walk_emit root cur (b :: bs)
      = if (if b then cur.right else cur.left) ≠ .null ∧
            (if b then cur.right else cur.left).left = .null ∧
            (if b then cur.right else cur.left).right = .null then
          ((if b then cur.right else cur.left).symbol % 256) :: walk_emit root root bs
        else walk_emit root (if b then cur.right else cur.left) bs := by
  rw [walk_emit]

theorem bit_int_ne_neg_one (b : Bool) : bit_int b ≠ -1 := by
  cases b <;> simp [bit_int]

theorem bit_int_eq_zero (b : Bool) : bit_int b = 0 ↔ b = false := by
  cases b <;> simp [bit_int]

theorem decode_loop_eq (fuel : Nat) (root : Node) (br : BitReader) (cur : Node)
    (fout : List Nat)
    (hroot : ∃ s f l r, root = .mk s f l r ∧ Full l ∧ Full r)
    (hcur : ∃ s f l r, cur = .mk s f l r ∧ Full l ∧ Full r)
    (hbc : br.bit_count ≤ 8) (hfuel : (pending_bits br).length < fuel) :
    decode_loop fuel root br cur fout
      = some (fout ++ walk_emit root cur (pending_bits br)) := by
  induction fuel generalizing br cur fout with
  | zero => omega
  | succ fuel ih =>
    obtain ⟨s, f, l, r, rfl, hl, hr⟩ := hcur
    unfold decode_loop
    simp only
    cases hp : pending_bits br with
    | nil =>
      rw [pending_bits_eof br hp]
      simp [walk_emit]
    | cons b rest =>
      obtain ⟨h1, h2, h3⟩ := pending_bits_next br b rest hbc hp
      rw [h1, if_neg (bit_int_ne_neg_one b)]
      have hlen : (pending_bits (bitreader_read_bit br).2).length < fuel := by
        rw [h2]
        rw [hp] at hfuel
        simp only [List.length_cons] at hfuel
        omega
      have hnext : (if bit_int b = 0 then l else r) = (if b then r else l) := by
        cases b <;> simp [bit_int]
      rw [hnext]
      have hfull : Full (if b then r else l) := by
        split
        · exact hr
        · exact hl
      rw [walk_emit_cons]
      simp only [Node.left, Node.right]
      generalize (if b = true then r else l) = next at hfull
      cases next with
      | null => exact absurd hfull (by simp [Full])
      | mk s' f' a b' =>
        simp only [Node.left, Node.right, Node.symbol, ne_eq, not_false_eq_true, true_and,
          reduceCtorEq]
        by_cases hleaf : a = .null ∧ b' = .null
        · rw [if_pos hleaf, if_pos hleaf, ih _ _ _ hroot h3 hlen, h2]
          simp
        · rw [if_neg hleaf, if_neg hleaf]
          rcases hfull with h | h
          · exact absurd h hleaf
          · rw [ih _ _ _ ⟨s', f', a, b', rfl, h.1, h.2⟩ h3 hlen, h2]

theorem walk_null (q : List Char) : walk .null q = .null := by
  induction q with
  | nil => rfl
  | cons c cs ih =>
    unfold walk
    simp only [Node.left, Node.right, ih]
    split
    · rfl
    · split <;> rfl

theorem walk_emit_code (root : Node) (q : List Char) (cur : Node) (rest : List Bool)
    (s : Nat) (hq : q ≠ []) (hleaf : is_leaf (walk cur q)) (hsym : (walk cur q).symbol = s)
    (hpre : ∀ q', q' <+: q → q' ≠ q → q' ≠ [] → ¬ is_leaf (walk cur q')) :
    walk_emit root cur (q.map (fun p => decide (p = '1')) ++ rest)
      = (s % 256) :: walk_emit root root rest := by
  induction q generalizing cur with
  | nil => exact absurd rfl hq
  | cons c q1 ih =>
    have hc : c = '0' ∨ c = '1' := by
      by_contra hne
      simp only [not_or] at hne
      have : walk cur (c :: q1) = .null := by
        simp [walk, hne.1, hne.2]
      rw [this] at hleaf
      exact hleaf.1 rfl
    have hnext : (if decide (c = '1') = true then cur.right else cur.left) = walk cur [c] := by
      rcases hc with hc | hc <;> subst hc <;> simp [walk]
    have hstep : walk cur (c :: q1) = walk (walk cur [c]) q1 := by
      rcases hc with hc | hc <;> subst hc <;> simp [walk]
    simp only [List.map_cons, List.cons_append]
    rw [walk_emit_cons, hnext]
    by_cases hq1 : q1 = []
    · subst hq1
      have hl : walk cur [c] ≠ .null ∧ (walk cur [c]).left = .null ∧
          (walk cur [c]).right = .null := hleaf
      rw [if_pos hl]
      simp only [List.map_nil, List.nil_append]
      rw [hsym]
    · have hnl : ¬ (walk cur [c] ≠ .null ∧ (walk cur [c]).left = .null ∧
          (walk cur [c]).right = .null) :=
        hpre [c] (by simp) (by simp [hq1]) (by simp)
      rw [if_neg hnl]
      apply ih (walk cur [c]) hq1
      · rw [← hstep]; exact hleaf
      · rw [← hstep]; exact hsym
      · intro q' hq' hne hne0
        have := hpre (c :: q') (by simpa using hq') (by simpa using hne) (by simp)
        have hstep' : walk cur (c :: q') = walk (walk cur [c]) q' := by
          rcases hc with hc | hc <;> subst hc <;> simp [walk]
        rw [hstep'] at this
        exact this

theorem walk_emit_length_le (root : Node) (bs : List Bool) (cur : Node) :
    (walk_emit root cur bs).length ≤ bs.length := by
  induction bs generalizing cur with
  | nil => simp [walk_emit]
  | cons b bs ih =>
    rw [walk_emit_cons]
    by_cases h : (if b then cur.right else cur.left) ≠ .null ∧
        (if b then cur.right else cur.left).left = .null ∧
        (if b then cur.right else cur.left).right = .null
    · rw [if_pos h]
      simp only [List.length_cons]
      have := ih root
      omega
    · rw [if_neg h]
      simp only [List.length_cons]
      have := ih (if b = true then cur.right else cur.left)
      omega

theorem unpack_length (bytes : List Nat) : (unpack bytes).length = 8 * bytes.length := by
  induction bytes with
  | nil => rfl
  | cons c cs ih =>
    have : unpack (c :: cs) = byte_bits c ++ unpack cs := by simp [unpack]
    rw [this, List.length_append, ih]
    simp only [byte_bits, List.length_cons, List.length_nil]
    omega

theorem pending_bits_create (f : List Nat) : pending_bits (bitreader_create f) = unpack f := by
  simp [pending_bits, bitreader_create]

theorem walk_emit_body (T : Node) (codes : List (Option (List Char))) (S : List Nat)
    (rest : List Bool) (hroot : ¬ is_leaf T)
    (hcode : ∀ c ∈ S, ∃ p, codes.getD (c % 256) none = some p ∧ is_leaf (walk T p) ∧
      (walk T p).symbol = c % 256 ∧ ∀ q, q <+: p → q ≠ p → ¬ is_leaf (walk T q)) :
    walk_emit T T (S.flatMap (code_bits codes) ++ rest)
      = S.map (fun c => c % 256) ++ walk_emit T T rest := by
  induction S with
  | nil => simp
  | cons c cs ih =>
    obtain ⟨p, hp, hleaf, hsym, hpre⟩ := hcode c (by simp)
    have hcb : code_bits codes c = p.map (fun x => decide (x = '1')) := by
      unfold code_bits
      rw [hp]
    have hpne : p ≠ [] := by
      intro h0
      rw [h0] at hleaf
      exact hroot hleaf
    rw [List.flatMap_cons, hcb, List.append_assoc,
      walk_emit_code T p T _ (c % 256) hpne hleaf hsym (fun q h1 h2 _ => hpre q h1 h2),
      ih (fun c' hc' => hcode c' (List.mem_cons_of_mem _ hc'))]
    simp

theorem huffman_decode_encode_eq (S : List Nat) (hne : S ≠ []) (hlen : S.length < 2 ^ 32) :
    huffman_decode (huffman_encode (some S) true).2 true
      = some (1, some (S.map (fun c => c % 256) ++
          walk_emit (build_huffman_tree (freq_of S)) (build_huffman_tree (freq_of S))
            (List.replicate
              (8 * (((S.flatMap (code_bits (code_table (build_huffman_tree (freq_of S))))).length
                  + 7) / 8)
                - (S.flatMap (code_bits (code_table (build_huffman_tree (freq_of S))))).length)
              false))) := by
  rw [huffman_encode_eq S hne (lt_trans hlen (by norm_num))]
  unfold huffman_decode
  simp only
  rw [read_header_layout _ _ (freq_of_length S) (freq_of_lt S)]
  simp only
  have hpres : 1 ≤ (present (freq_of S)).length := by
    obtain ⟨c, hc⟩ := List.exists_mem_of_ne_nil S hne
    exact List.length_pos_of_mem (mem_present_freq_of S hlen c hc)
  have hint := build_huffman_tree_internal (freq_of S) hpres
  have hh := build_huffman_tree_height (freq_of S)
  have hcode : ∀ c ∈ S, ∃ p,
      (code_table (build_huffman_tree (freq_of S))).getD (c % 256) none = some p :=
    fun c hc => code_table_some (freq_of S) (c % 256) (mem_present_freq_of S hlen c hc)
  generalize build_huffman_tree (freq_of S) = T at hint hh hcode ⊢
  have hnl : ¬ is_leaf T := by
    obtain ⟨s, f, l, r, rfl, hl, hr⟩ := hint
    intro h
    have := h.2.1
    simp only [Node.left] at this
    rw [this] at hl
    simp [Full] at hl
  have hTn : T ≠ .null := by
    obtain ⟨s, f, l, r, rfl, hl, hr⟩ := hint
    simp
  have hcode2 : ∀ c ∈ S, ∃ p, (code_table T).getD (c % 256) none = some p ∧
      is_leaf (walk T p) ∧ (walk T p).symbol = c % 256 ∧
      ∀ q, q <+: p → q ≠ p → ¬ is_leaf (walk T q) := by
    intro c hc
    obtain ⟨p, hp⟩ := hcode c hc
    refine ⟨p, hp, ?_⟩
    exact code_table_walk T (List.replicate SYMBOLS NUL)
      (by rw [List.length_replicate]; exact hh) (c % 256) p hp
  rw [if_neg (by decide), if_neg hTn]
  simp only [not_true_eq_false, if_false]
  rw [decode_loop_eq _ T _ T [] hint hint (by simp [bitreader_create])
    (by rw [pending_bits_create, unpack_length]; omega)]
  rw [pending_bits_create, unpack_pack, walk_emit_body T _ S _ hnl hcode2]
  simp

theorem flatMap_code_bits_length (codes : List (Option (List Char))) (S : List Nat) :
    (S.flatMap (code_bits codes)).length
      = (S.map (fun c => code_len codes (c % 256))).sum := by
  rw [flatMap_length_sum]
  apply congrArg List.sum
  apply List.map_congr_left
  intro c _
  exact code_bits_length _ c

theorem map_mod_256 (S : List Nat) (hbytes : ∀ c ∈ S, c < 256) :
    S.map (fun c => c % 256) = S := by
  induction S with
  | nil => rfl
  | cons c cs ih =>
    rw [List.map_cons, ih (fun c' hc' => hbytes c' (List.mem_cons_of_mem _ hc')),
      Nat.mod_eq_of_lt (hbytes c (List.mem_cons_self _ _))]

/-- C20: for every non-empty input `S` of fewer than 2^32 bytes,
`huffman_decode` applied to the output of `huffman_encode` on `S` returns 1 and
writes `S` followed by a suffix `E`: what the decoder's tree walk, started at
the root, emits for the `8 * ceil(B / 8) - B` zero pad bits that follow the `B`
codeword bits in the last byte.  There are at most 7 pad bits and `E` has at
most 7 bytes; when `B` is a multiple of 8 the output is exactly `S`. -/
theorem decode_encode_extends_input (S : List Nat) (hne : S ≠ [])
    (hlen : S.length < 2 ^ 32) (hbytes : ∀ c ∈ S, c < 256) :
    huffman_decode (huffman_encode (some S) true).2 true
        = some (1, some (S ++
            walk_emit (build_huffman_tree (freq_of S)) (build_huffman_tree (freq_of S))
              (List.replicate
                (8 * (((S.map (fun c =>
                    code_len (code_table (build_huffman_tree (freq_of S))) (c % 256))).sum
                    + 7) / 8)
                  - (S.map (fun c =>
                    code_len (code_table (build_huffman_tree (freq_of S))) (c % 256))).sum)
                false))) ∧
      unpack (pack (S.flatMap (code_bits (code_table (build_huffman_tree (freq_of S))))))
        = S.flatMap (code_bits (code_table (build_huffman_tree (freq_of S)))) ++
            List.replicate
              (8 * (((S.map (fun c =>
                  code_len (code_table (build_huffman_tree (freq_of S))) (c % 256))).sum
                  + 7) / 8)
                - (S.map (fun c =>
                  code_len (code_table (build_huffman_tree (freq_of S))) (c % 256))).sum)
              false ∧
      8 * (((S.map (fun c =>
          code_len (code_table (build_huffman_tree (freq_of S))) (c % 256))).sum + 7) / 8)
        - (S.map (fun c =>
          code_len (code_table (build_huffman_tree (freq_of S))) (c % 256))).sum ≤ 7 ∧
      (walk_emit (build_huffman_tree (freq_of S)) (build_huffman_tree (freq_of S))
          (List.replicate
            (8 * (((S.map (fun c =>
                code_len (code_table (build_huffman_tree (freq_of S))) (c % 256))).sum
                + 7) / 8)
              - (S.map (fun c =>
                code_len (code_table (build_huffman_tree (freq_of S))) (c % 256))).sum)
            false)).length ≤ 7 ∧
      ((S.map (fun c =>
          code_len (code_table (build_huffman_tree (freq_of S))) (c % 256))).sum % 8 = 0 →
        huffman_decode (huffman_encode (some S) true).2 true = some (1, some S)) := by
  have hdec := huffman_decode_encode_eq S hne hlen
  have hup := unpack_pack (S.flatMap (code_bits (code_table (build_huffman_tree (freq_of S)))))
  rw [flatMap_code_bits_length, map_mod_256 S hbytes] at hdec
  rw [flatMap_code_bits_length] at hup
  generalize build_huffman_tree (freq_of S) = T at hdec hup ⊢
  generalize (S.map (fun c => code_len (code_table T) (c % 256))).sum = B at hdec hup ⊢
  have hpad : 8 * ((B + 7) / 8) - B ≤ 7 := by omega
  refine ⟨hdec, hup, hpad, ?_, ?_⟩
  · have := walk_emit_length_le T (List.replicate (8 * ((B + 7) / 8) - B) false) T
    rw [List.length_replicate] at this
    omega
  · intro h8
    have h0 : 8 * ((B + 7) / 8) - B = 0 := by omega
    rw [hdec, h0]
    simp [walk_emit]

set_option maxRecDepth 100000 in
theorem decode_encode_extends_input_witness :
    ([97, 97, 97, 98] : List Nat) ≠ [] ∧ ([97, 97, 97, 98] : List Nat).length < 2 ^ 32 ∧
      (∀ c ∈ ([97, 97, 97, 98] : List Nat), c < 256) ∧
      huffman_decode (huffman_encode (some [97, 97, 97, 98]) true).2 true
        = some (1, some ([97, 97, 97, 98] ++
            walk_emit (build_huffman_tree (freq_of [97, 97, 97, 98]))
              (build_huffman_tree (freq_of [97, 97, 97, 98]))
              (List.replicate
                (8 * ((([97, 97, 97, 98].map (fun c =>
                    code_len (code_table (build_huffman_tree (freq_of [97, 97, 97, 98])))
                      (c % 256))).sum + 7) / 8)
                  - ([97, 97, 97, 98].map (fun c =>
                    code_len (code_table (build_huffman_tree (freq_of [97, 97, 97, 98])))
                      (c % 256))).sum)
                false))) ∧
      walk_emit (build_huffman_tree (freq_of [97, 97, 97, 98]))
          (build_huffman_tree (freq_of [97, 97, 97, 98]))
          (List.replicate
            (8 * ((([97, 97, 97, 98].map (fun c =>
                code_len (code_table (build_huffman_tree (freq_of [97, 97, 97, 98])))
                  (c % 256))).sum + 7) / 8)
              - ([97, 97, 97, 98].map (fun c =>
                code_len (code_table (build_huffman_tree (freq_of [97, 97, 97, 98])))
                  (c % 256))).sum)
            false)
        = [98, 98, 98, 98] :=
  ⟨by decide, by decide, by decide,
    (decode_encode_extends_input [97, 97, 97, 98] (by decide) (by decide) (by decide)).1,
    by decide⟩

/-! ## The header of an input with all 256 byte values -/

/-- The count of a byte value is the number of its occurrences modulo 2^32. -/
theorem freq_of_getD_mod (S : List Nat) (b : Nat) (hb : b < 256) :
    (freq_of S).getD b 0 = (S.map (fun c => c % 256)).count b % 2 ^ 32 := by
  have h1 := count_bytes_getD S (List.replicate SYMBOLS 0) 0 b
    (by rw [List.length_replicate]; exact hb)
  have h2 := freq_of_lt S b
  unfold freq_of at h2 ⊢
  rw [getD_replicate_zero, Nat.zero_add, Nat.mod_eq_of_lt h2] at h1
  exact h1

theorem present_eq_range (ft : List Nat) (h : ∀ i, i < 256 → ft.getD i 0 ≠ 0) :
    present ft = List.range 256 := by
  unfold present
  rw [show SYMBOLS = 256 from rfl, List.filter_eq_self]
  intro i hi
  simpa using h i (by simpa using hi)

theorem map_mod_range : (List.range 256).map (fun c => c % 256) = List.range 256 := by
  have : ∀ c ∈ List.range 256, (fun c => c % 256) c = id c := by
    intro c hc
    exact Nat.mod_eq_of_lt (List.mem_range.mp hc)
  rw [List.map_congr_left this, List.map_id]

theorem count_replicate_range (n b : Nat) (hb : b < 256) :
    ((List.replicate n 0 ++ List.range 256).map (fun c => c % 256)).count b
      = (if b = 0 then n else 0) + 1 := by
  rw [List.map_append, List.map_replicate, map_mod_range, List.count_append,
    List.count_replicate, List.count_eq_of_nodup (List.nodup_range 256),
    if_pos (List.mem_range.mpr hb)]
  by_cases h0 : b = 0
  · subst h0; simp
  · have : ¬ ((0 % 256 == b) = true) := by
      simp only [Nat.zero_mod, beq_iff_eq]
      exact fun h => h0 h.symm
    rw [if_neg this, if_neg h0]

theorem freq_of_replicate_range (n : Nat) (hn : (n + 1) % 2 ^ 32 = 0) (b : Nat)
    (hb : b < 256) :
    (freq_of (List.replicate n 0 ++ List.range 256)).getD b 0 = if b = 0 then 0 else 1 := by
  rw [freq_of_getD_mod _ b hb, count_replicate_range n b hb]
  by_cases h0 : b = 0
  · rw [if_pos h0, if_pos h0, hn]
  · rw [if_neg h0, if_neg h0]
    norm_num

theorem present_replicate_range (n : Nat) (hn : (n + 1) % 2 ^ 32 = 0) :
    present (freq_of (List.replicate n 0 ++ List.range 256))
      = (List.range 256).filter (fun i => decide (i ≠ 0)) := by
  unfold present
  rw [show SYMBOLS = 256 from rfl]
  apply List.filter_congr
  intro i hi
  rw [freq_of_replicate_range n hn i (List.mem_range.mp hi)]
  by_cases h0 : i = 0
  · simp [h0]
  · simp [h0]

theorem header_layout_take_two (ft rest : List Nat) :
    (header_layout ft ++ rest).take 2 = le_bytes 2 (present ft).length := by
  unfold header_layout
  rw [List.append_assoc, List.take_append_of_le_length (by rw [le_bytes_length]),
    List.take_of_length_le (by rw [le_bytes_length])]

set_option maxRecDepth 100000 in
theorem present_replicate_range_length (n : Nat) (hn : (n + 1) % 2 ^ 32 = 0) :
    (present (freq_of (List.replicate n 0 ++ List.range 256))).length = 255 := by
  rw [present_replicate_range n hn]
  decide

/-- C6 (counterexample): the input made of 2^32 - 1 bytes 0 followed by the
bytes 0, 1, ..., 255 contains all 256 byte values, but byte 0 occurs 2^32
times and its 32-bit count wraps to 0: the table has 255 non-zero entries,
`write_header` writes the count 255 (bytes `255, 0`) and 1277 bytes in all,
and these are the first bytes of the output of `huffman_encode`. -/
theorem full_alphabet_count_wraps :
    (∀ b, b < 256 → b ∈ List.replicate (2 ^ 32 - 1) 0 ++ List.range 256) ∧
      (freq_of (List.replicate (2 ^ 32 - 1) 0 ++ List.range 256)).getD 0 0 = 0 ∧
      (present (freq_of (List.replicate (2 ^ 32 - 1) 0 ++ List.range 256))).length = 255 ∧
      (write_header [] (freq_of (List.replicate (2 ^ 32 - 1) 0 ++ List.range 256))).2.take 2
        = [255, 0] ∧
      (write_header [] (freq_of (List.replicate (2 ^ 32 - 1) 0 ++ List.range 256))).2.length
        = 1277 ∧
      ∃ rest, huffman_encode (some (List.replicate (2 ^ 32 - 1) 0 ++ List.range 256)) true
        = (1, some ([255, 0] ++ rest)) := by
  have hn : (2 ^ 32 - 1 + 1) % 2 ^ 32 = 0 := by norm_num
  have hlen := present_replicate_range_length (2 ^ 32 - 1) hn
  have h2 : le_bytes 2 255 = [255, 0] := by decide
  refine ⟨?_, ?_, hlen, ?_, ?_, ?_⟩
  · intro b hb
    exact List.mem_append_right _ (List.mem_range.mpr hb)
  · exact freq_of_replicate_range (2 ^ 32 - 1) hn 0 (by norm_num)
  · rw [write_header_eq, List.nil_append]
    have := header_layout_take_two
      (freq_of (List.replicate (2 ^ 32 - 1) 0 ++ List.range 256)) []
    rw [List.append_nil, hlen, h2] at this
    exact this
  · rw [write_header_eq, List.nil_append, header_layout_length, hlen]
  · have hne : List.replicate (2 ^ 32 - 1) 0 ++ List.range 256 ≠ [] := by
      intro h
      have := congrArg List.length h
      rw [List.length_append, List.length_replicate, List.length_range] at this
      norm_num at this
    have hl : (List.replicate (2 ^ 32 - 1) 0 ++ List.range 256).length < 2 ^ 64 := by
      rw [List.length_append, List.length_replicate, List.length_range]
      norm_num
    rw [huffman_encode_eq _ hne hl]
    unfold header_layout
    rw [hlen, h2, List.append_assoc]
    exact ⟨_, rfl⟩

/-- C6 (amended): `write_header` returns 1 and appends exactly `2 + 5 * k`
bytes, `k` the number of non-zero entries (`k ≤ 256`): the two-byte
little-endian count, whose value is `k` itself, then for each non-zero entry
in ascending order of byte value the byte value and the four bytes of its
frequency.  When all 256 entries are non-zero the count written is 256 (bytes
`0, 1`); this is the case for the table that `huffman_encode` counts from an
input of fewer than 2^32 bytes that contains all 256 byte values. -/
theorem write_header_layout (out ft : List Nat) :
    write_header out ft
        = (1, out ++ (le_bytes 2 (present ft).length ++
            (present ft).flatMap (fun i => i :: le_bytes 4 (ft.getD i 0)))) ∧
      (header_layout ft).length = 2 + 5 * (present ft).length ∧
      (present ft).length ≤ 256 ∧
      le_value (le_bytes 2 (present ft).length) = (present ft).length ∧
      (present ft).Sorted (· < ·) ∧
      ((∀ i, i < 256 → ft.getD i 0 ≠ 0) →
        (present ft).length = 256 ∧ le_bytes 2 (present ft).length = [0, 1]) ∧
      (∀ S : List Nat, ft = freq_of S → S.length < 2 ^ 32 → (∀ b, b < 256 → b ∈ S) →
        (present ft).length = 256 ∧ le_bytes 2 (present ft).length = [0, 1] ∧
        (write_header out ft).2.length = out.length + 1282) := by
  have hfull : (∀ i, i < 256 → ft.getD i 0 ≠ 0) →
      (present ft).length = 256 ∧ le_bytes 2 (present ft).length = [0, 1] := by
    intro h
    rw [present_eq_range ft h]
    simp [le_bytes]
  refine ⟨write_header_eq out ft, header_layout_length ft, present_length_le ft,
    le_value_le_bytes 2 _ (by have := present_length_le ft; omega), ?_, hfull, ?_⟩
  · unfold present
    exact List.Sorted.filter _ (List.sorted_lt_range _)
  · intro S hft hlen hall
    have hnz : ∀ i, i < 256 → ft.getD i 0 ≠ 0 := by
      intro i hi
      have := mem_present_freq_of S hlen i (hall i hi)
      rw [Nat.mod_eq_of_lt hi, ← hft] at this
      exact ((mem_present ft i).mp this).2
    obtain ⟨h1, h2⟩ := hfull hnz
    refine ⟨h1, h2, ?_⟩
    rw [write_header_eq, List.length_append, header_layout_length, h1]

theorem write_header_layout_witness :
    (present (freq_of (List.range 256))).length = 256 ∧
      le_bytes 2 (present (freq_of (List.range 256))).length = [0, 1] ∧
      (write_header [] (freq_of (List.range 256))).2.length = ([] : List Nat).length + 1282 :=
  (write_header_layout [] (freq_of (List.range 256))).2.2.2.2.2.2 (List.range 256) rfl
    (by rw [List.length_range]; norm_num) (fun _ hb => List.mem_range.mpr hb)

end Huffman
